import Mathlib

/-!
# Write-back block cache (`cache.h`, `cache.c`)

A shallow embedding of the cache engine of `cache.c` and the properties its
specification states about it.

Modelling conventions.

* A `Block` stands for the `BLOCK_SIZE` bytes of one buffer; `memcpy` of
  `BLOCK_SIZE` bytes between two such buffers copies the whole value.
* `uint64_t` and `size_t` values are natural numbers; every `++` on a counter is
  taken modulo `2 ^ 64` (`size_t` is taken to be 64 bits wide, as on LP64).
* `cache->blocks[0 .. num_blocks-1]` is a list, `num_blocks` is its length; a
  `cache_block_t*` into the array is an index, returned together with the entry.
* The simulated disk is a map from block id to block, an oracle telling which
  operation fails, and the trace of the operations issued.  A failed operation
  leaves the contents alone.  This is the store as most properties take it, "a
  map from block id to block".
* The file `simulated_disk.bin` itself is addressed by byte position:
  `block_id * BLOCK_SIZE` is computed in `uint64_t` and handed to `fseek` as a
  `long`, so block ids that agree modulo `2 ^ 52` share their bytes.
  `disk_offset`, `fseek_offset`, `file_position` and `disk_write_at` describe
  this; for block ids below `2 ^ 51` the position is `block_id * BLOCK_SIZE` and
  the two views agree.
* `malloc` may return `NULL`: the outcome of the two allocations of a fresh
  entry is an argument of `cache_read` and `cache_write`.
* `NULL` cache handles and buffers are excluded by the types.
-/

namespace CacheFramework

/-! ## Constants of `cache.h` -/

def CACHE_SUCCESS : Int := 0
def CACHE_ERROR : Int := -1
def MAX_CACHE_BLOCKS : Nat := 1024
def BLOCK_SIZE : Nat := 4096

/-- Number of values of a `uint64_t`. -/
def UINT64_MOD : Nat := 2 ^ 64

/-- Number of values of a `size_t` (64-bit). -/
def SIZE_MOD : Nat := 2 ^ 64

/-! ## Data model -/

/-- Contents of one `BLOCK_SIZE`-byte buffer. -/
abbrev Block := List Nat

/-- The struct `cache_block_t`; `dirty` is the C `int` used as a flag. -/
structure cache_block_t where
  block_id : Nat
  data : Block
  last_access : Nat
  dirty : Bool
deriving DecidableEq

/-- The struct `cache_t`; `blocks` holds `blocks[0 .. num_blocks-1]`. -/
structure cache_t where
  blocks : List cache_block_t
  access_counter : Nat
  hits : Nat
  misses : Nat
deriving DecidableEq

/-- The field `num_blocks`. -/
def cache_t.num_blocks (cache : cache_t) : Nat := cache.blocks.length

/-! ## The simulated disk -/

/-- One operation issued to the backing store, with its outcome. -/
inductive DiskOp where
  | read (block_id : Nat) (ok : Bool)
  | write (block_id : Nat) (data : Block) (ok : Bool)
deriving DecidableEq

/-- State of the backing store: `store` maps a block id to its contents,
`fails n` tells whether the operation issued after `n` earlier ones fails, and
`log` is the trace of the operations issued so far, most recent first. -/
structure Disk where
  store : Nat → Block
  fails : Nat → Bool
  log : List DiskOp

/-- Whether the next operation issued to the disk fails. -/
def Disk.next_fails (d : Disk) : Bool := d.fails d.log.length

/-- The function `disk_read`: result code, contents of `buffer` afterwards, disk.
The file `simulated_disk.bin` is the map `store`, keyed by block id (the byte
position read is `file_position block_id`); `fopen` failing or `fread` coming
up short is the oracle answering that the operation fails, and then the result
is `CACHE_ERROR`.  The bytes a short `fread` leaves in `buffer` are never used:
the caller frees the buffer. -/
def disk_read (d : Disk) (block_id : Nat) (buffer : Block) : Int × Block × Disk :=
  if d.next_fails then
    (CACHE_ERROR, buffer, { d with log := DiskOp.read block_id false :: d.log })
  else
    (CACHE_SUCCESS, d.store block_id, { d with log := DiskOp.read block_id true :: d.log })

/-- The function `disk_write`: result code and disk afterwards, with the store
keyed by block id (`disk_write_at` is the same function keyed by byte
position).  `fopen` failing or `fwrite` coming up short is the oracle answering
that the operation fails; the result is then `CACHE_ERROR` and the contents are
as before. -/
def disk_write (d : Disk) (block_id : Nat) (buffer : Block) : Int × Disk :=
  if d.next_fails then
    (CACHE_ERROR, { d with log := DiskOp.write block_id buffer false :: d.log })
  else
    (CACHE_SUCCESS,
      { d with store := Function.update d.store block_id buffer,
               log := DiskOp.write block_id buffer true :: d.log })

/-! ## The cache engine -/

/-- Outcome of the two `malloc` calls that admit a fresh entry:
`malloc(sizeof(cache_block_t))` and `malloc(BLOCK_SIZE)`. -/
structure Malloc where
  block_ok : Bool
  data_ok : Bool
deriving DecidableEq

/-- Both allocations succeed. -/
def Malloc.ok : Malloc := ⟨true, true⟩

/-- A freshly allocated entry: its fields are indeterminate and each is
assigned before it is read. -/
def fresh_block : cache_block_t := ⟨0, [], 0, false⟩

/-- The function `cache_init`; `ok` tells whether `malloc` succeeds. -/
def cache_init (ok : Bool) : Option cache_t :=
  if ok then some ⟨[], 0, 0, 0⟩ else none

/-- The loop of `find_block`, from index `i` on. -/
def find_block_loop (blocks : List cache_block_t) (block_id : Nat) (i : Nat) :
    Option (Nat × cache_block_t) :=
  match blocks with
  | [] => none
  | b :: rest =>
    if b.block_id = block_id then some (i, b) else find_block_loop rest block_id (i + 1)

/-- The function `find_block`: the first entry with the id, with its index. -/
def find_block (cache : cache_t) (block_id : Nat) : Option (Nat × cache_block_t) :=
  find_block_loop cache.blocks block_id 0

/-- The scan of `evict_block` for the least recently used entry: `blocks` are
the entries from index `i` on, the result is the final `lru_index`. -/
def lru_scan (blocks : List cache_block_t) (i lru_index min_access : Nat) : Nat :=
  match blocks with
  | [] => lru_index
  | b :: rest =>
    if b.last_access < min_access then lru_scan rest (i + 1) i b.last_access
    else lru_scan rest (i + 1) lru_index min_access

/-- The index `lru_index` that `evict_block` computes. -/
def lru_index (blocks : List cache_block_t) : Nat :=
  match blocks with
  | [] => 0
  | b :: rest => lru_scan rest 1 0 b.last_access

/-- The function `evict_block`: the victim (`none` for `NULL`), the cache and
the disk afterwards.  The result of `disk_write` is dropped, as in the source. -/
def evict_block (cache : cache_t) (d : Disk) : Option cache_block_t × cache_t × Disk :=
  match cache.blocks with
  | [] => (none, cache, d)
  | b :: rest =>
    let i := lru_index (b :: rest)
    let victim := (b :: rest).getD i b
    let d1 := if victim.dirty then (disk_write d victim.block_id victim.data).2 else d
    (some victim, { cache with blocks := (b :: rest).eraseIdx i }, d1)

/-- Result of `cache_read`: return code, cache, disk and the caller's buffer. -/
structure ReadResult where
  ret : Int
  cache : cache_t
  disk : Disk
  buffer : Block

/-- The part of `cache_read` after a slot `block` has been obtained. -/
def cache_read_fill (cache : cache_t) (d : Disk) (block : cache_block_t) (block_id : Nat)
    (buffer : Block) : ReadResult :=
  match disk_read d block_id block.data with
  | (r, data, d1) =>
    if r ≠ CACHE_SUCCESS then ⟨CACHE_ERROR, cache, d1, buffer⟩
    else
      let ac := (cache.access_counter + 1) % UINT64_MOD
      let block1 : cache_block_t :=
        { block with data := data, block_id := block_id, last_access := ac, dirty := false }
      ⟨CACHE_SUCCESS, { cache with blocks := cache.blocks ++ [block1], access_counter := ac },
        d1, block1.data⟩

/-- The function `cache_read`. -/
def cache_read (cache : cache_t) (d : Disk) (m : Malloc) (block_id : Nat) (buffer : Block) :
    ReadResult :=
  match find_block cache block_id with
  | some (i, block) =>
    let ac := (cache.access_counter + 1) % UINT64_MOD
    ⟨CACHE_SUCCESS,
      { cache with blocks := cache.blocks.set i { block with last_access := ac },
                   access_counter := ac,
                   hits := (cache.hits + 1) % SIZE_MOD },
      d, block.data⟩
  | none =>
    let cache1 : cache_t := { cache with misses := (cache.misses + 1) % SIZE_MOD }
    if cache1.num_blocks ≥ MAX_CACHE_BLOCKS then
      match evict_block cache1 d with
      | (none, cache2, d2) => ⟨CACHE_ERROR, cache2, d2, buffer⟩
      | (some block, cache2, d2) => cache_read_fill cache2 d2 block block_id buffer
    else if m.block_ok = false then ⟨CACHE_ERROR, cache1, d, buffer⟩
    else if m.data_ok = false then ⟨CACHE_ERROR, cache1, d, buffer⟩
    else cache_read_fill cache1 d fresh_block block_id buffer

/-- Result of `cache_write` and `cache_flush`: return code, cache and disk. -/
structure OpResult where
  ret : Int
  cache : cache_t
  disk : Disk

/-- The part of `cache_write` after the entry at index `i` has been found or
admitted: copy the buffer, stamp the entry and mark it dirty. -/
def cache_write_store (cache : cache_t) (d : Disk) (i : Nat) (block : cache_block_t)
    (buffer : Block) : OpResult :=
  let ac := (cache.access_counter + 1) % UINT64_MOD
  ⟨CACHE_SUCCESS,
    { cache with blocks := cache.blocks.set i
                   { block with data := buffer, last_access := ac, dirty := true },
                 access_counter := ac },
    d⟩

/-- The insertion of `block` for `block_id` in `cache_write`: set the id and
append the entry. -/
def cache_write_insert (cache : cache_t) (d : Disk) (block : cache_block_t) (block_id : Nat)
    (buffer : Block) : OpResult :=
  let block1 : cache_block_t := { block with block_id := block_id }
  let cache1 : cache_t := { cache with blocks := cache.blocks ++ [block1] }
  cache_write_store cache1 d cache.num_blocks block1 buffer

/-- The function `cache_write`. -/
def cache_write (cache : cache_t) (d : Disk) (m : Malloc) (block_id : Nat) (buffer : Block) :
    OpResult :=
  match find_block cache block_id with
  | some (i, block) => cache_write_store cache d i block buffer
  | none =>
    if cache.num_blocks ≥ MAX_CACHE_BLOCKS then
      match evict_block cache d with
      | (none, cache2, d2) => ⟨CACHE_ERROR, cache2, d2⟩
      | (some block, cache2, d2) => cache_write_insert cache2 d2 block block_id buffer
    else if m.block_ok = false then ⟨CACHE_ERROR, cache, d⟩
    else if m.data_ok = false then ⟨CACHE_ERROR, cache, d⟩
    else cache_write_insert cache d fresh_block block_id buffer

/-- The loop of `cache_flush` over the entries from some index on: return code,
the entries afterwards, the disk afterwards. -/
def flush_loop (blocks : List cache_block_t) (d : Disk) : Int × List cache_block_t × Disk :=
  match blocks with
  | [] => (CACHE_SUCCESS, [], d)
  | b :: rest =>
    if b.dirty then
      match disk_write d b.block_id b.data with
      | (r, d1) =>
        if r ≠ CACHE_SUCCESS then (CACHE_ERROR, b :: rest, d1)
        else
          match flush_loop rest d1 with
          | (r2, rest2, d2) => (r2, { b with dirty := false } :: rest2, d2)
    else
      match flush_loop rest d with
      | (r2, rest2, d2) => (r2, b :: rest2, d2)

/-- The function `cache_flush`. -/
def cache_flush (cache : cache_t) (d : Disk) : OpResult :=
  match flush_loop cache.blocks d with
  | (r, blocks, d1) => ⟨r, { cache with blocks := blocks }, d1⟩

/-- The function `cache_stats`: the values stored to `*hits` and `*misses`. -/
def cache_stats (cache : cache_t) : Nat × Nat := (cache.hits, cache.misses)

/-! ## Specification vocabulary -/

/-- Block `b` is resident: some entry of the cache carries its id. -/
def resident (cache : cache_t) (b : Nat) : Prop := ∃ e ∈ cache.blocks, e.block_id = b

instance (cache : cache_t) (b : Nat) : Decidable (resident cache b) := by
  unfold resident; infer_instance

/-- States reachable from `cache_init` by calls of `cache_read`, `cache_write`
and `cache_flush` with 64-bit block ids, whatever the allocator and the disk
answer.  The disk is changed by the cache only. -/
inductive Reachable : cache_t → Disk → Prop where
  | init (c : cache_t) (d : Disk) (h : cache_init true = some c) : Reachable c d
  | read (c : cache_t) (d : Disk) (m : Malloc) (b : Nat) (buf : Block)
      (hb : b < UINT64_MOD) (h : Reachable c d) :
      Reachable (cache_read c d m b buf).cache (cache_read c d m b buf).disk
  | write (c : cache_t) (d : Disk) (m : Malloc) (b : Nat) (buf : Block)
      (hb : b < UINT64_MOD) (h : Reachable c d) :
      Reachable (cache_write c d m b buf).cache (cache_write c d m b buf).disk
  | flush (c : cache_t) (d : Disk) (h : Reachable c d) :
      Reachable (cache_flush c d).cache (cache_flush c d).disk

/-- Index `r` holds the least recently used entry of `bs`: its stamp is minimal,
and strictly smaller than every stamp before it. -/
def IsLRU (bs : List cache_block_t) (r : Nat) : Prop :=
  ∃ v, bs[r]? = some v ∧ (∀ e ∈ bs, v.last_access ≤ e.last_access) ∧
    ∀ k, k < r → ∀ e, bs[k]? = some e → v.last_access < e.last_access

/-- The disk after the write-back of a victim: `disk_write` is called when the
victim is dirty and its result is dropped. -/
def write_back (d : Disk) (v : cache_block_t) : Disk :=
  if v.dirty then (disk_write d v.block_id v.data).2 else d

/-- The value `++cache->access_counter`. -/
def next_stamp (c : cache_t) : Nat := (c.access_counter + 1) % UINT64_MOD

/-- The cache with the misses counter incremented, as `cache_read` does on a miss. -/
def count_miss (c : cache_t) : cache_t := { c with misses := (c.misses + 1) % SIZE_MOD }

/-- A block whose `BLOCK_SIZE` bytes all equal `byte`. -/
def fill (byte : Nat) : Block := List.replicate BLOCK_SIZE byte

/-- A disk on which every block holds zeros and no operation fails. -/
def disk0 : Disk := ⟨fun _ => fill 0, fun _ => false, []⟩

/-- The call `cache_write(b, X)` followed at once by `cache_read(b, buf)`, the
pattern of `test_random_access`; the result is that of the read. -/
def write_then_read (c : cache_t) (d : Disk) (m m' : Malloc) (b : Nat) (X buf : Block) :
    ReadResult :=
  cache_read (cache_write c d m b X).cache (cache_write c d m b X).disk m' b buf

/-- A cache holding block 0 whose `hits` counter has its last value. -/
def hits_at_max : cache_t := ⟨[⟨0, fill 170, 0, true⟩], 0, 18446744073709551615, 0⟩

/-- The block ids of the entries, in array order. -/
def block_ids (bs : List cache_block_t) : List Nat := bs.map cache_block_t.block_id

/-- Invariants I1 and I2: at most `MAX_CACHE_BLOCKS` entries, with pairwise
distinct block ids. -/
def WellFormed (c : cache_t) : Prop :=
  (block_ids c.blocks).Nodup ∧ c.blocks.length ≤ MAX_CACHE_BLOCKS

/-- A run of `cache_write` calls, one for each pair (block id, data) of `ws` in
order, every allocation succeeding. -/
def write_all (c : cache_t) (d : Disk) : List (Nat × Block) → cache_t × Disk
  | [] => (c, d)
  | (w, Y) :: rest =>
    write_all (cache_write c d Malloc.ok w Y).cache (cache_write c d Malloc.ok w Y).disk rest

/-- Invariant of the writes that follow `cache_write(b, X)` issued at access
counter `s` and disk trace `l0`, once the ids `done` have been written: either
`b` still holds `X`, dirty, with stamp `s + 1`, and every id of `done` is resident
with a later stamp; or `b` has been evicted from a full cache and written back. -/
structure RoundTrip (s b : Nat) (X : Block) (l0 : List DiskOp) (done : List Nat)
    (c : cache_t) (d : Disk) : Prop where
  wf : WellFormed c
  ok : ∀ n, d.fails n = false
  counter : c.access_counter = s + 1 + done.length
  log : ∃ l, d.log = l ++ l0 ∧ (¬ resident c b → d.store b = X ∧ DiskOp.write b X true ∈ l)
  cases : (⟨b, X, s + 1, true⟩ ∈ c.blocks ∧
            ∀ w ∈ done, ∃ e ∈ c.blocks, e.block_id = w ∧ s + 1 < e.last_access) ∨
          (¬ resident c b ∧ c.blocks.length = MAX_CACHE_BLOCKS)

/-- The cache and the disk once a miss has obtained its slot: after
`evict_block` when the cache is full, unchanged when there is room. -/
def make_room (c : cache_t) (d : Disk) : cache_t × Disk :=
  if MAX_CACHE_BLOCKS ≤ c.num_blocks then (evict_block c d).2 else (c, d)

/-- The state after `cache_write(b, X)` followed by the writes `ws`, the
pattern of `test_cache_eviction`. -/
def after_writes (c : cache_t) (d : Disk) (b : Nat) (X : Block) (ws : List (Nat × Block)) :
    cache_t × Disk :=
  write_all (cache_write c d Malloc.ok b X).cache (cache_write c d Malloc.ok b X).disk ws

/-- The writes of 0xCC to the `MAX_CACHE_BLOCKS` blocks `first, first + 1, ...`. -/
def eviction_writes (first : Nat) : List (Nat × Block) :=
  (List.range MAX_CACHE_BLOCKS).map (fun i => (i + first, fill 204))

/-- A cache holding block 0 whose access counter is two short of its last value. -/
def stamps_near_max : cache_t :=
  ⟨[⟨0, fill 170, 18446744073709551614, true⟩], 18446744073709551614, 0, 0⟩

/-- An empty cache whose `misses` counter has its last value. -/
def misses_at_max : cache_t := ⟨[], 0, 0, 18446744073709551615⟩

/-- The cache after `cache_write` of 0xCC to the blocks `0 .. n-1` of a fresh
cache, for `n ≤ MAX_CACHE_BLOCKS`. -/
def filled_cache (n : Nat) : cache_t :=
  ⟨(List.range n).map (fun i => ⟨i, fill 204, i + 1, true⟩), n, 0, 0⟩

/-- The full cache left by writing the blocks `0 .. MAX_CACHE_BLOCKS-1`. -/
def full_cache : cache_t := filled_cache MAX_CACHE_BLOCKS

/-- A disk of zeros whose first operation fails and whose later ones succeed. -/
def disk_fail_first : Disk := ⟨fun _ => fill 0, fun n => decide (n = 0), []⟩

/-- Invariant I4 for a cache and a disk: every clean entry holds what the disk
holds for its block id. -/
def CleanMirrors (c : cache_t) (d : Disk) : Prop :=
  ∀ e ∈ c.blocks, e.dirty = false → d.store e.block_id = e.data

/-- A cache whose only entry is clean but differs from the disk `disk0`. -/
def stale_cache : cache_t := ⟨[⟨0, fill 170, 1, false⟩], 1, 0, 0⟩

/-- The entry with its dirty flag cleared. -/
def cleaned (e : cache_block_t) : cache_block_t := { e with dirty := false }

/-- The number of dirty entries of a list of entries. -/
def dirty_count (bs : List cache_block_t) : Nat := (bs.filter (fun e => e.dirty)).length

/-- The trace, most recent first, of the successful write-backs of the dirty
entries of `bs`, issued in array order. -/
def flush_writes (bs : List cache_block_t) : List DiskOp :=
  ((bs.filter (fun e => e.dirty)).map (fun e => DiskOp.write e.block_id e.data true)).reverse

/-- A cache of four entries: blocks 0, 2 and 3 dirty, block 1 clean. -/
def mixed_cache : cache_t :=
  ⟨[⟨0, fill 170, 1, true⟩, ⟨1, fill 0, 2, false⟩, ⟨2, fill 187, 3, true⟩,
    ⟨3, fill 204, 4, true⟩], 4, 0, 1⟩

/-- A disk of zeros whose second operation fails and whose other ones succeed. -/
def disk_fail_second : Disk := ⟨fun _ => fill 0, fun n => decide (n = 1), []⟩

/-- The access stamps of the entries, in array order. -/
def stamps (bs : List cache_block_t) : List Nat := bs.map cache_block_t.last_access

/-- Two calls of `cache_flush` in a row; the result is that of the second. -/
def flush_twice (c : cache_t) (d : Disk) : OpResult :=
  cache_flush (cache_flush c d).cache (cache_flush c d).disk

/-- A cache holding block 0 whose access counter has its last value. -/
def stamps_at_max : cache_t :=
  ⟨[⟨0, fill 170, 18446744073709551615, true⟩], 18446744073709551615, 0, 0⟩

/-- The ten writes of 0xAA to blocks 0 to 9 of `test_sequential_access`. -/
def sequential_writes : List (Nat × Block) := (List.range 10).map (fun i => (i, fill 170))

/-- The states reachable from `cache_init` by exactly `n` calls of `cache_read`,
`cache_write` and `cache_flush`. -/
inductive ReachableIn : Nat → cache_t → Disk → Prop where
  | init (c : cache_t) (d : Disk) (h : cache_init true = some c) : ReachableIn 0 c d
  | read (n : Nat) (c : cache_t) (d : Disk) (m : Malloc) (b : Nat) (buf : Block)
      (hb : b < UINT64_MOD) (h : ReachableIn n c d) :
      ReachableIn (n + 1) (cache_read c d m b buf).cache (cache_read c d m b buf).disk
  | write (n : Nat) (c : cache_t) (d : Disk) (m : Malloc) (b : Nat) (buf : Block)
      (hb : b < UINT64_MOD) (h : ReachableIn n c d) :
      ReachableIn (n + 1) (cache_write c d m b buf).cache (cache_write c d m b buf).disk
  | flush (n : Nat) (c : cache_t) (d : Disk) (h : ReachableIn n c d) :
      ReachableIn (n + 1) (cache_flush c d).cache (cache_flush c d).disk

/-- Invariant I5: the stamps of the entries are pairwise distinct and none
exceeds the access counter. -/
def StampsOrdered (c : cache_t) : Prop :=
  (stamps c.blocks).Nodup ∧ ∀ e ∈ c.blocks, e.last_access ≤ c.access_counter

/-- A cache whose access counter has wrapped to 0 while block 1 keeps stamp 1. -/
def wrapped_cache : cache_t := ⟨[⟨1, fill 170, 1, true⟩, ⟨0, fill 170, 0, true⟩], 0, 0, 0⟩

/-- The cache `wrapped_cache` after one more write of block 0: both stamps are 1. -/
def tied_cache : cache_t := ⟨[⟨1, fill 170, 1, true⟩, ⟨0, fill 170, 1, true⟩], 1, 0, 0⟩

/-- The value of the expression `block_id * BLOCK_SIZE` in `disk_read` and
`disk_write`: the product of a `uint64_t` and the constant 4096, taken in
`uint64_t`, that is modulo `2^64`. -/
def disk_offset (block_id : Nat) : Nat := (block_id * BLOCK_SIZE) % UINT64_MOD

/-- The value that `fseek` receives for its parameter `long offset` when passed
`block_id * BLOCK_SIZE`: the 64-bit two's complement reading of the product
(`long` is taken to be 64 bits wide, as on LP64). -/
def fseek_offset (block_id : Nat) : Int :=
  if disk_offset block_id < 2 ^ 63 then (disk_offset block_id : Int)
  else (disk_offset block_id : Int) - 2 ^ 64

/-- The logical content of block `b`: the data of the entry that `find_block`
returns for `b` if there is one, else what the disk holds for `b`. -/
def logical (c : cache_t) (d : Disk) (b : Nat) : Block :=
  match find_block c b with
  | some (_, e) => e.data
  | none => d.store b

/-- The data of the first entry for `b` in a list of entries, if there is one. -/
def cached_data : List cache_block_t → Nat → Option Block
  | [], _ => none
  | e :: rest, b => if e.block_id = b then some e.data else cached_data rest b

/-- The disk operations issued between the disk states `d` and `d'`, most
recent first. -/
def issued (d d' : Disk) : List DiskOp := d'.log.take (d'.log.length - d.log.length)

/-- No disk write issued between `d` and `d'` has failed. -/
def writes_succeed (d d' : Disk) : Prop :=
  ∀ id data, DiskOp.write id data false ∉ issued d d'

/-! ## The store as a file of bytes -/

/-- The loop of `find_block` from index `i` on, with the array indexed as in
the source: each turn reads `blocks[i]`.  The outer `none` marks a read of
`blocks[i]` at an index `i` that is not below the number of entries. -/
def find_block_indexed (blocks : List cache_block_t) (num_blocks block_id i : Nat) :
    Option (Option (Nat × cache_block_t)) :=
  if i < num_blocks then
    match blocks[i]? with
    | none => none
    | some b =>
      if b.block_id = block_id then some (some (i, b))
      else find_block_indexed blocks num_blocks block_id (i + 1)
  else some none
termination_by num_blocks - i

/-- The scan loop of `evict_block` from index `i` on, reading `blocks[i]` by
index; the result is the final `lru_index`, and `none` marks a read at an
index that is not below the number of entries. -/
def lru_scan_indexed (blocks : List cache_block_t) (num_blocks i lru_index min_access : Nat) :
    Option Nat :=
  if i < num_blocks then
    match blocks[i]? with
    | none => none
    | some b =>
      if b.last_access < min_access then
        lru_scan_indexed blocks num_blocks (i + 1) i b.last_access
      else lru_scan_indexed blocks num_blocks (i + 1) lru_index min_access
  else some lru_index
termination_by num_blocks - i

/-- The removal loop of `evict_block` from index `i` on:
`blocks[i] = blocks[i + 1]` while `i < num_blocks - 1`.  It runs after the
early return for `num_blocks == 0`, so `num_blocks - 1` does not wrap.  The
result `none` marks a read of `blocks[i + 1]` at an index that is not below the
number of entries. -/
def shift_indexed (blocks : List cache_block_t) (num_blocks i : Nat) :
    Option (List cache_block_t) :=
  if i < num_blocks - 1 then
    match blocks[i + 1]? with
    | none => none
    | some b => shift_indexed (blocks.set i b) num_blocks (i + 1)
  else some blocks
termination_by num_blocks - 1 - i

/-- The function `evict_block` with the array indexed as in the source: the
reads of `blocks[0]`, of `blocks[i]` in the scan, of `blocks[lru_index]` and of
`blocks[i + 1]` in the removal loop, then `num_blocks--`.  The outer `none`
marks a read at an index that is not below `num_blocks`. -/
def evict_block_indexed (cache : cache_t) (d : Disk) :
    Option (Option cache_block_t × cache_t × Disk) :=
  if cache.num_blocks = 0 then some (none, cache, d)
  else
    match cache.blocks[0]? with
    | none => none
    | some b0 =>
      match lru_scan_indexed cache.blocks cache.num_blocks 1 0 b0.last_access with
      | none => none
      | some i =>
        match cache.blocks[i]? with
        | none => none
        | some victim =>
          let d1 := if victim.dirty then (disk_write d victim.block_id victim.data).2 else d
          match shift_indexed cache.blocks cache.num_blocks i with
          | none => none
          | some blocks1 =>
            some (some victim, { cache with blocks := blocks1.take (cache.num_blocks - 1) }, d1)

/-- The loop of `cache_flush` from index `i` on, reading and updating
`blocks[i]` by index: return code, the entries and the disk afterwards.  The
outer `none` marks a read at an index that is not below the number of entries. -/
def flush_indexed (blocks : List cache_block_t) (num_blocks : Nat) (d : Disk) (i : Nat) :
    Option (Int × List cache_block_t × Disk) :=
  if i < num_blocks then
    match blocks[i]? with
    | none => none
    | some b =>
      if b.dirty then
        match disk_write d b.block_id b.data with
        | (r, d1) =>
          if r ≠ CACHE_SUCCESS then some (CACHE_ERROR, blocks, d1)
          else flush_indexed (blocks.set i { b with dirty := false }) num_blocks d1 (i + 1)
      else flush_indexed blocks num_blocks d (i + 1)
  else some (CACHE_SUCCESS, blocks, d)
termination_by num_blocks - i

/-- The function `cache_flush` with the array indexed as in the source. -/
def cache_flush_indexed (cache : cache_t) (d : Disk) : Option OpResult :=
  match flush_indexed cache.blocks cache.num_blocks d 0 with
  | none => none
  | some (r, blocks, d1) => some ⟨r, { cache with blocks := blocks }, d1⟩

/-! # Properties -/

/-! ## Lookup -/

theorem find_block_loop_eq_none {bs : List cache_block_t} {id i : Nat} :
    find_block_loop bs id i = none ↔ ∀ e ∈ bs, e.block_id ≠ id := by
  induction bs generalizing i with
  | nil => simp [find_block_loop]
  | cons b rest ih =>
    by_cases hb : b.block_id = id
    · simp [find_block_loop, hb]
    · simp [find_block_loop, hb, ih]

theorem find_block_eq_none {c : cache_t} {b : Nat} :
    find_block c b = none ↔ ¬ resident c b := by
  unfold find_block resident
  rw [find_block_loop_eq_none]
  constructor
  · rintro h ⟨e, he, hid⟩
    exact h e he hid
  · intro h e he hid
    exact h ⟨e, he, hid⟩

theorem find_block_loop_some {bs : List cache_block_t} {id i j : Nat} {e : cache_block_t}
    (h : find_block_loop bs id i = some (j, e)) :
    ∃ k, j = i + k ∧ bs[k]? = some e ∧ e.block_id = id ∧
      ∀ k', k' < k → ∀ e', bs[k']? = some e' → e'.block_id ≠ id := by
  induction bs generalizing i with
  | nil => simp [find_block_loop] at h
  | cons b rest ih =>
    by_cases hb : b.block_id = id
    · simp [find_block_loop, hb] at h
      refine ⟨0, by omega, by simp [h.2], by rw [← h.2]; exact hb, ?_⟩
      intro k' hk'
      omega
    · simp [find_block_loop, hb] at h
      obtain ⟨k, hj, hk, hid, hbefore⟩ := ih h
      refine ⟨k + 1, by omega, by simpa using hk, hid, ?_⟩
      intro k' hk' e' he'
      cases k' with
      | zero =>
        simp at he'
        rw [← he']
        exact hb
      | succ n =>
        simp at he'
        exact hbefore n (by omega) e' he'

theorem find_block_some {c : cache_t} {b i : Nat} {e : cache_block_t}
    (h : find_block c b = some (i, e)) :
    c.blocks[i]? = some e ∧ e.block_id = b ∧
      ∀ k, k < i → ∀ e', c.blocks[k]? = some e' → e'.block_id ≠ b := by
  obtain ⟨k, hj, hk, hid, hbefore⟩ := find_block_loop_some h
  have : i = k := by omega
  subst this
  exact ⟨hk, hid, hbefore⟩

theorem find_block_loop_first {bs : List cache_block_t} {id i k : Nat} {e : cache_block_t}
    (hk : bs[k]? = some e) (hid : e.block_id = id)
    (hbefore : ∀ k', k' < k → ∀ e', bs[k']? = some e' → e'.block_id ≠ id) :
    find_block_loop bs id i = some (i + k, e) := by
  induction bs generalizing i k with
  | nil => simp at hk
  | cons b rest ih =>
    cases k with
    | zero =>
      simp at hk
      subst hk
      simp [find_block_loop, hid]
    | succ n =>
      have hb : b.block_id ≠ id := hbefore 0 (by omega) b (by simp)
      simp at hk
      have := ih (i := i + 1) hk (fun k' hk' e' he' => hbefore (k' + 1) (by omega) e' (by simpa using he'))
      simp [find_block_loop, hb, this]
      omega

theorem find_block_first {c : cache_t} {b k : Nat} {e : cache_block_t}
    (hk : c.blocks[k]? = some e) (hid : e.block_id = b)
    (hbefore : ∀ k', k' < k → ∀ e', c.blocks[k']? = some e' → e'.block_id ≠ b) :
    find_block c b = some (k, e) := by
  have := find_block_loop_first (i := 0) hk hid hbefore
  simpa [find_block] using this

/-! ## Replacement -/

theorem lru_scan_spec (all : List cache_block_t) :
    ∀ (bs : List cache_block_t) (i lru mn : Nat) (v : cache_block_t),
      all.drop i = bs → lru < i → all[lru]? = some v → v.last_access = mn →
      (∀ k, k < i → ∀ e, all[k]? = some e → mn ≤ e.last_access) →
      (∀ k, k < lru → ∀ e, all[k]? = some e → mn < e.last_access) →
      IsLRU all (lru_scan bs i lru mn) := by
  intro bs
  induction bs with
  | nil =>
    intro i lru mn v hdrop hlt hv hmn hall hbefore
    have hlen : all.length ≤ i := by
      have := congrArg List.length hdrop
      simp at this
      omega
    refine ⟨v, by simpa [lru_scan] using hv, ?_, ?_⟩
    · intro e he
      obtain ⟨n, hn, hne⟩ := List.mem_iff_getElem.mp he
      rw [hmn]
      exact hall n (by omega) e (by rw [List.getElem?_eq_getElem hn, hne])
    · intro k hk e he
      rw [hmn]
      exact hbefore k (by simpa [lru_scan] using hk) e he
  | cons b rest ih =>
    intro i lru mn v hdrop hlt hv hmn hall hbefore
    have hi : all[i]? = some b := by
      have := congrArg List.head? hdrop
      simpa [List.head?_drop] using this
    have hrest : all.drop (i + 1) = rest := by
      have := congrArg List.tail hdrop
      simpa [List.tail_drop] using this
    by_cases hb : b.last_access < mn
    · have : lru_scan (b :: rest) i lru mn = lru_scan rest (i + 1) i b.last_access := by
        simp [lru_scan, hb]
      rw [this]
      refine ih (i + 1) i b.last_access b hrest (by omega) hi rfl ?_ ?_
      · intro k hk e he
        by_cases hki : k = i
        · subst hki
          rw [hi] at he
          cases he
          exact le_refl _
        · have := hall k (by omega) e he
          omega
      · intro k hk e he
        have := hall k hk e he
        omega
    · have : lru_scan (b :: rest) i lru mn = lru_scan rest (i + 1) lru mn := by
        simp [lru_scan, hb]
      rw [this]
      refine ih (i + 1) lru mn v hrest (by omega) hv hmn ?_ hbefore
      intro k hk e he
      by_cases hki : k = i
      · subst hki
        rw [hi] at he
        cases he
        omega
      · exact hall k (by omega) e he

theorem lru_index_spec {bs : List cache_block_t} (h : bs ≠ []) : IsLRU bs (lru_index bs) := by
  cases bs with
  | nil => exact absurd rfl h
  | cons b rest =>
    refine lru_scan_spec (b :: rest) rest 1 0 b.last_access b (by simp) (by omega) (by simp) rfl
      ?_ ?_
    · intro k hk e he
      have : k = 0 := by omega
      subst this
      simp at he
      rw [he]
    · intro k hk
      omega

theorem IsLRU.lt_length {bs : List cache_block_t} {r : Nat} (h : IsLRU bs r) : r < bs.length := by
  obtain ⟨v, hv, -⟩ := h
  exact (List.getElem?_eq_some_iff.mp hv).1

theorem evict_block_eq {c : cache_t} (d : Disk) (h : c.blocks ≠ []) :
    ∃ v, c.blocks[lru_index c.blocks]? = some v ∧
      evict_block c d =
        (some v, { c with blocks := c.blocks.eraseIdx (lru_index c.blocks) }, write_back d v) := by
  obtain ⟨v, hv, -⟩ := lru_index_spec h
  refine ⟨v, hv, ?_⟩
  obtain ⟨hlt, hget⟩ := List.getElem?_eq_some_iff.mp hv
  unfold evict_block
  cases hbs : c.blocks with
  | nil => exact absurd hbs h
  | cons b rest =>
    simp only [hbs] at hlt hget
    simp only [write_back]
    rw [List.getD_eq_getElem _ _ hlt, hget]

theorem evict_block_nil {c : cache_t} (d : Disk) (h : c.blocks = []) :
    evict_block c d = (none, c, d) := by
  unfold evict_block
  simp [h]

/-! ## The steps of `cache_write` and `cache_read`, case by case -/

theorem set_length_append {α : Type} (l : List α) (x y : α) :
    (l ++ [x]).set l.length y = l ++ [y] := by
  simp [List.set_append]

theorem max_cache_blocks_pos {l : List cache_block_t} (h : MAX_CACHE_BLOCKS ≤ l.length) :
    l ≠ [] := by
  intro hl
  subst hl
  simp [MAX_CACHE_BLOCKS] at h

theorem cache_write_hit {c : cache_t} (d : Disk) (m : Malloc) {b i : Nat} (X : Block)
    {e : cache_block_t} (h : find_block c b = some (i, e)) :
    cache_write c d m b X =
      ⟨CACHE_SUCCESS,
        { c with blocks := c.blocks.set i ⟨e.block_id, X, next_stamp c, true⟩,
                 access_counter := next_stamp c }, d⟩ := by
  simp [cache_write, h, cache_write_store, next_stamp]

theorem cache_write_insert_eq (c : cache_t) (d : Disk) (blk : cache_block_t) (b : Nat)
    (X : Block) :
    cache_write_insert c d blk b X =
      ⟨CACHE_SUCCESS,
        { c with blocks := c.blocks ++ [⟨b, X, next_stamp c, true⟩],
                 access_counter := next_stamp c }, d⟩ := by
  simp [cache_write_insert, cache_write_store, next_stamp, cache_t.num_blocks, List.set_append]

theorem cache_write_miss_room {c : cache_t} (d : Disk) {b : Nat} (X : Block)
    (h : find_block c b = none) (hlen : c.blocks.length < MAX_CACHE_BLOCKS) :
    cache_write c d Malloc.ok b X =
      ⟨CACHE_SUCCESS,
        { c with blocks := c.blocks ++ [⟨b, X, next_stamp c, true⟩],
                 access_counter := next_stamp c }, d⟩ := by
  have hn : ¬ MAX_CACHE_BLOCKS ≤ c.blocks.length := by omega
  simp [cache_write, h, cache_t.num_blocks, hn, Malloc.ok, cache_write_insert_eq]

theorem cache_write_miss_nomem {c : cache_t} (d : Disk) {m : Malloc} {b : Nat} (X : Block)
    (h : find_block c b = none) (hlen : c.blocks.length < MAX_CACHE_BLOCKS)
    (hm : m ≠ Malloc.ok) :
    cache_write c d m b X = ⟨CACHE_ERROR, c, d⟩ := by
  have hn : ¬ MAX_CACHE_BLOCKS ≤ c.blocks.length := by omega
  obtain ⟨m1, m2⟩ := m
  cases m1 <;> cases m2 <;> simp [cache_write, h, cache_t.num_blocks, hn, Malloc.ok] at hm ⊢

theorem cache_write_miss_full {c : cache_t} (d : Disk) (m : Malloc) {b : Nat} (X : Block)
    (h : find_block c b = none) (hlen : MAX_CACHE_BLOCKS ≤ c.blocks.length) :
    ∃ v, c.blocks[lru_index c.blocks]? = some v ∧
      cache_write c d m b X =
        ⟨CACHE_SUCCESS,
          { c with blocks := c.blocks.eraseIdx (lru_index c.blocks) ++
                     [⟨b, X, next_stamp c, true⟩],
                   access_counter := next_stamp c }, write_back d v⟩ := by
  obtain ⟨v, hv, hev⟩ := evict_block_eq d (max_cache_blocks_pos hlen)
  refine ⟨v, hv, ?_⟩
  simp [cache_write, h, cache_t.num_blocks, hlen, hev, cache_write_insert_eq, next_stamp]

theorem cache_read_hit {c : cache_t} (d : Disk) (m : Malloc) {b i : Nat} (buf : Block)
    {e : cache_block_t} (h : find_block c b = some (i, e)) :
    cache_read c d m b buf =
      ⟨CACHE_SUCCESS,
        { c with blocks := c.blocks.set i { e with last_access := next_stamp c },
                 access_counter := next_stamp c,
                 hits := (c.hits + 1) % SIZE_MOD }, d, e.data⟩ := by
  simp [cache_read, h, next_stamp]

theorem cache_read_fill_ok (c : cache_t) {d : Disk} (blk : cache_block_t) (b : Nat)
    (buf : Block) (h : d.next_fails = false) :
    cache_read_fill c d blk b buf =
      ⟨CACHE_SUCCESS,
        { c with blocks := c.blocks ++ [⟨b, d.store b, next_stamp c, false⟩],
                 access_counter := next_stamp c },
        { d with log := DiskOp.read b true :: d.log }, d.store b⟩ := by
  simp [cache_read_fill, disk_read, h, next_stamp]

theorem cache_read_fill_fail (c : cache_t) {d : Disk} (blk : cache_block_t) (b : Nat)
    (buf : Block) (h : d.next_fails = true) :
    cache_read_fill c d blk b buf =
      ⟨CACHE_ERROR, c, { d with log := DiskOp.read b false :: d.log }, buf⟩ := by
  simp [cache_read_fill, disk_read, h, CACHE_ERROR, CACHE_SUCCESS]

theorem cache_read_miss_room {c : cache_t} (d : Disk) {b : Nat} (buf : Block)
    (h : find_block c b = none) (hlen : c.blocks.length < MAX_CACHE_BLOCKS) :
    cache_read c d Malloc.ok b buf = cache_read_fill (count_miss c) d fresh_block b buf := by
  have hn : ¬ MAX_CACHE_BLOCKS ≤ c.blocks.length := by omega
  simp [cache_read, h, cache_t.num_blocks, hn, Malloc.ok, count_miss]

theorem cache_read_miss_nomem {c : cache_t} (d : Disk) {m : Malloc} {b : Nat} (buf : Block)
    (h : find_block c b = none) (hlen : c.blocks.length < MAX_CACHE_BLOCKS)
    (hm : m ≠ Malloc.ok) :
    cache_read c d m b buf = ⟨CACHE_ERROR, count_miss c, d, buf⟩ := by
  have hn : ¬ MAX_CACHE_BLOCKS ≤ c.blocks.length := by omega
  obtain ⟨m1, m2⟩ := m
  cases m1 <;> cases m2 <;>
    simp [cache_read, h, cache_t.num_blocks, hn, Malloc.ok, count_miss] at hm ⊢

theorem cache_read_miss_full {c : cache_t} (d : Disk) (m : Malloc) {b : Nat} (buf : Block)
    (h : find_block c b = none) (hlen : MAX_CACHE_BLOCKS ≤ c.blocks.length) :
    ∃ v, c.blocks[lru_index c.blocks]? = some v ∧
      cache_read c d m b buf =
        cache_read_fill
          { count_miss c with blocks := c.blocks.eraseIdx (lru_index c.blocks) }
          (write_back d v) v b buf := by
  obtain ⟨v, hv, hev⟩ := evict_block_eq (c := count_miss c) d (max_cache_blocks_pos hlen)
  refine ⟨v, hv, ?_⟩
  simp only [count_miss] at hev
  simp [cache_read, h, cache_t.num_blocks, hlen, hev, count_miss]

/-! ## Lookup after a write -/

theorem find_block_loop_append_new {l : List cache_block_t} {b : Nat} (n : cache_block_t)
    (i : Nat) (hl : ∀ e ∈ l, e.block_id ≠ b) (hn : n.block_id = b) :
    find_block_loop (l ++ [n]) b i = some (i + l.length, n) := by
  induction l generalizing i with
  | nil => simp [find_block_loop, hn]
  | cons a rest ih =>
    have ha : a.block_id ≠ b := hl a (by simp)
    have := ih (i + 1) (fun e he => hl e (by simp [he]))
    simp [find_block_loop, ha, this]
    omega

theorem find_block_append_new {c : cache_t} {l : List cache_block_t} {b : Nat}
    (n : cache_block_t) (hc : c.blocks = l ++ [n]) (hl : ∀ e ∈ l, e.block_id ≠ b)
    (hn : n.block_id = b) : find_block c b = some (l.length, n) := by
  have := find_block_loop_append_new n 0 hl hn
  simpa [find_block, hc] using this

theorem find_block_set {c c' : cache_t} {b i : Nat} {e n : cache_block_t}
    (h : find_block c b = some (i, e)) (hc : c'.blocks = c.blocks.set i n)
    (hn : n.block_id = b) : find_block c' b = some (i, n) := by
  obtain ⟨hi, -, hbefore⟩ := find_block_some h
  have hlt : i < c.blocks.length := (List.getElem?_eq_some_iff.mp hi).1
  apply find_block_first
  · rw [hc, List.getElem?_set]
    simp [hlt]
  · exact hn
  · intro k hk e' he'
    rw [hc, List.getElem?_set] at he'
    have : ¬ i = k := by omega
    simp [this] at he'
    exact hbefore k hk e' he'

theorem not_resident_erase {c : cache_t} {b : Nat} (h : find_block c b = none) (k : Nat) :
    ∀ e ∈ c.blocks.eraseIdx k, e.block_id ≠ b := by
  intro e he
  have hmem : e ∈ c.blocks := (List.eraseIdx_sublist c.blocks k).subset he
  exact find_block_loop_eq_none.mp h e hmem

/-- After a successful `cache_write` of `X` to `b`, `find_block` returns an
entry for `b` whose data is `X`, dirty, stamped with the access counter. -/
theorem write_then_lookup (c : cache_t) (d : Disk) (m : Malloc) (b : Nat) (X : Block)
    (h : (cache_write c d m b X).ret = CACHE_SUCCESS) :
    ∃ i, find_block (cache_write c d m b X).cache b =
      some (i, ⟨b, X, (cache_write c d m b X).cache.access_counter, true⟩) := by
  cases hf : find_block c b with
  | some p =>
    obtain ⟨i, e⟩ := p
    have hid : e.block_id = b := (find_block_some hf).2.1
    rw [cache_write_hit d m X hf, hid]
    exact ⟨i, find_block_set hf rfl rfl⟩
  | none =>
    by_cases hlen : MAX_CACHE_BLOCKS ≤ c.blocks.length
    · obtain ⟨v, -, hw⟩ := cache_write_miss_full d m X hf hlen
      rw [hw]
      exact ⟨_, find_block_append_new _ rfl (not_resident_erase hf _) rfl⟩
    · by_cases hm : m = Malloc.ok
      · subst hm
        rw [cache_write_miss_room d X hf (by omega)]
        exact ⟨_, find_block_append_new _ rfl (find_block_loop_eq_none.mp hf) rfl⟩
      · rw [cache_write_miss_nomem d X hf (by omega) hm] at h
        simp [CACHE_ERROR, CACHE_SUCCESS] at h

/-! ## Reachable states with a counter at its last value -/

/-- After one write of block 0 and `n` read hits of it. -/
theorem reachable_hits (d : Disk) (X : Block) (n : Nat) :
    Reachable ⟨[⟨0, X, (n + 1) % UINT64_MOD, true⟩], (n + 1) % UINT64_MOD, n % SIZE_MOD, 0⟩ d := by
  induction n with
  | zero =>
    have h0 : Reachable ⟨[], 0, 0, 0⟩ d := Reachable.init _ d rfl
    have := Reachable.write _ d Malloc.ok 0 X (by simp [UINT64_MOD]) h0
    rw [cache_write_miss_room d X (by simp [find_block, find_block_loop])
      (by simp [MAX_CACHE_BLOCKS])] at this
    simpa [next_stamp] using this
  | succ n ih =>
    have := Reachable.read _ d Malloc.ok 0 [] (by simp [UINT64_MOD]) ih
    rw [cache_read_hit d Malloc.ok [] (i := 0)
      (e := ⟨0, X, (n + 1) % UINT64_MOD, true⟩) (by simp [find_block, find_block_loop])] at this
    simpa [next_stamp, Nat.mod_add_mod, SIZE_MOD, UINT64_MOD] using this

/-- After `n` read misses that fail for want of memory. -/
theorem reachable_misses (d : Disk) (n : Nat) :
    Reachable ⟨[], 0, 0, n % SIZE_MOD⟩ d := by
  induction n with
  | zero => exact Reachable.init _ d rfl
  | succ n ih =>
    have := Reachable.read _ d ⟨false, false⟩ 0 [] (by simp [UINT64_MOD]) ih
    rw [cache_read_miss_nomem d [] (by simp [find_block, find_block_loop])
      (by simp [MAX_CACHE_BLOCKS]) (by simp [Malloc.ok])] at this
    simpa [count_miss, Nat.mod_add_mod] using this

/-- After `n + 1` writes of block 0. -/
theorem reachable_stamps (d : Disk) (X : Block) (n : Nat) :
    Reachable ⟨[⟨0, X, (n + 1) % UINT64_MOD, true⟩], (n + 1) % UINT64_MOD, 0, 0⟩ d := by
  induction n with
  | zero => simpa [SIZE_MOD] using reachable_hits d X 0
  | succ n ih =>
    have := Reachable.write _ d Malloc.ok 0 X (by simp [UINT64_MOD]) ih
    rw [cache_write_hit d Malloc.ok X (i := 0)
      (e := ⟨0, X, (n + 1) % UINT64_MOD, true⟩) (by simp [find_block, find_block_loop])] at this
    simpa [next_stamp, Nat.mod_add_mod] using this

/-! ## C1: read after write -/

/-- C1, as amended: after a successful `cache_write(b, X)` the immediately
following `cache_read(b, Y)` succeeds with `Y = X`, leaves `misses` unchanged and
sets `hits` to `(hits + 1) mod 2^64`, which is `hits + 1` unless `hits` held its
last value. -/
theorem C1_read_after_write (c : cache_t) (d : Disk) (m m' : Malloc) (b : Nat) (X buf : Block)
    (h : (cache_write c d m b X).ret = CACHE_SUCCESS) :
    (write_then_read c d m m' b X buf).ret = CACHE_SUCCESS ∧
    (write_then_read c d m m' b X buf).buffer = X ∧
    (write_then_read c d m m' b X buf).cache.hits =
      ((cache_write c d m b X).cache.hits + 1) % SIZE_MOD ∧
    ((cache_write c d m b X).cache.hits + 1 < SIZE_MOD →
      (write_then_read c d m m' b X buf).cache.hits = (cache_write c d m b X).cache.hits + 1) ∧
    (write_then_read c d m m' b X buf).cache.misses = (cache_write c d m b X).cache.misses := by
  obtain ⟨i, hf⟩ := write_then_lookup c d m b X h
  unfold write_then_read
  rw [cache_read_hit _ m' buf hf]
  refine ⟨rfl, rfl, rfl, ?_, rfl⟩
  intro hlt
  exact Nat.mod_eq_of_lt hlt

/-- C1 at a concrete input: block 5 written with 0xBB on a fresh cache and read back. -/
theorem C1_read_after_write_witness :
    (cache_write ⟨[], 0, 0, 0⟩ disk0 Malloc.ok 5 (fill 187)).ret = CACHE_SUCCESS ∧
    ((write_then_read ⟨[], 0, 0, 0⟩ disk0 Malloc.ok Malloc.ok 5 (fill 187) []).ret = CACHE_SUCCESS ∧
    (write_then_read ⟨[], 0, 0, 0⟩ disk0 Malloc.ok Malloc.ok 5 (fill 187) []).buffer = fill 187 ∧
    (write_then_read ⟨[], 0, 0, 0⟩ disk0 Malloc.ok Malloc.ok 5 (fill 187) []).cache.hits =
      ((cache_write ⟨[], 0, 0, 0⟩ disk0 Malloc.ok 5 (fill 187)).cache.hits + 1) % SIZE_MOD ∧
    ((cache_write ⟨[], 0, 0, 0⟩ disk0 Malloc.ok 5 (fill 187)).cache.hits + 1 < SIZE_MOD →
      (write_then_read ⟨[], 0, 0, 0⟩ disk0 Malloc.ok Malloc.ok 5 (fill 187) []).cache.hits =
        (cache_write ⟨[], 0, 0, 0⟩ disk0 Malloc.ok 5 (fill 187)).cache.hits + 1) ∧
    (write_then_read ⟨[], 0, 0, 0⟩ disk0 Malloc.ok Malloc.ok 5 (fill 187) []).cache.misses =
      (cache_write ⟨[], 0, 0, 0⟩ disk0 Malloc.ok 5 (fill 187)).cache.misses) :=
  ⟨by decide, C1_read_after_write _ _ _ _ _ _ _ (by decide)⟩

/-- C1 as stated fails: the state `hits_at_max` is reachable, `cache_write(0, X)`
succeeds on it, and the read that follows takes `hits` from `2^64 - 1` to `0`
instead of increasing it by one. -/
theorem C1_hits_wrap_counterexample :
    Reachable hits_at_max disk0 ∧
    (cache_write hits_at_max disk0 Malloc.ok 0 (fill 170)).ret = CACHE_SUCCESS ∧
    (cache_write hits_at_max disk0 Malloc.ok 0 (fill 170)).cache.hits = 18446744073709551615 ∧
    (write_then_read hits_at_max disk0 Malloc.ok Malloc.ok 0 (fill 170) []).cache.hits = 0 ∧
    (write_then_read hits_at_max disk0 Malloc.ok Malloc.ok 0 (fill 170) []).cache.hits ≠
      (cache_write hits_at_max disk0 Malloc.ok 0 (fill 170)).cache.hits + 1 := by
  refine ⟨?_, by decide, by decide, by decide, by decide⟩
  have := reachable_hits disk0 (fill 170) 18446744073709551615
  simpa [UINT64_MOD, SIZE_MOD, hits_at_max] using this

/-! ## Invariants I1 and I2 -/

theorem block_ids_set_same {bs : List cache_block_t} {i : Nat} {e n : cache_block_t}
    (hi : bs[i]? = some e) (hn : n.block_id = e.block_id) :
    block_ids (bs.set i n) = block_ids bs := by
  unfold block_ids
  rw [List.map_set]
  apply List.ext_getElem?
  intro j
  rw [List.getElem?_set]
  by_cases hij : i = j
  · subst hij
    obtain ⟨hlt, hget⟩ := List.getElem?_eq_some_iff.mp hi
    simp [hlt, hget, hn]
  · simp [hij]

theorem mem_block_ids {bs : List cache_block_t} {b : Nat} :
    b ∈ block_ids bs ↔ ∃ e ∈ bs, e.block_id = b := by
  simp [block_ids]

theorem resident_iff_mem_ids {c : cache_t} {b : Nat} : resident c b ↔ b ∈ block_ids c.blocks :=
  mem_block_ids.symm

theorem block_ids_append (l : List cache_block_t) (n : cache_block_t) :
    block_ids (l ++ [n]) = block_ids l ++ [n.block_id] := by
  simp [block_ids]

theorem nodup_ids_eraseIdx {bs : List cache_block_t} (h : (block_ids bs).Nodup) (k : Nat) :
    (block_ids (bs.eraseIdx k)).Nodup :=
  List.Nodup.sublist ((List.eraseIdx_sublist bs k).map _) h

theorem nodup_ids_append {l : List cache_block_t} {n : cache_block_t}
    (h : (block_ids l).Nodup) (hn : ∀ e ∈ l, e.block_id ≠ n.block_id) :
    (block_ids (l ++ [n])).Nodup := by
  rw [block_ids_append]
  refine List.Nodup.append h (by simp) ?_
  intro x hx hx'
  simp at hx'
  subst hx'
  obtain ⟨e, he, hid⟩ := mem_block_ids.mp hx
  exact hn e he hid

theorem length_eraseIdx_append {bs : List cache_block_t} {k : Nat} (hk : k < bs.length)
    (n : cache_block_t) : (bs.eraseIdx k ++ [n]).length = bs.length := by
  rw [List.length_append, List.length_eraseIdx]
  simp [hk]
  omega

theorem wellFormed_write {c : cache_t} (d : Disk) (m : Malloc) (b : Nat) (X : Block)
    (h : WellFormed c) : WellFormed (cache_write c d m b X).cache := by
  obtain ⟨hnd, hlen⟩ := h
  cases hf : find_block c b with
  | some p =>
    obtain ⟨i, e⟩ := p
    rw [cache_write_hit d m X hf]
    refine ⟨?_, by simpa using hlen⟩
    simp only
    rw [block_ids_set_same (n := ⟨e.block_id, X, next_stamp c, true⟩) (find_block_some hf).1 rfl]
    exact hnd
  | none =>
    by_cases hfull : MAX_CACHE_BLOCKS ≤ c.blocks.length
    · obtain ⟨v, hv, hw⟩ := cache_write_miss_full d m X hf hfull
      rw [hw]
      refine ⟨nodup_ids_append (nodup_ids_eraseIdx hnd _) (not_resident_erase hf _), ?_⟩
      simp only
      rw [length_eraseIdx_append (List.getElem?_eq_some_iff.mp hv).1]
      exact hlen
    · by_cases hm : m = Malloc.ok
      · subst hm
        rw [cache_write_miss_room d X hf (by omega)]
        refine ⟨nodup_ids_append hnd (find_block_loop_eq_none.mp hf), ?_⟩
        simp only [List.length_append, List.length_singleton]
        omega
      · rw [cache_write_miss_nomem d X hf (by omega) hm]
        exact ⟨hnd, hlen⟩

theorem wellFormed_read_fill {c : cache_t} (d : Disk) (blk : cache_block_t) (b : Nat)
    (buf : Block) (hnd : (block_ids c.blocks).Nodup) (hb : ∀ e ∈ c.blocks, e.block_id ≠ b)
    (hlen : c.blocks.length < MAX_CACHE_BLOCKS) :
    WellFormed (cache_read_fill c d blk b buf).cache := by
  cases hfail : d.next_fails with
  | true =>
    rw [cache_read_fill_fail c blk b buf hfail]
    exact ⟨hnd, by simp only; omega⟩
  | false =>
    rw [cache_read_fill_ok c blk b buf hfail]
    refine ⟨nodup_ids_append hnd hb, ?_⟩
    simp only [List.length_append, List.length_singleton]
    omega

theorem wellFormed_read {c : cache_t} (d : Disk) (m : Malloc) (b : Nat) (buf : Block)
    (h : WellFormed c) : WellFormed (cache_read c d m b buf).cache := by
  obtain ⟨hnd, hlen⟩ := h
  cases hf : find_block c b with
  | some p =>
    obtain ⟨i, e⟩ := p
    rw [cache_read_hit d m buf hf]
    refine ⟨?_, by simpa using hlen⟩
    simp only
    rw [block_ids_set_same (n := { e with last_access := next_stamp c })
      (find_block_some hf).1 rfl]
    exact hnd
  | none =>
    by_cases hfull : MAX_CACHE_BLOCKS ≤ c.blocks.length
    · obtain ⟨v, hv, hr⟩ := cache_read_miss_full d m buf hf hfull
      rw [hr]
      have hk := (List.getElem?_eq_some_iff.mp hv).1
      refine wellFormed_read_fill _ _ _ _ (nodup_ids_eraseIdx hnd _) (not_resident_erase hf _) ?_
      simp only [List.length_eraseIdx, hk, if_true]
      omega
    · by_cases hm : m = Malloc.ok
      · subst hm
        rw [cache_read_miss_room d buf hf (by omega)]
        exact wellFormed_read_fill _ _ _ _ hnd (find_block_loop_eq_none.mp hf) (by
          simp only [count_miss]; omega)
      · rw [cache_read_miss_nomem d buf hf (by omega) hm]
        exact ⟨hnd, hlen⟩

/-- The loop of `cache_flush` changes nothing of an entry but its dirty flag. -/
theorem flush_loop_map {β : Type} (f : cache_block_t → β)
    (hf : ∀ e : cache_block_t, f { e with dirty := false } = f e)
    (bs : List cache_block_t) (d : Disk) :
    (flush_loop bs d).2.1.map f = bs.map f := by
  induction bs generalizing d with
  | nil => simp [flush_loop]
  | cons b rest ih =>
    unfold flush_loop
    by_cases hd : b.dirty = true
    · by_cases hw : (disk_write d b.block_id b.data).1 = CACHE_SUCCESS
      · have := ih (disk_write d b.block_id b.data).2
        simp [hd, hw, this, hf]
      · simp [hd, hw]
    · have := ih d
      simp [hd, this]

theorem flush_loop_length (bs : List cache_block_t) (d : Disk) :
    (flush_loop bs d).2.1.length = bs.length := by
  have := congrArg List.length (flush_loop_map (fun _ => ()) (fun _ => rfl) bs d)
  simpa using this

theorem cache_flush_blocks (c : cache_t) (d : Disk) :
    (cache_flush c d).cache.blocks = (flush_loop c.blocks d).2.1 := rfl

theorem wellFormed_flush {c : cache_t} (d : Disk) (h : WellFormed c) :
    WellFormed (cache_flush c d).cache := by
  obtain ⟨hnd, hlen⟩ := h
  refine ⟨?_, ?_⟩
  · rw [cache_flush_blocks]
    unfold block_ids
    rw [flush_loop_map cache_block_t.block_id (fun _ => rfl)]
    exact hnd
  · rw [cache_flush_blocks, flush_loop_length]
    exact hlen

theorem reachable_wellFormed {c : cache_t} {d : Disk} (h : Reachable c d) : WellFormed c := by
  induction h with
  | init c d h =>
    simp [cache_init] at h
    subst h
    exact ⟨by simp [block_ids], by simp⟩
  | read c d m b buf _ _ ih => exact wellFormed_read d m b buf ih
  | write c d m b buf _ _ ih => exact wellFormed_write d m b buf ih
  | flush c d _ ih => exact wellFormed_flush d ih

/-! ## Membership after an update or a removal -/

theorem mem_set_of_ne_id {bs : List cache_block_t} {i : Nat} {x e : cache_block_t}
    (n : cache_block_t) (hx : x ∈ bs) (hi : bs[i]? = some e) (hne : x.block_id ≠ e.block_id) :
    x ∈ bs.set i n := by
  obtain ⟨j, hj⟩ := List.mem_iff_getElem?.mp hx
  have hij : ¬ i = j := by
    intro hij
    subst hij
    rw [hi] at hj
    cases hj
    exact hne rfl
  apply List.mem_iff_getElem?.mpr
  exact ⟨j, by rw [List.getElem?_set]; simp [hij, hj]⟩

theorem mem_set_self {bs : List cache_block_t} {i : Nat} {e : cache_block_t}
    (n : cache_block_t) (hi : bs[i]? = some e) : n ∈ bs.set i n :=
  List.mem_set bs i (List.getElem?_eq_some_iff.mp hi).1 n

theorem mem_eraseIdx_of_ne {bs : List cache_block_t} {k : Nat} {x v : cache_block_t}
    (hx : x ∈ bs) (hk : bs[k]? = some v) (hne : x ≠ v) : x ∈ bs.eraseIdx k := by
  obtain ⟨j, hj⟩ := List.mem_iff_getElem?.mp hx
  refine List.mem_eraseIdx_iff_getElem?.mpr ⟨j, ?_, hj⟩
  intro hjk
  subst hjk
  rw [hk] at hj
  cases hj
  exact hne rfl

theorem ids_ne_of_mem_eraseIdx {bs : List cache_block_t} {k : Nat} {v : cache_block_t}
    (hnd : (block_ids bs).Nodup) (hk : bs[k]? = some v) :
    ∀ e ∈ bs.eraseIdx k, e.block_id ≠ v.block_id := by
  intro e he hid
  obtain ⟨j, hjk, hj⟩ := List.mem_eraseIdx_iff_getElem?.mp he
  obtain ⟨hjl, hje⟩ := List.getElem?_eq_some_iff.mp hj
  obtain ⟨hkl, hkv⟩ := List.getElem?_eq_some_iff.mp hk
  have hjl2 : j < (block_ids bs).length := by simpa [block_ids] using hjl
  have hkl2 : k < (block_ids bs).length := by simpa [block_ids] using hkl
  have h1 : (block_ids bs)[j] = (block_ids bs)[k] := by
    simp [block_ids, hje, hkv, hid]
  exact hjk ((List.Nodup.getElem_inj_iff hnd).mp h1)

/-! ## The disk after a write-back -/

theorem write_back_fails (d : Disk) (v : cache_block_t) : (write_back d v).fails = d.fails := by
  unfold write_back disk_write
  split <;> [split; skip] <;> rfl

theorem write_back_store_other (d : Disk) (v : cache_block_t) {b : Nat} (h : v.block_id ≠ b) :
    (write_back d v).store b = d.store b := by
  unfold write_back disk_write
  split
  · split
    · rfl
    · simp [Function.update_noteq (Ne.symm h)]
  · rfl

theorem write_back_log (d : Disk) (v : cache_block_t) :
    ∃ l, (write_back d v).log = l ++ d.log := by
  unfold write_back disk_write
  split
  · split
    · exact ⟨[_], rfl⟩
    · exact ⟨[_], rfl⟩
  · exact ⟨[], rfl⟩

theorem write_back_dirty_ok {d : Disk} {v : cache_block_t} (hd : v.dirty = true)
    (hok : d.next_fails = false) :
    (write_back d v).store v.block_id = v.data ∧
      (write_back d v).log = DiskOp.write v.block_id v.data true :: d.log := by
  simp [write_back, disk_write, hd, hok]

theorem next_fails_of_never {d : Disk} (h : ∀ n, d.fails n = false) : d.next_fails = false :=
  h _

/-! ## Round trip through eviction: the invariant of the writes -/

theorem RoundTrip.mk_hot {s b : Nat} {X : Block} {l0 : List DiskOp} {done : List Nat}
    {c : cache_t} {d : Disk} (wf : WellFormed c) (ok : ∀ n, d.fails n = false)
    (counter : c.access_counter = s + 1 + done.length) (log : ∃ l, d.log = l ++ l0)
    (hb : ⟨b, X, s + 1, true⟩ ∈ c.blocks)
    (hdone : ∀ w ∈ done, ∃ e ∈ c.blocks, e.block_id = w ∧ s + 1 < e.last_access) :
    RoundTrip s b X l0 done c d := by
  obtain ⟨l, hl⟩ := log
  exact ⟨wf, ok, counter, ⟨l, hl, fun hnr => absurd ⟨_, hb, rfl⟩ hnr⟩, Or.inl ⟨hb, hdone⟩⟩

theorem RoundTrip.mk_cold {s b : Nat} {X : Block} {l0 : List DiskOp} {done : List Nat}
    {c : cache_t} {d : Disk} (wf : WellFormed c) (ok : ∀ n, d.fails n = false)
    (counter : c.access_counter = s + 1 + done.length) (hnr : ¬ resident c b)
    (hfull : c.blocks.length = MAX_CACHE_BLOCKS) (hstore : d.store b = X)
    (log : ∃ l, d.log = l ++ l0 ∧ DiskOp.write b X true ∈ l) :
    RoundTrip s b X l0 done c d := by
  obtain ⟨l, hl, hmem⟩ := log
  exact ⟨wf, ok, counter, ⟨l, hl, fun _ => ⟨hstore, hmem⟩⟩, Or.inr ⟨hnr, hfull⟩⟩

theorem roundTrip_step {s b : Nat} {X : Block} {l0 : List DiskOp} {done : List Nat}
    {c : cache_t} {d : Disk} (h : RoundTrip s b X l0 done c d) {w : Nat} (Y : Block)
    (hwb : w ≠ b) (hw : w ∉ done) (hs : s + 2 + done.length < UINT64_MOD) :
    RoundTrip s b X l0 (w :: done) (cache_write c d Malloc.ok w Y).cache
      (cache_write c d Malloc.ok w Y).disk := by
  have hst2 : next_stamp c = s + 2 + done.length := by
    unfold next_stamp
    rw [h.counter, Nat.mod_eq_of_lt (by omega)]
    omega
  have hns : next_stamp c = s + 1 + (w :: done).length := by
    rw [hst2, List.length_cons]
    omega
  obtain ⟨hnd, hlen⟩ := h.wf
  obtain ⟨l, hl, hcold⟩ := h.log
  have hwf := wellFormed_write d Malloc.ok w Y h.wf
  cases hf : find_block c w with
  | some p =>
    obtain ⟨i, e⟩ := p
    obtain ⟨hi, hid, -⟩ := find_block_some hf
    rw [cache_write_hit d Malloc.ok Y hf] at hwf ⊢
    have hres : ∀ x, x ∈ block_ids (c.blocks.set i ⟨e.block_id, Y, next_stamp c, true⟩) ↔
        x ∈ block_ids c.blocks := by
      intro x
      rw [block_ids_set_same (n := ⟨e.block_id, Y, next_stamp c, true⟩) hi rfl]
    rcases h.cases with ⟨hb, hdone⟩ | ⟨hnr, hfull⟩
    · refine RoundTrip.mk_hot hwf h.ok hns ⟨l, hl⟩ ?_ ?_
      · exact mem_set_of_ne_id _ hb hi (by rw [hid]; exact fun hbw => hwb hbw.symm)
      · intro w' hw'
        rcases List.mem_cons.mp hw' with rfl | hw'
        · exact ⟨_, mem_set_self _ hi, hid, by simp only; omega⟩
        · obtain ⟨e', he', hid', hst⟩ := hdone w' hw'
          refine ⟨e', mem_set_of_ne_id _ he' hi ?_, hid', hst⟩
          rw [hid', hid]
          intro heq
          exact hw (heq ▸ hw')
    · have hnr' : ¬ resident (⟨CACHE_SUCCESS,
          { c with blocks := c.blocks.set i ⟨e.block_id, Y, next_stamp c, true⟩,
                   access_counter := next_stamp c }, d⟩ : OpResult).cache b := by
        rw [resident_iff_mem_ids] at hnr ⊢
        exact fun hx => hnr ((hres b).mp hx)
      obtain ⟨hst, hmem⟩ := hcold hnr
      exact RoundTrip.mk_cold hwf h.ok hns hnr' (by simpa using hfull) hst ⟨l, hl, hmem⟩
  | none =>
    have hnew : ∀ e ∈ c.blocks, e.block_id ≠ w := find_block_loop_eq_none.mp hf
    by_cases hfull : MAX_CACHE_BLOCKS ≤ c.blocks.length
    · obtain ⟨v, hv, hwr⟩ := cache_write_miss_full d Malloc.ok Y hf hfull
      obtain ⟨v', hv', hmin, -⟩ := lru_index_spec (max_cache_blocks_pos hfull)
      rw [hv] at hv'
      cases hv'
      have hvmem : v ∈ c.blocks := List.getElem?_mem hv
      rw [hwr] at hwf ⊢
      have hok' : ∀ n, (write_back d v).fails n = false := by
        rw [write_back_fails]
        exact h.ok
      obtain ⟨l2, hl2⟩ := write_back_log d v
      have hlen' : (c.blocks.eraseIdx (lru_index c.blocks) ++
          [(⟨w, Y, next_stamp c, true⟩ : cache_block_t)]).length = MAX_CACHE_BLOCKS := by
        rw [length_eraseIdx_append (List.getElem?_eq_some_iff.mp hv).1]
        omega
      rcases h.cases with ⟨hb, hdone⟩ | ⟨hnr, -⟩
      · by_cases hvb : v = ⟨b, X, s + 1, true⟩
        · subst hvb
          have hd := write_back_dirty_ok (d := d) (v := ⟨b, X, s + 1, true⟩) rfl
            (next_fails_of_never h.ok)
          refine RoundTrip.mk_cold hwf hok' hns ?_ hlen' hd.1 ?_
          · rintro ⟨x, hx, hxb⟩
            rcases List.mem_append.mp hx with hx | hx
            · exact ids_ne_of_mem_eraseIdx hnd hv x hx hxb
            · simp at hx
              subst hx
              exact hwb hxb
          · exact ⟨DiskOp.write b X true :: l, by rw [hd.2, hl]; rfl, by simp⟩
        · refine RoundTrip.mk_hot hwf hok' hns ⟨l2 ++ l, by rw [hl2, hl, List.append_assoc]⟩ ?_ ?_
          · exact List.mem_append_left _ (mem_eraseIdx_of_ne hb hv (Ne.symm hvb))
          · intro w' hw'
            rcases List.mem_cons.mp hw' with rfl | hw'
            · exact ⟨⟨w', Y, next_stamp c, true⟩, List.mem_append_right _ (by simp), rfl,
                by simp only; omega⟩
            · obtain ⟨e', he', hid', hst⟩ := hdone w' hw'
              refine ⟨e', List.mem_append_left _ (mem_eraseIdx_of_ne he' hv ?_), hid', hst⟩
              intro heq
              subst heq
              have := hmin _ hb
              simp only at this
              omega
      · obtain ⟨hst, hmem⟩ := hcold hnr
        refine RoundTrip.mk_cold hwf hok' hns ?_ hlen' ?_ ?_
        · rintro ⟨x, hx, hxb⟩
          rcases List.mem_append.mp hx with hx | hx
          · exact hnr ⟨x, (List.eraseIdx_sublist _ _).subset hx, hxb⟩
          · simp at hx
            subst hx
            exact hwb hxb
        · rw [write_back_store_other d v (fun hvb => hnr ⟨v, hvmem, hvb⟩)]
          exact hst
        · exact ⟨l2 ++ l, by rw [hl2, hl, List.append_assoc], List.mem_append_right _ hmem⟩
    · rw [cache_write_miss_room d Y hf (by omega)] at hwf ⊢
      rcases h.cases with ⟨hb, hdone⟩ | ⟨-, hfull'⟩
      · refine RoundTrip.mk_hot hwf h.ok hns ⟨l, hl⟩ (List.mem_append_left _ hb) ?_
        intro w' hw'
        rcases List.mem_cons.mp hw' with rfl | hw'
        · exact ⟨⟨w', Y, next_stamp c, true⟩, List.mem_append_right _ (by simp), rfl,
            by simp only; omega⟩
        · obtain ⟨e', he', hid', hst⟩ := hdone w' hw'
          exact ⟨e', List.mem_append_left _ he', hid', hst⟩
      · omega

/-! ## Every case of `cache_write` and `cache_read` at once -/

theorem cache_write_cases (c : cache_t) (d : Disk) (m : Malloc) (b : Nat) (X : Block) :
    (∃ i e, find_block c b = some (i, e) ∧
      cache_write c d m b X =
        ⟨CACHE_SUCCESS,
          { c with blocks := c.blocks.set i ⟨e.block_id, X, next_stamp c, true⟩,
                   access_counter := next_stamp c }, d⟩) ∨
    (find_block c b = none ∧ MAX_CACHE_BLOCKS ≤ c.blocks.length ∧
      ∃ v, c.blocks[lru_index c.blocks]? = some v ∧
        cache_write c d m b X =
          ⟨CACHE_SUCCESS,
            { c with blocks := c.blocks.eraseIdx (lru_index c.blocks) ++
                       [⟨b, X, next_stamp c, true⟩],
                     access_counter := next_stamp c }, write_back d v⟩) ∨
    (find_block c b = none ∧ c.blocks.length < MAX_CACHE_BLOCKS ∧ m = Malloc.ok ∧
      cache_write c d m b X =
        ⟨CACHE_SUCCESS,
          { c with blocks := c.blocks ++ [⟨b, X, next_stamp c, true⟩],
                   access_counter := next_stamp c }, d⟩) ∨
    (find_block c b = none ∧ c.blocks.length < MAX_CACHE_BLOCKS ∧ m ≠ Malloc.ok ∧
      cache_write c d m b X = ⟨CACHE_ERROR, c, d⟩) := by
  cases hf : find_block c b with
  | some p =>
    obtain ⟨i, e⟩ := p
    exact Or.inl ⟨i, e, rfl, cache_write_hit d m X hf⟩
  | none =>
    by_cases hfull : MAX_CACHE_BLOCKS ≤ c.blocks.length
    · obtain ⟨v, hv, hw⟩ := cache_write_miss_full d m X hf hfull
      exact Or.inr (Or.inl ⟨rfl, hfull, v, hv, hw⟩)
    · by_cases hm : m = Malloc.ok
      · subst hm
        exact Or.inr (Or.inr (Or.inl ⟨rfl, by omega, rfl,
          cache_write_miss_room d X hf (by omega)⟩))
      · exact Or.inr (Or.inr (Or.inr ⟨rfl, by omega, hm,
          cache_write_miss_nomem d X hf (by omega) hm⟩))

/-- What `cache_write` never touches: the hit and miss counters and the failure
oracle of the disk; the trace of the disk only grows. -/
theorem cache_write_frame (c : cache_t) (d : Disk) (m : Malloc) (b : Nat) (X : Block) :
    (cache_write c d m b X).cache.hits = c.hits ∧
    (cache_write c d m b X).cache.misses = c.misses ∧
    (cache_write c d m b X).disk.fails = d.fails ∧
    ∃ l, (cache_write c d m b X).disk.log = l ++ d.log := by
  rcases cache_write_cases c d m b X with ⟨i, e, -, h⟩ | ⟨-, -, v, -, h⟩ | ⟨-, -, -, h⟩ |
    ⟨-, -, -, h⟩
  · rw [h]
    exact ⟨rfl, rfl, rfl, [], rfl⟩
  · rw [h]
    exact ⟨rfl, rfl, write_back_fails d v, write_back_log d v⟩
  · rw [h]
    exact ⟨rfl, rfl, rfl, [], rfl⟩
  · rw [h]
    exact ⟨rfl, rfl, rfl, [], rfl⟩

theorem cache_write_success_counter {c : cache_t} {d : Disk} {m : Malloc} {b : Nat} {X : Block}
    (hret : (cache_write c d m b X).ret = CACHE_SUCCESS) :
    (cache_write c d m b X).cache.access_counter = next_stamp c := by
  rcases cache_write_cases c d m b X with ⟨i, e, -, h⟩ | ⟨-, -, v, -, h⟩ | ⟨-, -, -, h⟩ |
    ⟨-, -, -, h⟩
  · rw [h]
  · rw [h]
  · rw [h]
  · rw [h] at hret
    simp [CACHE_ERROR, CACHE_SUCCESS] at hret

theorem cache_write_ok_ret (c : cache_t) (d : Disk) (b : Nat) (X : Block) :
    (cache_write c d Malloc.ok b X).ret = CACHE_SUCCESS := by
  rcases cache_write_cases c d Malloc.ok b X with ⟨i, e, -, h⟩ | ⟨-, -, v, -, h⟩ |
    ⟨-, -, -, h⟩ | ⟨-, -, hm, -⟩
  · rw [h]
  · rw [h]
  · rw [h]
  · exact absurd rfl hm

theorem write_all_frame (ws : List (Nat × Block)) (c : cache_t) (d : Disk) :
    (write_all c d ws).1.hits = c.hits ∧ (write_all c d ws).1.misses = c.misses := by
  induction ws generalizing c d with
  | nil => exact ⟨rfl, rfl⟩
  | cons p rest ih =>
    obtain ⟨w, Y⟩ := p
    obtain ⟨h1, h2, -, -⟩ := cache_write_frame c d Malloc.ok w Y
    obtain ⟨h3, h4⟩ := ih (cache_write c d Malloc.ok w Y).cache (cache_write c d Malloc.ok w Y).disk
    exact ⟨by rw [write_all, h3, h1], by rw [write_all, h4, h2]⟩

/-! ## Round trip through eviction: from the first write to the read -/

theorem roundTrip_init {c : cache_t} {d : Disk} (hwf : WellFormed c)
    (hok : ∀ n, d.fails n = false) (b : Nat) (X : Block)
    (hs : c.access_counter + 1 < UINT64_MOD) :
    RoundTrip c.access_counter b X d.log [] (cache_write c d Malloc.ok b X).cache
      (cache_write c d Malloc.ok b X).disk := by
  have hret := cache_write_ok_ret c d b X
  have hcnt := cache_write_success_counter hret
  have hns : next_stamp c = c.access_counter + 1 := Nat.mod_eq_of_lt hs
  obtain ⟨-, -, hfails, hlog⟩ := cache_write_frame c d Malloc.ok b X
  obtain ⟨i, hfind⟩ := write_then_lookup c d Malloc.ok b X hret
  refine RoundTrip.mk_hot (wellFormed_write d Malloc.ok b X hwf) (by rw [hfails]; exact hok)
    (by rw [hcnt, hns]; rfl) hlog ?_ (by simp)
  have := List.getElem?_mem (find_block_some hfind).1
  rw [hcnt, hns] at this
  exact this

theorem roundTrip_run {s b : Nat} {X : Block} {l0 : List DiskOp} (ws : List (Nat × Block)) :
    ∀ {done : List Nat} {c : cache_t} {d : Disk}, RoundTrip s b X l0 done c d →
      (ws.map Prod.fst).Nodup → b ∉ ws.map Prod.fst → (∀ w ∈ ws.map Prod.fst, w ∉ done) →
      s + 1 + done.length + ws.length < UINT64_MOD →
      RoundTrip s b X l0 ((ws.map Prod.fst).reverse ++ done) (write_all c d ws).1
        (write_all c d ws).2 := by
  induction ws with
  | nil =>
    intro done c d h _ _ _ _
    simpa [write_all] using h
  | cons p rest ih =>
    intro done c d h hnd hb hdisj hs
    obtain ⟨w, Y⟩ := p
    simp only [List.map_cons, List.nodup_cons, List.mem_cons, not_or, List.length_cons] at hnd hb hdisj hs
    have hstep := roundTrip_step h Y (fun hwb => hb.1 hwb.symm) (hdisj w (Or.inl rfl)) (by omega)
    have := ih hstep hnd.2 hb.2 (by
      intro w' hw' hmem
      rcases List.mem_cons.mp hmem with rfl | hmem
      · exact hnd.1 hw'
      · exact hdisj w' (Or.inr hw') hmem) (by simp only [List.length_cons]; omega)
    simpa [write_all] using this

theorem roundTrip_evicted {s b : Nat} {X : Block} {l0 : List DiskOp} {done : List Nat}
    {c : cache_t} {d : Disk} (h : RoundTrip s b X l0 done c d) (hnd : done.Nodup)
    (hb : b ∉ done) (hlen : MAX_CACHE_BLOCKS ≤ done.length) :
    ¬ resident c b ∧ c.blocks.length = MAX_CACHE_BLOCKS := by
  rcases h.cases with ⟨hbmem, hdone⟩ | hcold
  · exfalso
    have hsub : (b :: done) ⊆ block_ids c.blocks := by
      intro x hx
      rcases List.mem_cons.mp hx with rfl | hx
      · exact mem_block_ids.mpr ⟨_, hbmem, rfl⟩
      · obtain ⟨e, he, hid, -⟩ := hdone x hx
        exact mem_block_ids.mpr ⟨e, he, hid⟩
    have hle := (List.subperm_of_subset (List.nodup_cons.mpr ⟨hb, hnd⟩) hsub).length_le
    have hwf := h.wf.2
    simp only [block_ids, List.length_map, List.length_cons] at hle
    omega
  · exact hcold

/-! ## Making room on a miss -/

theorem make_room_full {c : cache_t} (d : Disk) (hfull : MAX_CACHE_BLOCKS ≤ c.blocks.length) :
    ∃ v, c.blocks[lru_index c.blocks]? = some v ∧
      make_room c d =
        ({ c with blocks := c.blocks.eraseIdx (lru_index c.blocks) }, write_back d v) := by
  obtain ⟨v, hv, hev⟩ := evict_block_eq d (max_cache_blocks_pos hfull)
  exact ⟨v, hv, by simp [make_room, cache_t.num_blocks, hfull, hev]⟩

theorem make_room_room {c : cache_t} (d : Disk) (h : c.blocks.length < MAX_CACHE_BLOCKS) :
    make_room c d = (c, d) := by
  have hn : ¬ MAX_CACHE_BLOCKS ≤ c.blocks.length := by omega
  simp [make_room, cache_t.num_blocks, hn]

theorem make_room_fails (c : cache_t) (d : Disk) : (make_room c d).2.fails = d.fails := by
  by_cases hfull : MAX_CACHE_BLOCKS ≤ c.blocks.length
  · obtain ⟨v, -, h⟩ := make_room_full d hfull
    rw [h]
    exact write_back_fails d v
  · rw [make_room_room d (by omega)]

theorem make_room_log (c : cache_t) (d : Disk) : ∃ l, (make_room c d).2.log = l ++ d.log := by
  by_cases hfull : MAX_CACHE_BLOCKS ≤ c.blocks.length
  · obtain ⟨v, -, h⟩ := make_room_full d hfull
    rw [h]
    exact write_back_log d v
  · rw [make_room_room d (by omega)]
    exact ⟨[], rfl⟩

theorem make_room_sublist (c : cache_t) (d : Disk) :
    (make_room c d).1.blocks.Sublist c.blocks := by
  by_cases hfull : MAX_CACHE_BLOCKS ≤ c.blocks.length
  · obtain ⟨v, -, h⟩ := make_room_full d hfull
    rw [h]
    exact List.eraseIdx_sublist _ _
  · rw [make_room_room d (by omega)]

theorem make_room_store {c : cache_t} (d : Disk) {b : Nat} (hf : find_block c b = none) :
    (make_room c d).2.store b = d.store b := by
  by_cases hfull : MAX_CACHE_BLOCKS ≤ c.blocks.length
  · obtain ⟨v, hv, h⟩ := make_room_full d hfull
    rw [h]
    exact write_back_store_other d v (find_block_loop_eq_none.mp hf v (List.getElem?_mem hv))
  · rw [make_room_room d (by omega)]

theorem make_room_counters (c : cache_t) (d : Disk) :
    (make_room c d).1.access_counter = c.access_counter ∧ (make_room c d).1.hits = c.hits ∧
      (make_room c d).1.misses = c.misses := by
  by_cases hfull : MAX_CACHE_BLOCKS ≤ c.blocks.length
  · obtain ⟨v, -, h⟩ := make_room_full d hfull
    rw [h]
    exact ⟨rfl, rfl, rfl⟩
  · rw [make_room_room d (by omega)]
    exact ⟨rfl, rfl, rfl⟩

/-- A miss of `cache_read` that obtains a slot goes on with the disk read. -/
theorem cache_read_miss_slot {c : cache_t} (d : Disk) {m : Malloc} {b : Nat} (buf : Block)
    (hf : find_block c b = none) (hm : c.blocks.length < MAX_CACHE_BLOCKS → m = Malloc.ok) :
    ∃ blk, cache_read c d m b buf =
      cache_read_fill (count_miss (make_room c d).1) (make_room c d).2 blk b buf := by
  by_cases hfull : MAX_CACHE_BLOCKS ≤ c.blocks.length
  · obtain ⟨v, hv, hr⟩ := cache_read_miss_full d m buf hf hfull
    obtain ⟨v', hv', h'⟩ := make_room_full d hfull
    rw [hv] at hv'
    cases hv'
    exact ⟨v, by rw [hr, h']; rfl⟩
  · have := hm (by omega)
    subst this
    exact ⟨fresh_block, by rw [cache_read_miss_room d buf hf (by omega),
      make_room_room d (by omega)]⟩

theorem cache_read_miss_ok {c : cache_t} (d : Disk) {m : Malloc} {b : Nat} (buf : Block)
    (hf : find_block c b = none) (hm : c.blocks.length < MAX_CACHE_BLOCKS → m = Malloc.ok)
    (hread : (make_room c d).2.next_fails = false) :
    cache_read c d m b buf =
      ⟨CACHE_SUCCESS,
        { blocks := (make_room c d).1.blocks ++ [⟨b, d.store b, next_stamp c, false⟩],
          access_counter := next_stamp c,
          hits := c.hits,
          misses := (c.misses + 1) % SIZE_MOD },
        { (make_room c d).2 with log := DiskOp.read b true :: (make_room c d).2.log },
        d.store b⟩ := by
  obtain ⟨blk, h⟩ := cache_read_miss_slot d buf hf hm
  obtain ⟨h1, h2, h3⟩ := make_room_counters c d
  rw [h, cache_read_fill_ok _ blk b buf hread, make_room_store d hf]
  simp [count_miss, next_stamp, h1, h2, h3]

theorem cache_read_miss_fail {c : cache_t} (d : Disk) {m : Malloc} {b : Nat} (buf : Block)
    (hf : find_block c b = none) (hm : c.blocks.length < MAX_CACHE_BLOCKS → m = Malloc.ok)
    (hread : (make_room c d).2.next_fails = true) :
    cache_read c d m b buf =
      ⟨CACHE_ERROR,
        { blocks := (make_room c d).1.blocks,
          access_counter := c.access_counter,
          hits := c.hits,
          misses := (c.misses + 1) % SIZE_MOD },
        { (make_room c d).2 with log := DiskOp.read b false :: (make_room c d).2.log },
        buf⟩ := by
  obtain ⟨blk, h⟩ := cache_read_miss_slot d buf hf hm
  obtain ⟨h1, h2, h3⟩ := make_room_counters c d
  rw [h, cache_read_fill_fail _ blk b buf hread]
  simp [count_miss, h1, h2, h3]

theorem round_trip_core {c : cache_t} {d : Disk} (hwf : WellFormed c)
    (hok : ∀ n, d.fails n = false)
    (hs : c.access_counter + MAX_CACHE_BLOCKS + 1 < UINT64_MOD)
    (b : Nat) (X : Block) (ws : List (Nat × Block)) (hlen : ws.length = MAX_CACHE_BLOCKS)
    (hnd : (ws.map Prod.fst).Nodup) (hb : b ∉ ws.map Prod.fst) (m : Malloc) (buf : Block) :
    ¬ resident (after_writes c d b X ws).1 b ∧
    (after_writes c d b X ws).2.store b = X ∧
    (∃ l, (after_writes c d b X ws).2.log = l ++ d.log ∧ DiskOp.write b X true ∈ l) ∧
    (cache_read (after_writes c d b X ws).1 (after_writes c d b X ws).2 m b buf).ret =
      CACHE_SUCCESS ∧
    (cache_read (after_writes c d b X ws).1 (after_writes c d b X ws).2 m b buf).buffer = X ∧
    (cache_read (after_writes c d b X ws).1 (after_writes c d b X ws).2 m b buf).cache.misses =
      (c.misses + 1) % SIZE_MOD ∧
    (cache_read (after_writes c d b X ws).1 (after_writes c d b X ws).2 m b buf).cache.hits =
      c.hits := by
  have h0 := roundTrip_init hwf hok b X (by omega)
  have hrun := roundTrip_run ws h0 hnd hb (by simp) (by simp only [List.length_nil]; omega)
  rw [List.append_nil] at hrun
  have hgone := roundTrip_evicted hrun (List.nodup_reverse.mpr hnd)
    (by simpa using hb) (by simp [hlen])
  obtain ⟨l, hl, hcold⟩ := hrun.log
  obtain ⟨hstore, hmem⟩ := hcold hgone.1
  have hf : find_block (after_writes c d b X ws).1 b = none := find_block_eq_none.mpr hgone.1
  have hroom : (after_writes c d b X ws).1.blocks.length < MAX_CACHE_BLOCKS → m = Malloc.ok := by
    intro hlt
    have := hgone.2
    unfold after_writes at hlt
    omega
  have hread : (make_room (after_writes c d b X ws).1 (after_writes c d b X ws).2).2.next_fails =
      false := by
    apply next_fails_of_never
    rw [make_room_fails]
    exact hrun.ok
  obtain ⟨hh, hm⟩ := write_all_frame ws (cache_write c d Malloc.ok b X).cache
    (cache_write c d Malloc.ok b X).disk
  obtain ⟨hh0, hm0, -, -⟩ := cache_write_frame c d Malloc.ok b X
  refine ⟨hgone.1, hstore, ⟨l, hl, hmem⟩, ?_⟩
  rw [cache_read_miss_ok _ buf hf hroom hread]
  refine ⟨rfl, hstore, ?_, ?_⟩
  · show ((after_writes c d b X ws).1.misses + 1) % SIZE_MOD = _
    unfold after_writes
    rw [hm, hm0]
  · show (after_writes c d b X ws).1.hits = _
    unfold after_writes
    rw [hh, hh0]

/-! ## A block written just before the access counter wraps is not evicted -/

theorem stay_step {c : cache_t} (d : Disk) {b T : Nat} {X : Block}
    (hb : ⟨b, X, T, true⟩ ∈ c.blocks) (hsmall : ∃ e ∈ c.blocks, e.last_access < T)
    (hk : next_stamp c < T) (hT : T < UINT64_MOD) {w : Nat} (Y : Block) (hwb : w ≠ b) :
    ⟨b, X, T, true⟩ ∈ (cache_write c d Malloc.ok w Y).cache.blocks ∧
    (∃ e ∈ (cache_write c d Malloc.ok w Y).cache.blocks, e.last_access < T) ∧
    next_stamp (cache_write c d Malloc.ok w Y).cache = next_stamp c + 1 := by
  have hnext : ∀ c' : cache_t, c'.access_counter = next_stamp c →
      next_stamp c' = next_stamp c + 1 := by
    intro c' hc'
    unfold next_stamp at hc' ⊢
    rw [hc']
    exact Nat.mod_eq_of_lt (by unfold next_stamp at hk; omega)
  rcases cache_write_cases c d Malloc.ok w Y with ⟨i, e, hf, h⟩ | ⟨hf, hfull, v, hv, h⟩ |
    ⟨hf, -, -, h⟩ | ⟨-, -, hm, -⟩
  · obtain ⟨hi, hid, -⟩ := find_block_some hf
    rw [h]
    refine ⟨mem_set_of_ne_id _ hb hi (by rw [hid]; exact fun hbw => hwb hbw.symm),
      ⟨_, mem_set_self _ hi, hk⟩, hnext _ rfl⟩
  · obtain ⟨v', hv', hmin, -⟩ := lru_index_spec (max_cache_blocks_pos hfull)
    rw [hv] at hv'
    cases hv'
    rw [h]
    refine ⟨List.mem_append_left _ (mem_eraseIdx_of_ne hb hv ?_),
      ⟨⟨w, Y, next_stamp c, true⟩, List.mem_append_right _ (by simp), hk⟩, hnext _ rfl⟩
    intro heq
    obtain ⟨e, he, hlt⟩ := hsmall
    have := hmin e he
    rw [← heq] at this
    simp only at this
    omega
  · rw [h]
    exact ⟨List.mem_append_left _ hb,
      ⟨⟨w, Y, next_stamp c, true⟩, List.mem_append_right _ (by simp), hk⟩, hnext _ rfl⟩
  · exact absurd rfl hm

theorem stay_run {b T : Nat} {X : Block} (hT : T < UINT64_MOD) (ws : List (Nat × Block)) :
    ∀ (c : cache_t) (d : Disk), ⟨b, X, T, true⟩ ∈ c.blocks →
      (∃ e ∈ c.blocks, e.last_access < T) → next_stamp c + ws.length ≤ T →
      b ∉ ws.map Prod.fst → ⟨b, X, T, true⟩ ∈ (write_all c d ws).1.blocks := by
  induction ws with
  | nil =>
    intro c d hb _ _ _
    exact hb
  | cons p rest ih =>
    intro c d hb hsmall hk hnb
    obtain ⟨w, Y⟩ := p
    simp only [List.map_cons, List.mem_cons, not_or, List.length_cons] at hnb hk
    obtain ⟨h1, h2, h3⟩ := stay_step d hb hsmall (by omega) hT Y (fun hwb => hnb.1 hwb.symm)
    exact ih _ _ h1 h2 (by rw [h3]; omega) hnb.2

/-! ## C2: round trip through eviction -/

theorem eviction_writes_length (first : Nat) :
    (eviction_writes first).length = MAX_CACHE_BLOCKS := by
  simp [eviction_writes]

theorem eviction_writes_ids (first : Nat) :
    (eviction_writes first).map Prod.fst = (List.range MAX_CACHE_BLOCKS).map (fun i => i + first) := by
  simp [eviction_writes, Function.comp_def]

theorem eviction_writes_nodup (first : Nat) : ((eviction_writes first).map Prod.fst).Nodup := by
  rw [eviction_writes_ids]
  exact List.Nodup.map (fun i j h => by simpa using h) (List.nodup_range _)

theorem eviction_writes_not_mem {b first : Nat} (h : b < first) :
    b ∉ (eviction_writes first).map Prod.fst := by
  rw [eviction_writes_ids]
  simp only [List.mem_map, List.mem_range, not_exists, not_and]
  intro i _ hi
  omega

/-- C2, as amended: from a reachable state whose access counter does not wrap
during the next `MAX_CACHE_BLOCKS + 1` writes, on a disk where no operation
fails and with every allocation succeeding, after `cache_write(b, X)` and
`MAX_CACHE_BLOCKS` writes to pairwise distinct ids other than `b`: `b` is not
resident, a successful write of `X` to `b` was issued to the disk since the
start, the disk holds `X` for `b`, and the next `cache_read(b, Y)` succeeds with
`Y = X`, leaves `hits` alone and sets `misses` to `(misses + 1) mod 2^64`. -/
theorem C2_round_trip_through_eviction (c : cache_t) (d : Disk) (hreach : Reachable c d)
    (hok : ∀ n, d.fails n = false)
    (hs : c.access_counter + MAX_CACHE_BLOCKS + 1 < UINT64_MOD)
    (b : Nat) (X : Block) (ws : List (Nat × Block)) (hlen : ws.length = MAX_CACHE_BLOCKS)
    (hnd : (ws.map Prod.fst).Nodup) (hb : b ∉ ws.map Prod.fst) (m : Malloc) (buf : Block) :
    ¬ resident (after_writes c d b X ws).1 b ∧
    (after_writes c d b X ws).2.store b = X ∧
    (∃ l, (after_writes c d b X ws).2.log = l ++ d.log ∧ DiskOp.write b X true ∈ l) ∧
    (cache_read (after_writes c d b X ws).1 (after_writes c d b X ws).2 m b buf).ret =
      CACHE_SUCCESS ∧
    (cache_read (after_writes c d b X ws).1 (after_writes c d b X ws).2 m b buf).buffer = X ∧
    (cache_read (after_writes c d b X ws).1 (after_writes c d b X ws).2 m b buf).cache.misses =
      (c.misses + 1) % SIZE_MOD ∧
    (cache_read (after_writes c d b X ws).1 (after_writes c d b X ws).2 m b buf).cache.hits =
      c.hits :=
  round_trip_core (reachable_wellFormed hreach) hok hs b X ws hlen hnd hb m buf

/-- C2 at a concrete input, the scenario of `test_cache_eviction`: on a fresh
cache, block 0 and then blocks 1 to 1024 are written with 0xCC, and block 0 is
read back. -/
theorem C2_round_trip_through_eviction_witness :
    Reachable ⟨[], 0, 0, 0⟩ disk0 ∧
    (∀ n, disk0.fails n = false) ∧
    (0 + MAX_CACHE_BLOCKS + 1 < UINT64_MOD) ∧
    (eviction_writes 1).length = MAX_CACHE_BLOCKS ∧
    ((eviction_writes 1).map Prod.fst).Nodup ∧
    0 ∉ (eviction_writes 1).map Prod.fst ∧
    (¬ resident (after_writes ⟨[], 0, 0, 0⟩ disk0 0 (fill 204) (eviction_writes 1)).1 0 ∧
    (after_writes ⟨[], 0, 0, 0⟩ disk0 0 (fill 204) (eviction_writes 1)).2.store 0 = fill 204 ∧
    (∃ l, (after_writes ⟨[], 0, 0, 0⟩ disk0 0 (fill 204) (eviction_writes 1)).2.log =
        l ++ disk0.log ∧ DiskOp.write 0 (fill 204) true ∈ l) ∧
    (cache_read (after_writes ⟨[], 0, 0, 0⟩ disk0 0 (fill 204) (eviction_writes 1)).1
      (after_writes ⟨[], 0, 0, 0⟩ disk0 0 (fill 204) (eviction_writes 1)).2
      Malloc.ok 0 []).ret = CACHE_SUCCESS ∧
    (cache_read (after_writes ⟨[], 0, 0, 0⟩ disk0 0 (fill 204) (eviction_writes 1)).1
      (after_writes ⟨[], 0, 0, 0⟩ disk0 0 (fill 204) (eviction_writes 1)).2
      Malloc.ok 0 []).buffer = fill 204 ∧
    (cache_read (after_writes ⟨[], 0, 0, 0⟩ disk0 0 (fill 204) (eviction_writes 1)).1
      (after_writes ⟨[], 0, 0, 0⟩ disk0 0 (fill 204) (eviction_writes 1)).2
      Malloc.ok 0 []).cache.misses = (0 + 1) % SIZE_MOD ∧
    (cache_read (after_writes ⟨[], 0, 0, 0⟩ disk0 0 (fill 204) (eviction_writes 1)).1
      (after_writes ⟨[], 0, 0, 0⟩ disk0 0 (fill 204) (eviction_writes 1)).2
      Malloc.ok 0 []).cache.hits = 0) :=
  ⟨Reachable.init _ _ rfl, fun _ => rfl, by decide, eviction_writes_length 1,
    eviction_writes_nodup 1, eviction_writes_not_mem (by decide),
    C2_round_trip_through_eviction ⟨[], 0, 0, 0⟩ disk0 (Reachable.init _ _ rfl) (fun _ => rfl)
      (by decide) 0 (fill 204) (eviction_writes 1) (eviction_writes_length 1)
      (eviction_writes_nodup 1) (eviction_writes_not_mem (by decide)) Malloc.ok []⟩

/-- C2 as stated fails in two ways.  First, `stamps_near_max` is reachable, and
after `cache_write(1, X)` (stamp `2^64 - 1`) and writes to the 1024 blocks
2 to 1025, whose stamps have wrapped to 0, 1, ..., block 1 is still resident.
Second, `misses_at_max` is reachable, and there the read that ends the round
trip takes `misses` from `2^64 - 1` to `0`. -/
theorem C2_wrap_counterexample :
    (Reachable stamps_near_max disk0 ∧
      (∀ n, disk0.fails n = false) ∧
      (eviction_writes 2).length = MAX_CACHE_BLOCKS ∧
      ((eviction_writes 2).map Prod.fst).Nodup ∧
      1 ∉ (eviction_writes 2).map Prod.fst ∧
      resident (after_writes stamps_near_max disk0 1 (fill 204) (eviction_writes 2)).1 1) ∧
    (Reachable misses_at_max disk0 ∧
      (after_writes misses_at_max disk0 0 (fill 204) (eviction_writes 1)).1.misses =
        18446744073709551615 ∧
      (cache_read (after_writes misses_at_max disk0 0 (fill 204) (eviction_writes 1)).1
        (after_writes misses_at_max disk0 0 (fill 204) (eviction_writes 1)).2
        Malloc.ok 0 []).cache.misses = 0) := by
  refine ⟨⟨?_, fun _ => rfl, eviction_writes_length 2, eviction_writes_nodup 2,
    eviction_writes_not_mem (by decide), ?_⟩, ?_, ?_, ?_⟩
  · have := reachable_stamps disk0 (fill 170) 18446744073709551613
    simpa [UINT64_MOD, stamps_near_max] using this
  · have h1 : cache_write stamps_near_max disk0 Malloc.ok 1 (fill 204) =
        ⟨CACHE_SUCCESS,
          ⟨[⟨0, fill 170, 18446744073709551614, true⟩,
            ⟨1, fill 204, 18446744073709551615, true⟩], 18446744073709551615, 0, 0⟩,
          disk0⟩ := by
      rw [cache_write_miss_room disk0 (fill 204) (by decide) (by decide)]
      simp [stamps_near_max, next_stamp, UINT64_MOD]
    have := stay_run (b := 1) (T := 18446744073709551615) (X := fill 204) (by decide)
      (eviction_writes 2) (cache_write stamps_near_max disk0 Malloc.ok 1 (fill 204)).cache
      (cache_write stamps_near_max disk0 Malloc.ok 1 (fill 204)).disk
      (by rw [h1]; simp)
      (by rw [h1]; exact ⟨⟨0, fill 170, 18446744073709551614, true⟩, by simp, by decide⟩)
      (by rw [h1, eviction_writes_length]; decide)
      (eviction_writes_not_mem (by decide))
    unfold after_writes
    exact ⟨⟨1, fill 204, 18446744073709551615, true⟩, this, rfl⟩
  · have := reachable_misses disk0 18446744073709551615
    simpa [SIZE_MOD, misses_at_max] using this
  · unfold after_writes
    rw [(write_all_frame _ _ _).2, (cache_write_frame _ _ _ _ _).2.1]
    rfl
  · have := (round_trip_core (c := misses_at_max) (d := disk0) ⟨by decide, by decide⟩
      (fun _ => rfl) (by decide) 0 (fill 204) (eviction_writes 1) (eviction_writes_length 1)
      (eviction_writes_nodup 1) (eviction_writes_not_mem (by decide)) Malloc.ok []).2.2.2.2.2.1
    rw [this]
    decide

/-! ## Runs of writes -/

theorem write_all_append (ws : List (Nat × Block)) (w : Nat) (Y : Block) :
    ∀ (c : cache_t) (d : Disk),
      write_all c d (ws ++ [(w, Y)]) =
        ((cache_write (write_all c d ws).1 (write_all c d ws).2 Malloc.ok w Y).cache,
         (cache_write (write_all c d ws).1 (write_all c d ws).2 Malloc.ok w Y).disk) := by
  induction ws with
  | nil =>
    intro c d
    rfl
  | cons p rest ih =>
    intro c d
    obtain ⟨w', Y'⟩ := p
    simp only [List.cons_append, write_all]
    exact ih _ _

theorem reachable_write_all (ws : List (Nat × Block)) :
    ∀ (c : cache_t) (d : Disk), Reachable c d → (∀ w ∈ ws.map Prod.fst, w < UINT64_MOD) →
      Reachable (write_all c d ws).1 (write_all c d ws).2 := by
  induction ws with
  | nil =>
    intro c d h _
    exact h
  | cons p rest ih =>
    intro c d h hw
    obtain ⟨w, Y⟩ := p
    simp only [List.map_cons, List.mem_cons, forall_eq_or_imp] at hw
    exact ih _ _ (Reachable.write c d Malloc.ok w Y hw.1 h) hw.2

theorem filled_cache_get {n k : Nat} {v : cache_block_t}
    (h : (filled_cache n).blocks[k]? = some v) : k < n ∧ v = ⟨k, fill 204, k + 1, true⟩ := by
  simp only [filled_cache, List.getElem?_map, Option.map_eq_some'] at h
  obtain ⟨i, hi, hv⟩ := h
  obtain ⟨hlt, hik⟩ := List.getElem?_eq_some_iff.mp hi
  simp only [List.length_range] at hlt
  simp only [List.getElem_range] at hik
  subst hik
  exact ⟨hlt, hv.symm⟩

theorem filled_cache_mem {n : Nat} {e : cache_block_t} (h : e ∈ (filled_cache n).blocks) :
    ∃ k, k < n ∧ e = ⟨k, fill 204, k + 1, true⟩ := by
  obtain ⟨k, hk⟩ := List.mem_iff_getElem?.mp h
  exact ⟨k, filled_cache_get hk⟩

theorem filled_cache_not_resident {n b : Nat} (h : n ≤ b) :
    find_block (filled_cache n) b = none := by
  apply find_block_loop_eq_none.mpr
  intro e he hid
  obtain ⟨k, hk, rfl⟩ := filled_cache_mem he
  simp only at hid
  omega

theorem filled_cache_succ (d : Disk) {n : Nat} (hn : n < MAX_CACHE_BLOCKS) :
    cache_write (filled_cache n) d Malloc.ok n (fill 204) =
      ⟨CACHE_SUCCESS, filled_cache (n + 1), d⟩ := by
  rw [cache_write_miss_room d (fill 204) (filled_cache_not_resident (le_refl n))
    (by simpa [filled_cache] using hn)]
  have hns : next_stamp (filled_cache n) = n + 1 := by
    apply Nat.mod_eq_of_lt
    simp only [filled_cache, MAX_CACHE_BLOCKS, UINT64_MOD] at hn ⊢
    omega
  rw [hns]
  simp [filled_cache, List.range_succ]

theorem write_all_fresh (d : Disk) (n : Nat) (hn : n ≤ MAX_CACHE_BLOCKS) :
    write_all ⟨[], 0, 0, 0⟩ d ((List.range n).map (fun i => (i, fill 204))) =
      (filled_cache n, d) := by
  induction n with
  | zero => rfl
  | succ n ih =>
    rw [List.range_succ, List.map_append, List.map_singleton, write_all_append, ih (by omega),
      filled_cache_succ d (by omega)]

theorem reachable_filled_cache (d : Disk) (n : Nat) (hn : n ≤ MAX_CACHE_BLOCKS) :
    Reachable (filled_cache n) d := by
  have h := reachable_write_all ((List.range n).map (fun i => (i, fill 204))) _ d
    (Reachable.init ⟨[], 0, 0, 0⟩ d rfl) (by
      intro w hw
      simp only [List.map_map, List.mem_map, List.mem_range, Function.comp] at hw
      obtain ⟨i, hi, rfl⟩ := hw
      simp only [MAX_CACHE_BLOCKS, UINT64_MOD] at hn ⊢
      omega)
  rw [write_all_fresh d n hn] at h
  exact h

theorem full_cache_length : full_cache.blocks.length = MAX_CACHE_BLOCKS := by
  simp [full_cache, filled_cache]

theorem full_cache_lru : full_cache.blocks[lru_index full_cache.blocks]? =
    some ⟨0, fill 204, 1, true⟩ := by
  have hne : full_cache.blocks ≠ [] := max_cache_blocks_pos (le_of_eq full_cache_length.symm)
  obtain ⟨v, hv, hmin, -⟩ := lru_index_spec hne
  obtain ⟨-, hveq⟩ := filled_cache_get hv
  have h0 : (⟨0, fill 204, 1, true⟩ : cache_block_t) ∈ full_cache.blocks := by
    apply List.mem_iff_getElem?.mpr
    exact ⟨0, by simp [full_cache, filled_cache, MAX_CACHE_BLOCKS]⟩
  have hle := hmin _ h0
  rw [hveq] at hle
  simp only at hle
  have hk : lru_index full_cache.blocks = 0 := by omega
  rw [hv, hveq, hk]

/-! ## C3: a failed write-back during eviction -/

theorem victim_gone {c : cache_t} (hnd : (block_ids c.blocks).Nodup) {b k : Nat}
    (hf : find_block c b = none) {v : cache_block_t} (hv : c.blocks[k]? = some v)
    (n : cache_block_t) (hn : n.block_id = b) :
    ∀ e ∈ c.blocks.eraseIdx k ++ [n], e.block_id ≠ v.block_id := by
  intro e he
  rcases List.mem_append.mp he with he | he
  · exact ids_ne_of_mem_eraseIdx hnd hv e he
  · simp only [List.mem_singleton] at he
    subst he
    rw [hn]
    exact fun hbv => find_block_loop_eq_none.mp hf v (List.getElem?_mem hv) hbv.symm

theorem write_back_failed {d : Disk} {v : cache_block_t} (hd : v.dirty = true)
    (hfail : d.next_fails = true) :
    (write_back d v).store = d.store ∧
      (write_back d v).log = DiskOp.write v.block_id v.data false :: d.log := by
  simp [write_back, disk_write, hd, hfail]

/-- C3 fails on the code; the code at the failing input.  `full_cache` is the
(reachable) cache after writing blocks 0 to 1023; its least recently used entry
is block 0, dirty; block 1024 is not resident; the first disk operation, the
write-back of block 0, fails.  Then `cache_write(1024)` and `cache_read(1024)`
both return `CACHE_SUCCESS`, block 0 is no longer resident, and the disk still
holds zeros for block 0: its data is lost. -/
theorem C3_failed_write_back_is_dropped :
    Reachable full_cache disk_fail_first ∧
    full_cache.blocks.length = MAX_CACHE_BLOCKS ∧
    full_cache.blocks[lru_index full_cache.blocks]? = some ⟨0, fill 204, 1, true⟩ ∧
    ¬ resident full_cache 1024 ∧
    (disk_write disk_fail_first 0 (fill 204)).1 = CACHE_ERROR ∧
    (cache_write full_cache disk_fail_first Malloc.ok 1024 (fill 221)).ret = CACHE_SUCCESS ∧
    ¬ resident (cache_write full_cache disk_fail_first Malloc.ok 1024 (fill 221)).cache 0 ∧
    (cache_write full_cache disk_fail_first Malloc.ok 1024 (fill 221)).disk.store 0 = fill 0 ∧
    (cache_write full_cache disk_fail_first Malloc.ok 1024 (fill 221)).disk.log =
      [DiskOp.write 0 (fill 204) false] ∧
    (cache_read full_cache disk_fail_first Malloc.ok 1024 []).ret = CACHE_SUCCESS ∧
    ¬ resident (cache_read full_cache disk_fail_first Malloc.ok 1024 []).cache 0 ∧
    (cache_read full_cache disk_fail_first Malloc.ok 1024 []).disk.store 0 = fill 0 := by
  have hreach := reachable_filled_cache disk_fail_first MAX_CACHE_BLOCKS (le_refl _)
  have hnd := (reachable_wellFormed hreach).1
  have hf : find_block full_cache 1024 = none := filled_cache_not_resident (by decide)
  have hfull : MAX_CACHE_BLOCKS ≤ full_cache.blocks.length := le_of_eq full_cache_length.symm
  have hwb := write_back_failed (d := disk_fail_first) (v := ⟨0, fill 204, 1, true⟩) rfl rfl
  refine ⟨hreach, full_cache_length, full_cache_lru, find_block_eq_none.mp hf, rfl, ?_⟩
  obtain ⟨v, hv, hw⟩ := cache_write_miss_full disk_fail_first Malloc.ok (fill 221) hf hfull
  obtain ⟨v', hv', hm⟩ := make_room_full disk_fail_first hfull
  have hlru := full_cache_lru
  rw [hv] at hlru
  cases hlru
  rw [hv] at hv'
  cases hv'
  have hread : (make_room full_cache disk_fail_first).2.next_fails = false := by
    rw [hm]
    simp only [Disk.next_fails, hwb.2]
    rfl
  rw [hw, cache_read_miss_ok disk_fail_first [] hf (fun hlt => absurd hfull (by omega)) hread, hm]
  refine ⟨rfl, ?_, by rw [hwb.1]; rfl, hwb.2, rfl, ?_, by simp only [hwb.1]; rfl⟩
  · rintro ⟨e, he, hid⟩
    simp only at he
    exact victim_gone (c := full_cache) hnd hf hv
      ⟨1024, fill 221, next_stamp full_cache, true⟩ rfl e he hid
  · rintro ⟨e, he, hid⟩
    simp only at he
    exact victim_gone (c := full_cache) hnd hf hv
      ⟨1024, disk_fail_first.store 1024, next_stamp full_cache, false⟩ rfl e he hid

/-! ## The loop of `cache_flush` -/

theorem disk_write_success {d : Disk} {id : Nat} {data : Block}
    (h : (disk_write d id data).1 = CACHE_SUCCESS) :
    d.next_fails = false ∧
      disk_write d id data =
        (CACHE_SUCCESS,
          { d with store := Function.update d.store id data,
                   log := DiskOp.write id data true :: d.log }) := by
  unfold disk_write at h ⊢
  cases hf : d.next_fails with
  | true => simp [hf, CACHE_ERROR, CACHE_SUCCESS] at h
  | false => simp

theorem flush_loop_cons_dirty {b : cache_block_t} {rest : List cache_block_t} {d : Disk}
    (hd : b.dirty = true) (hok : d.next_fails = false) :
    flush_loop (b :: rest) d =
      ((flush_loop rest (disk_write d b.block_id b.data).2).1,
        { b with dirty := false } :: (flush_loop rest (disk_write d b.block_id b.data).2).2.1,
        (flush_loop rest (disk_write d b.block_id b.data).2).2.2) := by
  have hw : (disk_write d b.block_id b.data).1 = CACHE_SUCCESS := by simp [disk_write, hok]
  rw [flush_loop]
  simp [hd, hw]

theorem flush_loop_cons_fail {b : cache_block_t} {rest : List cache_block_t} {d : Disk}
    (hd : b.dirty = true) (hfail : d.next_fails = true) :
    flush_loop (b :: rest) d =
      (CACHE_ERROR, b :: rest, { d with log := DiskOp.write b.block_id b.data false :: d.log }) := by
  rw [flush_loop]
  simp [hd, disk_write, hfail, CACHE_ERROR, CACHE_SUCCESS]

theorem flush_loop_cons_clean {b : cache_block_t} {rest : List cache_block_t} {d : Disk}
    (hd : b.dirty = false) :
    flush_loop (b :: rest) d =
      ((flush_loop rest d).1, b :: (flush_loop rest d).2.1, (flush_loop rest d).2.2) := by
  rw [flush_loop]
  simp [hd]

/-- After a successful run of the loop every entry is clean, the disk holds
the data of every entry that was dirty, and block ids with no dirty entry keep
their contents. -/
theorem flush_loop_success (bs : List cache_block_t) :
    ∀ d : Disk, (flush_loop bs d).1 = CACHE_SUCCESS →
      (∀ e ∈ (flush_loop bs d).2.1, e.dirty = false) ∧
      (flush_loop bs d).2.1.map (fun e => (e.block_id, e.data)) =
        bs.map (fun e => (e.block_id, e.data)) ∧
      (∀ id, (∀ e ∈ bs, e.dirty = true → e.block_id ≠ id) →
        (flush_loop bs d).2.2.store id = d.store id) ∧
      ((block_ids bs).Nodup → ∀ e ∈ bs, e.dirty = true →
        (flush_loop bs d).2.2.store e.block_id = e.data) := by
  induction bs with
  | nil =>
    intro d _
    simp [flush_loop]
  | cons b rest ih =>
    intro d hret
    cases hd : b.dirty with
    | false =>
      rw [flush_loop_cons_clean hd] at hret ⊢
      obtain ⟨h1, h2, h3, h4⟩ := ih d hret
      refine ⟨?_, ?_, ?_, ?_⟩
      · intro e he
        rcases List.mem_cons.mp he with rfl | he
        · exact hd
        · exact h1 e he
      · simp only [List.map_cons, h2]
      · intro id hid
        exact h3 id (fun e he => hid e (List.mem_cons_of_mem _ he))
      · intro hnd e he hde
        rcases List.mem_cons.mp he with rfl | he
        · rw [hd] at hde
          cases hde
        · exact h4 (List.nodup_cons.mp hnd).2 e he hde
    | true =>
      cases hfail : d.next_fails with
      | true =>
        rw [flush_loop_cons_fail hd hfail] at hret
        simp [CACHE_ERROR, CACHE_SUCCESS] at hret
      | false =>
        rw [flush_loop_cons_dirty hd hfail] at hret ⊢
        have hw : disk_write d b.block_id b.data =
            (CACHE_SUCCESS,
              { d with store := Function.update d.store b.block_id b.data,
                       log := DiskOp.write b.block_id b.data true :: d.log }) := by
          simp [disk_write, hfail]
        obtain ⟨h1, h2, h3, h4⟩ := ih _ hret
        refine ⟨?_, ?_, ?_, ?_⟩
        · intro e he
          rcases List.mem_cons.mp he with rfl | he
          · rfl
          · exact h1 e he
        · simp only [List.map_cons, h2]
        · intro id hid
          rw [h3 id (fun e he => hid e (List.mem_cons_of_mem _ he)), hw]
          exact Function.update_noteq (Ne.symm (hid b (List.mem_cons_self _ _) hd)) _ _
        · intro hnd e he hde
          have hnd' := List.nodup_cons.mp (by simpa [block_ids] using hnd :
            (b.block_id :: block_ids rest).Nodup)
          rcases List.mem_cons.mp he with rfl | he
          · rw [h3 e.block_id (fun e' he' _ hid =>
              hnd'.1 (mem_block_ids.mpr ⟨e', he', hid⟩)), hw]
            exact Function.update_same _ _ _
          · exact h4 hnd'.2 e he hde

theorem unique_of_nodup_ids {bs : List cache_block_t} (hnd : (block_ids bs).Nodup)
    {e1 e2 : cache_block_t} (h1 : e1 ∈ bs) (h2 : e2 ∈ bs) (hid : e1.block_id = e2.block_id) :
    e1 = e2 :=
  List.inj_on_of_nodup_map hnd h1 h2 hid

/-! ## C4: flush postcondition -/

theorem fill_ne {x y : Nat} (h : x ≠ y) : fill x ≠ fill y := by
  intro heq
  have := congrArg List.head? heq
  simp [fill, BLOCK_SIZE, List.head?_replicate] at this
  exact h this

theorem filled_cache_cleanMirrors (n : Nat) (d : Disk) : CleanMirrors (filled_cache n) d := by
  intro e he hd
  obtain ⟨k, -, rfl⟩ := filled_cache_mem he
  simp at hd

/-- C4, as amended: for every cache state with pairwise distinct block ids in
which every clean entry mirrors the disk (I4), if `cache_flush` returns success
then afterwards every entry is clean and the disk holds the entry's data for the
entry's block id. -/
theorem C4_flush_postcondition (c : cache_t) (d : Disk) (hnd : (block_ids c.blocks).Nodup)
    (hclean : CleanMirrors c d) (hret : (cache_flush c d).ret = CACHE_SUCCESS) :
    ∀ e ∈ (cache_flush c d).cache.blocks,
      e.dirty = false ∧ (cache_flush c d).disk.store e.block_id = e.data := by
  obtain ⟨h1, h2, h3, h4⟩ := flush_loop_success c.blocks d hret
  intro e he
  refine ⟨h1 e he, ?_⟩
  have hmem : (e.block_id, e.data) ∈ c.blocks.map (fun e => (e.block_id, e.data)) := by
    rw [← h2]
    exact List.mem_map.mpr ⟨e, he, rfl⟩
  obtain ⟨e0, he0, heq⟩ := List.mem_map.mp hmem
  simp only [Prod.mk.injEq] at heq
  rw [← heq.1, ← heq.2]
  show (flush_loop c.blocks d).2.2.store e0.block_id = e0.data
  cases hd : e0.dirty with
  | true => exact h4 hnd e0 he0 hd
  | false =>
    rw [h3 e0.block_id]
    · exact hclean e0 he0 hd
    · intro e' he' hd' hid
      have := unique_of_nodup_ids hnd he' he0 hid
      rw [this, hd] at hd'
      cases hd'

/-- C4 at a concrete input, the scenario of `test_cache_flush`: five blocks
written on a fresh cache, then flushed to a disk that does not fail. -/
theorem C4_flush_postcondition_witness :
    (block_ids (filled_cache 5).blocks).Nodup ∧
    CleanMirrors (filled_cache 5) disk0 ∧
    (cache_flush (filled_cache 5) disk0).ret = CACHE_SUCCESS ∧
    ∀ e ∈ (cache_flush (filled_cache 5) disk0).cache.blocks,
      e.dirty = false ∧ (cache_flush (filled_cache 5) disk0).disk.store e.block_id = e.data :=
  ⟨by decide, filled_cache_cleanMirrors 5 disk0, by decide,
    C4_flush_postcondition (filled_cache 5) disk0 (by decide)
      (filled_cache_cleanMirrors 5 disk0) (by decide)⟩

/-- C4 as stated fails: `stale_cache` has one entry, clean, holding 0xAA where
`disk0` holds zeros.  Its ids are distinct and `cache_flush` succeeds without
writing anything, so afterwards the disk content for block 0 is not the entry's
data. -/
theorem C4_stale_clean_entry_counterexample :
    (block_ids stale_cache.blocks).Nodup ∧
    (cache_flush stale_cache disk0).ret = CACHE_SUCCESS ∧
    (cache_flush stale_cache disk0).cache.blocks = [⟨0, fill 170, 1, false⟩] ∧
    (cache_flush stale_cache disk0).disk.log = [] ∧
    (cache_flush stale_cache disk0).disk.store 0 = fill 0 ∧
    ¬ (∀ e ∈ (cache_flush stale_cache disk0).cache.blocks,
        e.dirty = false ∧ (cache_flush stale_cache disk0).disk.store e.block_id = e.data) := by
  have hb : (cache_flush stale_cache disk0).cache.blocks = [⟨0, fill 170, 1, false⟩] := rfl
  refine ⟨by decide, by decide, hb, by decide, rfl, ?_⟩
  intro h
  have h0 := (h ⟨0, fill 170, 1, false⟩ (by rw [hb]; exact List.mem_singleton.mpr rfl)).2
  have h1 : fill 0 = fill 170 := h0
  exact fill_ne (by decide) h1

/-! ## C5: flush stops at the first failure -/

theorem flush_loop_stops (pre : List cache_block_t) (e : cache_block_t)
    (post : List cache_block_t) (he : e.dirty = true) :
    ∀ d : Disk, (∀ i, i < dirty_count pre → d.fails (d.log.length + i) = false) →
      d.fails (d.log.length + dirty_count pre) = true →
      (flush_loop (pre ++ e :: post) d).1 = CACHE_ERROR ∧
      (flush_loop (pre ++ e :: post) d).2.1 = pre.map cleaned ++ e :: post ∧
      (flush_loop (pre ++ e :: post) d).2.2.log =
        DiskOp.write e.block_id e.data false :: (flush_writes pre ++ d.log) := by
  induction pre with
  | nil =>
    intro d _ hfail
    have hf : d.next_fails = true := by simpa [dirty_count, Disk.next_fails] using hfail
    rw [List.nil_append, flush_loop_cons_fail he hf]
    exact ⟨rfl, rfl, rfl⟩
  | cons p pre ih =>
    intro d hok hfail
    cases hp : p.dirty with
    | false =>
      have hcount : dirty_count (p :: pre) = dirty_count pre := by simp [dirty_count, hp]
      have hwrites : flush_writes (p :: pre) = flush_writes pre := by simp [flush_writes, hp]
      rw [hcount] at hok hfail
      obtain ⟨h1, h2, h3⟩ := ih d hok hfail
      rw [List.cons_append, flush_loop_cons_clean hp, hwrites]
      refine ⟨h1, ?_, h3⟩
      simp only [h2, List.map_cons, List.cons_append, List.cons.injEq, and_true]
      cases p
      simp only at hp
      simp [cleaned, hp]
    | true =>
      have hcount : dirty_count (p :: pre) = dirty_count pre + 1 := by simp [dirty_count, hp]
      have hwrites : flush_writes (p :: pre) =
          flush_writes pre ++ [DiskOp.write p.block_id p.data true] := by
        simp [flush_writes, hp]
      rw [hcount] at hok hfail
      have hf : d.next_fails = false := by
        have := hok 0 (by omega)
        simpa [Disk.next_fails] using this
      have hw : (disk_write d p.block_id p.data).2 =
          { d with store := Function.update d.store p.block_id p.data,
                   log := DiskOp.write p.block_id p.data true :: d.log } := by
        simp [disk_write, hf]
      obtain ⟨h1, h2, h3⟩ := ih (disk_write d p.block_id p.data).2
        (by
          intro i hi
          rw [hw]
          have := hok (i + 1) (by omega)
          simp only [List.length_cons]
          rw [← this]
          congr 1
          omega)
        (by
          rw [hw]
          simp only [List.length_cons]
          rw [← hfail]
          congr 1
          omega)
      rw [List.cons_append, flush_loop_cons_dirty hp hf, hwrites]
      refine ⟨h1, ?_, ?_⟩
      · simp only [h2, List.map_cons, List.cons_append]
        rfl
      · rw [hw] at h3
        simp only [hw, List.append_assoc, List.singleton_append]
        exact h3

/-- C5: if the dirty entry `e` at position `k = pre.length` is the one whose
write-back is the first disk write to fail, `cache_flush` returns error, the
entries before `k` are clean and each one that was dirty has been written back,
the entry at `k` and those after it are as before, nothing else in the cache
changes, and the disk trace shows the write-backs of the entries before `k`
followed by the failed one and nothing more. -/
theorem C5_flush_stops_at_first_failure (c : cache_t) (d : Disk)
    (pre post : List cache_block_t) (e : cache_block_t)
    (hc : c.blocks = pre ++ e :: post) (he : e.dirty = true)
    (hok : ∀ i, i < dirty_count pre → d.fails (d.log.length + i) = false)
    (hfail : d.fails (d.log.length + dirty_count pre) = true) :
    (cache_flush c d).ret = CACHE_ERROR ∧
    (cache_flush c d).cache = { c with blocks := pre.map cleaned ++ e :: post } ∧
    (∀ p ∈ pre.map cleaned, p.dirty = false) ∧
    (cache_flush c d).disk.log =
      DiskOp.write e.block_id e.data false :: (flush_writes pre ++ d.log) ∧
    (∀ p ∈ pre, p.dirty = true → DiskOp.write p.block_id p.data true ∈ flush_writes pre) := by
  obtain ⟨h1, h2, h3⟩ := flush_loop_stops pre e post he d hok hfail
  rw [← hc] at h1 h2 h3
  refine ⟨h1, ?_, ?_, h3, ?_⟩
  · show ({ c with blocks := (flush_loop c.blocks d).2.1 } : cache_t) = _
    rw [h2]
  · intro p hp
    obtain ⟨q, -, rfl⟩ := List.mem_map.mp hp
    rfl
  · intro p hp hd
    simp only [flush_writes, List.mem_reverse, List.mem_map, List.mem_filter]
    exact ⟨p, ⟨hp, hd⟩, rfl⟩

/-- C5 at a concrete input: entries 0 (dirty), 1 (clean), 2 (dirty), 3 (dirty)
and a disk whose second write fails, so that the flush stops at position 2. -/
theorem C5_flush_stops_at_first_failure_witness :
    mixed_cache.blocks =
      [⟨0, fill 170, 1, true⟩, ⟨1, fill 0, 2, false⟩] ++
        ⟨2, fill 187, 3, true⟩ :: [⟨3, fill 204, 4, true⟩] ∧
    (∀ i, i < dirty_count [⟨0, fill 170, 1, true⟩, ⟨1, fill 0, 2, false⟩] →
      disk_fail_second.fails (disk_fail_second.log.length + i) = false) ∧
    disk_fail_second.fails (disk_fail_second.log.length +
      dirty_count [⟨0, fill 170, 1, true⟩, ⟨1, fill 0, 2, false⟩]) = true ∧
    (cache_flush mixed_cache disk_fail_second).ret = CACHE_ERROR ∧
    (cache_flush mixed_cache disk_fail_second).cache.blocks =
      [⟨0, fill 170, 1, false⟩, ⟨1, fill 0, 2, false⟩, ⟨2, fill 187, 3, true⟩,
        ⟨3, fill 204, 4, true⟩] ∧
    (cache_flush mixed_cache disk_fail_second).disk.log =
      [DiskOp.write 2 (fill 187) false, DiskOp.write 0 (fill 170) true] := by
  have hi : ∀ i, i < dirty_count [⟨0, fill 170, 1, true⟩, ⟨1, fill 0, 2, false⟩] →
      disk_fail_second.fails (disk_fail_second.log.length + i) = false := by
    intro i hi
    have : i = 0 := by
      simp [dirty_count] at hi
      exact hi
    subst this
    rfl
  have h := C5_flush_stops_at_first_failure mixed_cache disk_fail_second
    [⟨0, fill 170, 1, true⟩, ⟨1, fill 0, 2, false⟩] [⟨3, fill 204, 4, true⟩]
    ⟨2, fill 187, 3, true⟩ rfl rfl hi rfl
  exact ⟨rfl, hi, rfl, h.1, by rw [h.2.1]; rfl, by rw [h.2.2.2.1]; rfl⟩

/-! ## C6: the victim of a miss on a full cache -/

theorem eraseIdx_eq_erase {l : List cache_block_t} (hnd : l.Nodup) {k : Nat}
    {v : cache_block_t} (hk : l[k]? = some v) : l.eraseIdx k = l.erase v := by
  induction l generalizing k with
  | nil => simp at hk
  | cons a rest ih =>
    obtain ⟨ha, hrest⟩ := List.nodup_cons.mp hnd
    cases k with
    | zero =>
      simp only [List.getElem?_cons_zero, Option.some.injEq] at hk
      subst hk
      simp
    | succ n =>
      simp only [List.getElem?_cons_succ] at hk
      have hne : a ≠ v := fun h => ha (h ▸ List.getElem?_mem hk)
      rw [List.eraseIdx_cons_succ, ih hrest hk, List.erase_cons_tail (by simpa using hne)]

theorem lru_unique {bs : List cache_block_t} (hst : (stamps bs).Nodup) {v : cache_block_t}
    (hv : v ∈ bs) (hmin : ∀ e ∈ bs, v.last_access ≤ e.last_access) :
    bs[lru_index bs]? = some v := by
  obtain ⟨v', hv', hmin', -⟩ := lru_index_spec (List.ne_nil_of_mem hv)
  have hmem' := List.getElem?_mem hv'
  have h1 := hmin v' hmem'
  have h2 := hmin' v hv
  have : v' = v := List.inj_on_of_nodup_map hst hmem' hv (by omega)
  rw [hv', this]

theorem cache_read_fill_success {c : cache_t} {d : Disk} {blk : cache_block_t} {b : Nat}
    {buf : Block} (h : (cache_read_fill c d blk b buf).ret = CACHE_SUCCESS) :
    d.next_fails = false := by
  cases hf : d.next_fails with
  | false => rfl
  | true =>
    rw [cache_read_fill_fail c blk b buf hf] at h
    simp [CACHE_ERROR, CACHE_SUCCESS] at h

/-- C6: in a cache with exactly `MAX_CACHE_BLOCKS` entries with pairwise
distinct stamps, let `v` be the entry with the least stamp and `b` a block that
is not resident.  Then `cache_write(b)` succeeds, and it and every successful
`cache_read(b)` leave the entries of the cache without `v`, in their order and
unchanged, followed by a new entry for `b`; `v` is gone, every other entry is
kept, and `b` is resident. -/
theorem C6_lru_victim_choice (c : cache_t) (d : Disk) (m : Malloc) (b : Nat) (X buf : Block)
    (hfull : c.blocks.length = MAX_CACHE_BLOCKS) (hst : (stamps c.blocks).Nodup)
    (hnr : ¬ resident c b) (v : cache_block_t) (hv : v ∈ c.blocks)
    (hmin : ∀ e ∈ c.blocks, v.last_access ≤ e.last_access) :
    (cache_write c d m b X).ret = CACHE_SUCCESS ∧
    (cache_write c d m b X).cache.blocks = c.blocks.erase v ++ [⟨b, X, next_stamp c, true⟩] ∧
    ((cache_read c d m b buf).ret = CACHE_SUCCESS →
      (cache_read c d m b buf).cache.blocks =
        c.blocks.erase v ++ [⟨b, d.store b, next_stamp c, false⟩]) ∧
    v ∉ c.blocks.erase v ∧
    (∀ e ∈ c.blocks, e ≠ v → e ∈ c.blocks.erase v) ∧
    (∀ e ∈ c.blocks.erase v, e ∈ c.blocks) ∧
    resident (cache_write c d m b X).cache b ∧
    ((cache_read c d m b buf).ret = CACHE_SUCCESS → resident (cache_read c d m b buf).cache b) := by
  have hf : find_block c b = none := find_block_eq_none.mpr hnr
  have hnd : c.blocks.Nodup := List.Nodup.of_map _ hst
  have hlru := lru_unique hst hv hmin
  have herase := eraseIdx_eq_erase hnd hlru
  obtain ⟨v1, hv1, hw⟩ := cache_write_miss_full d m X hf (le_of_eq hfull.symm)
  obtain ⟨v2, hv2, hr⟩ := cache_read_miss_full d m buf hf (le_of_eq hfull.symm)
  rw [hlru] at hv1 hv2
  cases hv1
  cases hv2
  have hread : (cache_read c d m b buf).ret = CACHE_SUCCESS →
      (cache_read c d m b buf).cache.blocks =
        c.blocks.erase v ++ [⟨b, d.store b, next_stamp c, false⟩] := by
    intro hret
    rw [hr] at hret ⊢
    rw [cache_read_fill_ok _ v b buf (cache_read_fill_success hret),
      write_back_store_other d v (fun hvb => hnr ⟨v, hv, hvb⟩), ← herase]
    rfl
  refine ⟨by rw [hw], by rw [hw, ← herase], hread, List.Nodup.not_mem_erase hnd,
    fun e he hne => (List.mem_erase_of_ne hne).mpr he, fun e he => List.mem_of_mem_erase he,
    ?_, ?_⟩
  · rw [hw]
    exact ⟨⟨b, X, next_stamp c, true⟩, List.mem_append_right _ (List.mem_singleton.mpr rfl), rfl⟩
  · intro hret
    rw [resident, hread hret]
    exact ⟨⟨b, d.store b, next_stamp c, false⟩,
      List.mem_append_right _ (List.mem_singleton.mpr rfl), rfl⟩

theorem filled_cache_stamps_nodup (n : Nat) : (stamps (filled_cache n).blocks).Nodup := by
  have : stamps (filled_cache n).blocks = (List.range n).map (fun i => i + 1) := by
    simp [stamps, filled_cache, Function.comp_def]
  rw [this]
  exact List.Nodup.map (fun i j h => by simpa using h) (List.nodup_range _)

theorem full_cache_first_mem : (⟨0, fill 204, 1, true⟩ : cache_block_t) ∈ full_cache.blocks :=
  List.getElem?_mem full_cache_lru

theorem full_cache_first_min :
    ∀ e ∈ full_cache.blocks, (⟨0, fill 204, 1, true⟩ : cache_block_t).last_access ≤
      e.last_access := by
  intro e he
  obtain ⟨k, -, rfl⟩ := filled_cache_mem he
  simp

/-- C6 at a concrete input: the full cache left by writing blocks 0 to 1023, and
a miss on block 1024; the victim is block 0. -/
theorem C6_lru_victim_choice_witness :
    full_cache.blocks.length = MAX_CACHE_BLOCKS ∧
    (stamps full_cache.blocks).Nodup ∧
    ¬ resident full_cache 1024 ∧
    (⟨0, fill 204, 1, true⟩ : cache_block_t) ∈ full_cache.blocks ∧
    (∀ e ∈ full_cache.blocks,
      (⟨0, fill 204, 1, true⟩ : cache_block_t).last_access ≤ e.last_access) ∧
    (cache_write full_cache disk0 Malloc.ok 1024 (fill 221)).ret = CACHE_SUCCESS ∧
    (cache_write full_cache disk0 Malloc.ok 1024 (fill 221)).cache.blocks =
      full_cache.blocks.erase ⟨0, fill 204, 1, true⟩ ++
        [⟨1024, fill 221, next_stamp full_cache, true⟩] ∧
    ((cache_read full_cache disk0 Malloc.ok 1024 []).ret = CACHE_SUCCESS →
      (cache_read full_cache disk0 Malloc.ok 1024 []).cache.blocks =
        full_cache.blocks.erase ⟨0, fill 204, 1, true⟩ ++
          [⟨1024, disk0.store 1024, next_stamp full_cache, false⟩]) :=
  have h := C6_lru_victim_choice full_cache disk0 Malloc.ok 1024 (fill 221) []
    full_cache_length (filled_cache_stamps_nodup _)
    (find_block_eq_none.mp (filled_cache_not_resident (by decide)))
    ⟨0, fill 204, 1, true⟩ full_cache_first_mem full_cache_first_min
  ⟨full_cache_length, filled_cache_stamps_nodup _,
    find_block_eq_none.mp (filled_cache_not_resident (by decide)),
    full_cache_first_mem, full_cache_first_min, h.1, h.2.1, h.2.2.1⟩

/-! ## C7: idempotent flush -/

theorem flush_loop_clean (bs : List cache_block_t) (d : Disk)
    (h : ∀ e ∈ bs, e.dirty = false) : flush_loop bs d = (CACHE_SUCCESS, bs, d) := by
  induction bs with
  | nil => rfl
  | cons b rest ih =>
    rw [flush_loop_cons_clean (h b (List.mem_cons_self _ _)),
      ih (fun e he => h e (List.mem_cons_of_mem _ he))]

/-- C7: if `cache_flush` returns success, a second `cache_flush` right after it
returns success and leaves the cache (entries with their flags and stamps,
access counter, hits, misses) and the disk (contents and trace of operations:
no operation is issued) exactly as the first one left them. -/
theorem C7_idempotent_flush (c : cache_t) (d : Disk)
    (h : (cache_flush c d).ret = CACHE_SUCCESS) :
    (flush_twice c d).ret = CACHE_SUCCESS ∧
    (flush_twice c d).cache = (cache_flush c d).cache ∧
    (flush_twice c d).disk = (cache_flush c d).disk ∧
    (flush_twice c d).disk.log = (cache_flush c d).disk.log := by
  have hclean : ∀ e ∈ (cache_flush c d).cache.blocks, e.dirty = false :=
    (flush_loop_success c.blocks d h).1
  have h2 : flush_twice c d = ⟨CACHE_SUCCESS, (cache_flush c d).cache, (cache_flush c d).disk⟩ := by
    unfold flush_twice
    conv_lhs => rw [cache_flush]
    rw [flush_loop_clean _ _ hclean]
  rw [h2]
  exact ⟨rfl, rfl, rfl, rfl⟩

/-- C7 at a concrete input: five dirty blocks flushed twice to a disk that does
not fail. -/
theorem C7_idempotent_flush_witness :
    (cache_flush (filled_cache 5) disk0).ret = CACHE_SUCCESS ∧
    (flush_twice (filled_cache 5) disk0).ret = CACHE_SUCCESS ∧
    (flush_twice (filled_cache 5) disk0).cache = (cache_flush (filled_cache 5) disk0).cache ∧
    (flush_twice (filled_cache 5) disk0).disk = (cache_flush (filled_cache 5) disk0).disk ∧
    (flush_twice (filled_cache 5) disk0).disk.log =
      (cache_flush (filled_cache 5) disk0).disk.log :=
  ⟨by decide, C7_idempotent_flush (filled_cache 5) disk0 (by decide)⟩

/-! ## C8: a read miss whose disk read succeeds -/

theorem find_block_after_append {c c' : cache_t} {b : Nat} (n : cache_block_t)
    (l : List cache_block_t) (hc : c'.blocks = l ++ [n]) (hsub : l.Sublist c.blocks)
    (hf : find_block c b = none) (hn : n.block_id = b) :
    find_block c' b = some (l.length, n) :=
  find_block_append_new n hc
    (fun e he => find_block_loop_eq_none.mp hf e (hsub.subset he)) hn

/-- C8, as amended: for every cache state and every block `b` that is not
resident, if the miss obtains its slot (the allocation succeeds when there is
room) and the disk read of `b` succeeds, with content `D = d.store b`, then
`cache_read(b, Y)` returns success with `Y = D`, leaves `hits` unchanged, sets
`misses` to `(misses + 1) mod 2^64` and the access counter to
`(access_counter + 1) mod 2^64`, and afterwards `find_block` finds for `b` the
entry with data `D`, clean, stamped with the new access counter. -/
theorem C8_successful_read_miss (c : cache_t) (d : Disk) (m : Malloc) (b : Nat) (buf : Block)
    (hnr : ¬ resident c b) (hm : c.blocks.length < MAX_CACHE_BLOCKS → m = Malloc.ok)
    (hread : (make_room c d).2.next_fails = false) :
    (make_room c d).2.store b = d.store b ∧
    (cache_read c d m b buf).ret = CACHE_SUCCESS ∧
    (cache_read c d m b buf).buffer = d.store b ∧
    (cache_read c d m b buf).cache.hits = c.hits ∧
    (cache_read c d m b buf).cache.misses = (c.misses + 1) % SIZE_MOD ∧
    (c.misses + 1 < SIZE_MOD → (cache_read c d m b buf).cache.misses = c.misses + 1) ∧
    (cache_read c d m b buf).cache.access_counter = (c.access_counter + 1) % UINT64_MOD ∧
    (c.access_counter + 1 < UINT64_MOD →
      (cache_read c d m b buf).cache.access_counter = c.access_counter + 1) ∧
    (∃ i, find_block (cache_read c d m b buf).cache b =
      some (i, ⟨b, d.store b, (cache_read c d m b buf).cache.access_counter, false⟩)) ∧
    resident (cache_read c d m b buf).cache b := by
  have hf : find_block c b = none := find_block_eq_none.mpr hnr
  rw [cache_read_miss_ok d buf hf hm hread]
  refine ⟨make_room_store d hf, rfl, rfl, rfl, rfl, fun h => Nat.mod_eq_of_lt h, rfl,
    fun h => Nat.mod_eq_of_lt h, ⟨_, find_block_after_append _ _ rfl (make_room_sublist c d) hf rfl⟩,
    ?_⟩
  exact ⟨⟨b, d.store b, next_stamp c, false⟩,
    List.mem_append_right _ (List.mem_singleton.mpr rfl), rfl⟩

/-- C8 at a concrete input, scenario 5 of the specification: on a fresh cache, with
block 42 all zero on the disk, `cache_read(42)` succeeds with `misses = 1`,
`hits = 0`, a buffer of zeros, and block 42 resident and clean. -/
theorem C8_successful_read_miss_witness :
    ¬ resident ⟨[], 0, 0, 0⟩ 42 ∧
    ((⟨[], 0, 0, 0⟩ : cache_t).blocks.length < MAX_CACHE_BLOCKS → Malloc.ok = Malloc.ok) ∧
    (make_room ⟨[], 0, 0, 0⟩ disk0).2.next_fails = false ∧
    (cache_read ⟨[], 0, 0, 0⟩ disk0 Malloc.ok 42 []).ret = CACHE_SUCCESS ∧
    (cache_read ⟨[], 0, 0, 0⟩ disk0 Malloc.ok 42 []).buffer = fill 0 ∧
    (cache_read ⟨[], 0, 0, 0⟩ disk0 Malloc.ok 42 []).cache.hits = 0 ∧
    (cache_read ⟨[], 0, 0, 0⟩ disk0 Malloc.ok 42 []).cache.misses = 1 ∧
    (cache_read ⟨[], 0, 0, 0⟩ disk0 Malloc.ok 42 []).cache.access_counter = 1 ∧
    (cache_read ⟨[], 0, 0, 0⟩ disk0 Malloc.ok 42 []).cache.blocks = [⟨42, fill 0, 1, false⟩] ∧
    resident (cache_read ⟨[], 0, 0, 0⟩ disk0 Malloc.ok 42 []).cache 42 :=
  have h := C8_successful_read_miss ⟨[], 0, 0, 0⟩ disk0 Malloc.ok 42 [] (by decide)
    (fun _ => rfl) (by decide)
  ⟨by decide, fun _ => rfl, by decide, h.2.1, h.2.2.1, h.2.2.2.1, by decide, by decide, rfl,
    h.2.2.2.2.2.2.2.2.2⟩

/-- C8 as stated fails: in the reachable state `misses_at_max` a successful read
miss takes `misses` from `2^64 - 1` to `0`, and in the reachable state
`stamps_at_max` it stamps the new entry with the new access counter `0`, which
is not the old value plus one. -/
theorem C8_wrap_counterexample :
    (Reachable misses_at_max disk0 ∧ ¬ resident misses_at_max 42 ∧
      (cache_read misses_at_max disk0 Malloc.ok 42 []).ret = CACHE_SUCCESS ∧
      (cache_read misses_at_max disk0 Malloc.ok 42 []).cache.misses = 0 ∧
      (cache_read misses_at_max disk0 Malloc.ok 42 []).cache.misses ≠
        misses_at_max.misses + 1) ∧
    (Reachable stamps_at_max disk0 ∧ ¬ resident stamps_at_max 42 ∧
      (cache_read stamps_at_max disk0 Malloc.ok 42 []).ret = CACHE_SUCCESS ∧
      (cache_read stamps_at_max disk0 Malloc.ok 42 []).cache.access_counter = 0 ∧
      find_block (cache_read stamps_at_max disk0 Malloc.ok 42 []).cache 42 =
        some (1, ⟨42, fill 0, 0, false⟩) ∧
      (cache_read stamps_at_max disk0 Malloc.ok 42 []).cache.access_counter ≠
        stamps_at_max.access_counter + 1) := by
  refine ⟨⟨?_, by decide, by decide, by decide, by decide⟩,
    ⟨?_, by decide, by decide, by decide, rfl, by decide⟩⟩
  · have := reachable_misses disk0 18446744073709551615
    simpa [SIZE_MOD, misses_at_max] using this
  · have := reachable_stamps disk0 (fill 170) 18446744073709551614
    simpa [UINT64_MOD, stamps_at_max] using this

/-! ## C9: a read miss whose disk read fails -/

theorem write_back_dirty {v : cache_block_t} (d : Disk) (hd : v.dirty = true) :
    ∃ ok, (write_back d v).log = DiskOp.write v.block_id v.data ok :: d.log ∧
      (ok = true → (write_back d v).store v.block_id = v.data) := by
  cases hf : d.next_fails with
  | true => exact ⟨false, (write_back_failed hd hf).2, fun h => by cases h⟩
  | false => exact ⟨true, (write_back_dirty_ok hd hf).2, fun _ => (write_back_dirty_ok hd hf).1⟩

/-- C9, as amended: for every reachable cache state and every block `b` that is
not resident, if the miss obtains its slot and the disk read of `b` fails, then
`cache_read(b)` returns error and leaves the caller's buffer alone, `b` is not
resident afterwards, the number of entries has not grown, `hits` and the access
counter are unchanged and `misses` is `(misses + 1) mod 2^64`; if the cache was
full, the least recently used entry has been removed and is no longer resident
and, when it was dirty, a write of its data was issued before the read, and the
disk holds that data if the write succeeded. -/
theorem C9_failed_read_miss (c : cache_t) (d : Disk) (hreach : Reachable c d) (m : Malloc)
    (b : Nat) (buf : Block) (hnr : ¬ resident c b)
    (hm : c.blocks.length < MAX_CACHE_BLOCKS → m = Malloc.ok)
    (hread : (make_room c d).2.next_fails = true) :
    (cache_read c d m b buf).ret = CACHE_ERROR ∧
    (cache_read c d m b buf).buffer = buf ∧
    ¬ resident (cache_read c d m b buf).cache b ∧
    (cache_read c d m b buf).cache.blocks.length ≤ c.blocks.length ∧
    (cache_read c d m b buf).cache.misses = (c.misses + 1) % SIZE_MOD ∧
    (c.misses + 1 < SIZE_MOD → (cache_read c d m b buf).cache.misses = c.misses + 1) ∧
    (cache_read c d m b buf).cache.hits = c.hits ∧
    (cache_read c d m b buf).cache.access_counter = c.access_counter ∧
    (c.blocks.length = MAX_CACHE_BLOCKS →
      ∃ v, IsLRU c.blocks (lru_index c.blocks) ∧ c.blocks[lru_index c.blocks]? = some v ∧
        (cache_read c d m b buf).cache.blocks = c.blocks.eraseIdx (lru_index c.blocks) ∧
        ¬ resident (cache_read c d m b buf).cache v.block_id ∧
        (v.dirty = true → ∃ ok,
          (cache_read c d m b buf).disk.log =
            DiskOp.read b false :: DiskOp.write v.block_id v.data ok :: d.log ∧
          (ok = true → (cache_read c d m b buf).disk.store v.block_id = v.data))) := by
  have hwf := reachable_wellFormed hreach
  have hf : find_block c b = none := find_block_eq_none.mpr hnr
  rw [cache_read_miss_fail d buf hf hm hread]
  refine ⟨rfl, rfl, ?_, (make_room_sublist c d).length_le, rfl, fun h => Nat.mod_eq_of_lt h,
    rfl, rfl, ?_⟩
  · rintro ⟨e, he, hid⟩
    exact hnr ⟨e, (make_room_sublist c d).subset he, hid⟩
  · intro hfull
    obtain ⟨v, hv, hmr⟩ := make_room_full d (le_of_eq hfull.symm)
    refine ⟨v, lru_index_spec (max_cache_blocks_pos (le_of_eq hfull.symm)), hv, by rw [hmr], ?_, ?_⟩
    · rintro ⟨e, he, hid⟩
      simp only [hmr] at he
      exact ids_ne_of_mem_eraseIdx hwf.1 hv e he hid
    · intro hd
      obtain ⟨ok, hlog, hstore⟩ := write_back_dirty d hd
      refine ⟨ok, ?_, ?_⟩
      · simp only [hmr, hlog]
      · simp only [hmr]
        exact hstore

theorem full_cache_make_room (d : Disk) :
    make_room full_cache d =
      ({ full_cache with blocks := full_cache.blocks.eraseIdx (lru_index full_cache.blocks) },
        write_back d ⟨0, fill 204, 1, true⟩) := by
  obtain ⟨v, hv, hmr⟩ := make_room_full (c := full_cache) d (le_of_eq full_cache_length.symm)
  rw [full_cache_lru] at hv
  cases hv
  exact hmr

theorem full_cache_read_fails : (make_room full_cache disk_fail_second).2.next_fails = true := by
  rw [full_cache_make_room]
  rfl

/-- C9 at a concrete input: the full cache left by writing blocks 0 to 1023, a
read of block 1024, and a disk that accepts the write-back of block 0 and fails
the read. -/
theorem C9_failed_read_miss_witness :
    Reachable full_cache disk_fail_second ∧
    ¬ resident full_cache 1024 ∧
    (full_cache.blocks.length < MAX_CACHE_BLOCKS → Malloc.ok = Malloc.ok) ∧
    (make_room full_cache disk_fail_second).2.next_fails = true ∧
    (cache_read full_cache disk_fail_second Malloc.ok 1024 []).ret = CACHE_ERROR ∧
    ¬ resident (cache_read full_cache disk_fail_second Malloc.ok 1024 []).cache 1024 ∧
    (cache_read full_cache disk_fail_second Malloc.ok 1024 []).cache.blocks.length ≤
      full_cache.blocks.length ∧
    (cache_read full_cache disk_fail_second Malloc.ok 1024 []).cache.misses = 1 ∧
    (cache_read full_cache disk_fail_second Malloc.ok 1024 []).cache.hits = 0 ∧
    (cache_read full_cache disk_fail_second Malloc.ok 1024 []).cache.access_counter = 1024 :=
  have hnr : ¬ resident full_cache 1024 :=
    find_block_eq_none.mp (filled_cache_not_resident (by decide))
  have h := C9_failed_read_miss full_cache disk_fail_second
    (reachable_filled_cache disk_fail_second MAX_CACHE_BLOCKS (le_refl _)) Malloc.ok 1024 []
    hnr (fun _ => rfl) full_cache_read_fails
  ⟨reachable_filled_cache disk_fail_second MAX_CACHE_BLOCKS (le_refl _), hnr, fun _ => rfl,
    full_cache_read_fails, h.1, h.2.2.1, h.2.2.2.1, h.2.2.2.2.1, h.2.2.2.2.2.2.1,
    h.2.2.2.2.2.2.2.1⟩

/-- C9 as stated fails: in the reachable state `misses_at_max` a read miss whose
disk read fails returns error and takes `misses` from `2^64 - 1` to `0`. -/
theorem C9_misses_wrap_counterexample :
    Reachable misses_at_max disk_fail_first ∧ ¬ resident misses_at_max 42 ∧
    (disk_read disk_fail_first 42 []).1 = CACHE_ERROR ∧
    (cache_read misses_at_max disk_fail_first Malloc.ok 42 []).ret = CACHE_ERROR ∧
    (cache_read misses_at_max disk_fail_first Malloc.ok 42 []).cache.misses = 0 ∧
    (cache_read misses_at_max disk_fail_first Malloc.ok 42 []).cache.misses ≠
      misses_at_max.misses + 1 := by
  refine ⟨?_, by decide, by decide, by decide, by decide, by decide⟩
  have := reachable_misses disk_fail_first 18446744073709551615
  simpa [SIZE_MOD, misses_at_max] using this

/-! ## C10: write postcondition -/

/-- C10, as amended: a successful `cache_write(b, X)`, hit or miss, on any cache
state leaves `b` resident, `find_block` finding for it the entry with data `X`,
dirty, stamped with the new access counter, which is
`(access_counter + 1) mod 2^64`; `hits` and `misses` are unchanged. -/
theorem C10_write_postcondition (c : cache_t) (d : Disk) (m : Malloc) (b : Nat) (X : Block)
    (h : (cache_write c d m b X).ret = CACHE_SUCCESS) :
    (∃ i, find_block (cache_write c d m b X).cache b =
      some (i, ⟨b, X, (cache_write c d m b X).cache.access_counter, true⟩)) ∧
    resident (cache_write c d m b X).cache b ∧
    (cache_write c d m b X).cache.access_counter = (c.access_counter + 1) % UINT64_MOD ∧
    (c.access_counter + 1 < UINT64_MOD →
      (cache_write c d m b X).cache.access_counter = c.access_counter + 1) ∧
    (cache_write c d m b X).cache.hits = c.hits ∧
    (cache_write c d m b X).cache.misses = c.misses := by
  obtain ⟨i, hfind⟩ := write_then_lookup c d m b X h
  have hcnt : (cache_write c d m b X).cache.access_counter = (c.access_counter + 1) % UINT64_MOD :=
    cache_write_success_counter h
  obtain ⟨hh, hmi, -, -⟩ := cache_write_frame c d m b X
  refine ⟨⟨i, hfind⟩, ?_, hcnt, fun hlt => by rw [hcnt]; exact Nat.mod_eq_of_lt hlt, hh, hmi⟩
  exact ⟨_, List.getElem?_mem (find_block_some hfind).1, rfl⟩

/-- C10 at a concrete input: the first write of `test_sequential_access`, and
scenario 1 of the specification: the ten writes of 0xAA to blocks 0 to 9 on a fresh
cache leave `hits = 0` and `misses = 0`. -/
theorem C10_write_postcondition_witness :
    (cache_write ⟨[], 0, 0, 0⟩ disk0 Malloc.ok 0 (fill 170)).ret = CACHE_SUCCESS ∧
    find_block (cache_write ⟨[], 0, 0, 0⟩ disk0 Malloc.ok 0 (fill 170)).cache 0 =
      some (0, ⟨0, fill 170, 1, true⟩) ∧
    (cache_write ⟨[], 0, 0, 0⟩ disk0 Malloc.ok 0 (fill 170)).cache.access_counter = 1 ∧
    (cache_write ⟨[], 0, 0, 0⟩ disk0 Malloc.ok 0 (fill 170)).cache.hits = 0 ∧
    (cache_write ⟨[], 0, 0, 0⟩ disk0 Malloc.ok 0 (fill 170)).cache.misses = 0 ∧
    (write_all ⟨[], 0, 0, 0⟩ disk0 sequential_writes).1.hits = 0 ∧
    (write_all ⟨[], 0, 0, 0⟩ disk0 sequential_writes).1.misses = 0 :=
  have h := C10_write_postcondition ⟨[], 0, 0, 0⟩ disk0 Malloc.ok 0 (fill 170) (by decide)
  ⟨by decide, rfl, by decide, h.2.2.2.2.1, h.2.2.2.2.2,
    (write_all_frame sequential_writes _ _).1, (write_all_frame sequential_writes _ _).2⟩

/-- C10 as stated fails: in the reachable state `stamps_at_max` a successful
`cache_write(0, X)` takes the access counter from `2^64 - 1` to `0` and stamps
the entry with `0`, not with the old value plus one. -/
theorem C10_stamp_wrap_counterexample :
    Reachable stamps_at_max disk0 ∧
    (cache_write stamps_at_max disk0 Malloc.ok 0 (fill 187)).ret = CACHE_SUCCESS ∧
    (cache_write stamps_at_max disk0 Malloc.ok 0 (fill 187)).cache.access_counter = 0 ∧
    find_block (cache_write stamps_at_max disk0 Malloc.ok 0 (fill 187)).cache 0 =
      some (0, ⟨0, fill 187, 0, true⟩) ∧
    (cache_write stamps_at_max disk0 Malloc.ok 0 (fill 187)).cache.access_counter ≠
      stamps_at_max.access_counter + 1 := by
  refine ⟨?_, by decide, by decide, rfl, by decide⟩
  have := reachable_stamps disk0 (fill 170) 18446744073709551614
  simpa [UINT64_MOD, stamps_at_max] using this

/-! ## Invariant I4: clean entries mirror the disk -/

theorem disk_write_store_other (d : Disk) {id id' : Nat} (data : Block) (h : id ≠ id') :
    (disk_write d id data).2.store id' = d.store id' := by
  unfold disk_write
  split
  · rfl
  · exact Function.update_noteq (Ne.symm h) _ _

theorem flush_loop_store_other (bs : List cache_block_t) :
    ∀ (d : Disk) (id : Nat), (∀ e ∈ bs, e.dirty = true → e.block_id ≠ id) →
      (flush_loop bs d).2.2.store id = d.store id := by
  induction bs with
  | nil =>
    intro d id _
    rfl
  | cons b rest ih =>
    intro d id hid
    have hrest : ∀ e ∈ rest, e.dirty = true → e.block_id ≠ id :=
      fun e he => hid e (List.mem_cons_of_mem _ he)
    cases hd : b.dirty with
    | false =>
      rw [flush_loop_cons_clean hd]
      exact ih d id hrest
    | true =>
      cases hfail : d.next_fails with
      | true =>
        rw [flush_loop_cons_fail hd hfail]
      | false =>
        rw [flush_loop_cons_dirty hd hfail]
        simp only
        rw [ih _ id hrest]
        exact disk_write_store_other d b.data (hid b (List.mem_cons_self _ _) hd)

theorem flush_loop_cleanMirrors (bs : List cache_block_t) :
    ∀ d : Disk, (block_ids bs).Nodup →
      (∀ e ∈ bs, e.dirty = false → d.store e.block_id = e.data) →
      ∀ e ∈ (flush_loop bs d).2.1, e.dirty = false →
        (flush_loop bs d).2.2.store e.block_id = e.data := by
  induction bs with
  | nil =>
    intro d _ _ e he
    simp [flush_loop] at he
  | cons b rest ih =>
    intro d hnd hclean e he hde
    have hnd' := List.nodup_cons.mp (by simpa [block_ids] using hnd :
      (b.block_id :: block_ids rest).Nodup)
    have hother : ∀ e' ∈ rest, e'.block_id ≠ b.block_id :=
      fun e' he' hid => hnd'.1 (mem_block_ids.mpr ⟨e', he', hid⟩)
    cases hd : b.dirty with
    | false =>
      rw [flush_loop_cons_clean hd] at he ⊢
      rcases List.mem_cons.mp he with rfl | he
      · simp only
        rw [flush_loop_store_other rest d _ (fun e' he' _ => hother e' he')]
        exact hclean e (List.mem_cons_self _ _) hd
      · exact ih d hnd'.2 (fun e' he' => hclean e' (List.mem_cons_of_mem _ he')) e he hde
    | true =>
      cases hfail : d.next_fails with
      | true =>
        rw [flush_loop_cons_fail hd hfail] at he ⊢
        exact hclean e he hde
      | false =>
        rw [flush_loop_cons_dirty hd hfail] at he ⊢
        have hw : (disk_write d b.block_id b.data).2.store b.block_id = b.data := by
          simp [disk_write, hfail]
        rcases List.mem_cons.mp he with rfl | he
        · simp only
          rw [flush_loop_store_other rest _ _ (fun e' he' _ => hother e' he')]
          exact hw
        · refine ih _ hnd'.2 ?_ e he hde
          intro e' he' hde'
          rw [disk_write_store_other d b.data (Ne.symm (hother e' he'))]
          exact hclean e' (List.mem_cons_of_mem _ he') hde'

theorem cleanMirrors_flush {c : cache_t} {d : Disk} (hwf : WellFormed c)
    (h : CleanMirrors c d) : CleanMirrors (cache_flush c d).cache (cache_flush c d).disk :=
  flush_loop_cleanMirrors c.blocks d hwf.1 h

theorem cleanMirrors_make_room {c : cache_t} {d : Disk} (hwf : WellFormed c)
    (h : CleanMirrors c d) : CleanMirrors (make_room c d).1 (make_room c d).2 := by
  by_cases hfull : MAX_CACHE_BLOCKS ≤ c.blocks.length
  · obtain ⟨v, hv, hmr⟩ := make_room_full d hfull
    rw [hmr]
    intro e he hde
    simp only at he ⊢
    rw [write_back_store_other d v (Ne.symm (ids_ne_of_mem_eraseIdx hwf.1 hv e he))]
    exact h e ((List.eraseIdx_sublist _ _).subset he) hde
  · rw [make_room_room d (by omega)]
    exact h

theorem make_room_not_resident {c : cache_t} (d : Disk) {b : Nat} (hf : find_block c b = none) :
    ∀ e ∈ (make_room c d).1.blocks, e.block_id ≠ b :=
  fun e he => find_block_loop_eq_none.mp hf e ((make_room_sublist c d).subset he)

theorem cache_write_miss_slot {c : cache_t} (d : Disk) {m : Malloc} {b : Nat} (X : Block)
    (hf : find_block c b = none) (hm : c.blocks.length < MAX_CACHE_BLOCKS → m = Malloc.ok) :
    cache_write c d m b X =
      ⟨CACHE_SUCCESS,
        { c with blocks := (make_room c d).1.blocks ++ [⟨b, X, next_stamp c, true⟩],
                 access_counter := next_stamp c },
        (make_room c d).2⟩ := by
  by_cases hfull : MAX_CACHE_BLOCKS ≤ c.blocks.length
  · obtain ⟨v, hv, hw⟩ := cache_write_miss_full d m X hf hfull
    obtain ⟨v', hv', hmr⟩ := make_room_full d hfull
    rw [hv] at hv'
    cases hv'
    rw [hw, hmr]
  · have := hm (by omega)
    subst this
    rw [cache_write_miss_room d X hf (by omega), make_room_room d (by omega)]

theorem cleanMirrors_write {c : cache_t} {d : Disk} (m : Malloc) (b : Nat) (X : Block)
    (hwf : WellFormed c) (h : CleanMirrors c d) :
    CleanMirrors (cache_write c d m b X).cache (cache_write c d m b X).disk := by
  cases hf : find_block c b with
  | some p =>
    obtain ⟨i, e⟩ := p
    rw [cache_write_hit d m X hf]
    intro e' he' hde'
    rcases List.mem_or_eq_of_mem_set he' with hmem | heq
    · exact h e' hmem hde'
    · rw [heq] at hde'
      cases hde'
  | none =>
    by_cases hm : c.blocks.length < MAX_CACHE_BLOCKS → m = Malloc.ok
    · rw [cache_write_miss_slot d X hf hm]
      intro e' he' hde'
      rcases List.mem_append.mp he' with hmem | hnew
      · exact cleanMirrors_make_room hwf h e' hmem hde'
      · rw [List.mem_singleton.mp hnew] at hde'
        cases hde'
    · rw [cache_write_miss_nomem d X hf (by
        by_contra hlen
        exact hm (fun hlt => absurd hlt hlen)) (fun hok => hm (fun _ => hok))]
      exact h

theorem cleanMirrors_read {c : cache_t} {d : Disk} (m : Malloc) (b : Nat) (buf : Block)
    (hwf : WellFormed c) (h : CleanMirrors c d) :
    CleanMirrors (cache_read c d m b buf).cache (cache_read c d m b buf).disk := by
  cases hf : find_block c b with
  | some p =>
    obtain ⟨i, e⟩ := p
    obtain ⟨hi, -, -⟩ := find_block_some hf
    rw [cache_read_hit d m buf hf]
    intro e' he' hde'
    rcases List.mem_or_eq_of_mem_set he' with hmem | heq
    · exact h e' hmem hde'
    · rw [heq] at hde' ⊢
      exact h e (List.getElem?_mem hi) hde'
  | none =>
    by_cases hm : c.blocks.length < MAX_CACHE_BLOCKS → m = Malloc.ok
    · have hmr := cleanMirrors_make_room (d := d) hwf h
      cases hread : (make_room c d).2.next_fails with
      | true =>
        rw [cache_read_miss_fail d buf hf hm hread]
        exact hmr
      | false =>
        rw [cache_read_miss_ok d buf hf hm hread]
        intro e' he' hde'
        rcases List.mem_append.mp he' with hmem | hnew
        · exact hmr e' hmem hde'
        · rw [List.mem_singleton.mp hnew]
          exact make_room_store d hf
    · rw [cache_read_miss_nomem d buf hf (by
        by_contra hlen
        exact hm (fun hlt => absurd hlt hlen)) (fun hok => hm (fun _ => hok))]
      exact h

theorem reachable_cleanMirrors {c : cache_t} {d : Disk} (h : Reachable c d) :
    CleanMirrors c d := by
  induction h with
  | init c d h =>
    simp [cache_init] at h
    subst h
    intro e he
    simp at he
  | read c d m b buf _ hr ih => exact cleanMirrors_read m b buf (reachable_wellFormed hr) ih
  | write c d m b buf _ hr ih => exact cleanMirrors_write m b buf (reachable_wellFormed hr) ih
  | flush c d hr ih => exact cleanMirrors_flush (reachable_wellFormed hr) ih

/-! ## C11, C15, C17: the invariants I1, I2 and I4 of reachable states -/

/-- C11: in every state reachable from `cache_init` by calls of `cache_read`,
`cache_write` and `cache_flush`, whatever the disk and the allocator answer, the
number of resident entries is at most `MAX_CACHE_BLOCKS`. -/
theorem C11_capacity_bound (c : cache_t) (d : Disk) (h : Reachable c d) :
    c.num_blocks ≤ MAX_CACHE_BLOCKS ∧ c.num_blocks ≤ 1024 :=
  ⟨(reachable_wellFormed h).2, (reachable_wellFormed h).2⟩

/-- C11 at a concrete input: the cache left by writing blocks 0 to 1023, which
holds exactly `MAX_CACHE_BLOCKS` entries, and the one left by one more write. -/
theorem C11_capacity_bound_witness :
    Reachable (cache_write full_cache disk0 Malloc.ok 1024 (fill 204)).cache
      (cache_write full_cache disk0 Malloc.ok 1024 (fill 204)).disk ∧
    full_cache.num_blocks = MAX_CACHE_BLOCKS ∧
    (cache_write full_cache disk0 Malloc.ok 1024 (fill 204)).cache.num_blocks ≤
      MAX_CACHE_BLOCKS :=
  have hr := Reachable.write full_cache disk0 Malloc.ok 1024 (fill 204) (by decide)
    (reachable_filled_cache disk0 MAX_CACHE_BLOCKS (le_refl _))
  ⟨hr, full_cache_length, (C11_capacity_bound _ _ hr).1⟩

/-- C15: in every reachable state no two resident entries have the same
`block_id`: the list of block ids has no duplicate, and entries at different
positions of the array carry different ids. -/
theorem C15_unique_keys (c : cache_t) (d : Disk) (h : Reachable c d) :
    (block_ids c.blocks).Nodup ∧
    ∀ (i j : Nat) (e1 e2 : cache_block_t), c.blocks[i]? = some e1 → c.blocks[j]? = some e2 →
      i ≠ j → e1.block_id ≠ e2.block_id := by
  have hnd := (reachable_wellFormed h).1
  refine ⟨hnd, ?_⟩
  intro i j e1 e2 h1 h2 hij hid
  obtain ⟨hi, hie⟩ := List.getElem?_eq_some_iff.mp h1
  obtain ⟨hj, hje⟩ := List.getElem?_eq_some_iff.mp h2
  have hi2 : i < (block_ids c.blocks).length := by simpa [block_ids] using hi
  have hj2 : j < (block_ids c.blocks).length := by simpa [block_ids] using hj
  have heq : (block_ids c.blocks)[i] = (block_ids c.blocks)[j] := by
    simp [block_ids, hie, hje, hid]
  exact hij ((List.Nodup.getElem_inj_iff hnd).mp heq)

/-- C15 at a concrete input: the cache left by writing blocks 0 to 4. -/
theorem C15_unique_keys_witness :
    Reachable (filled_cache 5) disk0 ∧
    block_ids (filled_cache 5).blocks = [0, 1, 2, 3, 4] ∧
    (block_ids (filled_cache 5).blocks).Nodup :=
  ⟨reachable_filled_cache disk0 5 (by decide), by decide,
    (C15_unique_keys _ _ (reachable_filled_cache disk0 5 (by decide))).1⟩

/-- C17: with the disk a map from block id to block that only the cache
modifies, in every reachable state every resident entry with `dirty = false`
has data equal to the current content of the disk for its block id. -/
theorem C17_clean_entries_mirror_store (c : cache_t) (d : Disk) (h : Reachable c d) :
    ∀ e ∈ c.blocks, e.dirty = false → e.data = d.store e.block_id :=
  fun e he hd => (reachable_cleanMirrors h e he hd).symm

/-- C17 at a concrete input: the state after a read miss of block 42 on a fresh
cache, whose only entry is clean. -/
theorem C17_clean_entries_mirror_store_witness :
    Reachable (cache_read ⟨[], 0, 0, 0⟩ disk0 Malloc.ok 42 []).cache
      (cache_read ⟨[], 0, 0, 0⟩ disk0 Malloc.ok 42 []).disk ∧
    (cache_read ⟨[], 0, 0, 0⟩ disk0 Malloc.ok 42 []).cache.blocks =
      [⟨42, fill 0, 1, false⟩] ∧
    ∀ e ∈ (cache_read ⟨[], 0, 0, 0⟩ disk0 Malloc.ok 42 []).cache.blocks, e.dirty = false →
      e.data = (cache_read ⟨[], 0, 0, 0⟩ disk0 Malloc.ok 42 []).disk.store e.block_id :=
  have hr := Reachable.read ⟨[], 0, 0, 0⟩ disk0 Malloc.ok 42 [] (by decide)
    (Reachable.init _ _ rfl)
  ⟨hr, rfl, C17_clean_entries_mirror_store _ _ hr⟩

/-! ## C14: the frame of `cache_flush` -/

/-- C14: `cache_flush`, whether it succeeds or fails, leaves the block id, the
data and the stamp of the entry at every position as they were, hence the
sequence of resident block ids and the number of entries, and leaves the access
counter, `hits` and `misses` unchanged: only dirty flags and the disk change. -/
theorem C14_flush_frame (c : cache_t) (d : Disk) :
    (cache_flush c d).cache.blocks.map (fun e => (e.block_id, e.data, e.last_access)) =
      c.blocks.map (fun e => (e.block_id, e.data, e.last_access)) ∧
    block_ids (cache_flush c d).cache.blocks = block_ids c.blocks ∧
    stamps (cache_flush c d).cache.blocks = stamps c.blocks ∧
    (cache_flush c d).cache.num_blocks = c.num_blocks ∧
    (cache_flush c d).cache.access_counter = c.access_counter ∧
    (cache_flush c d).cache.hits = c.hits ∧
    (cache_flush c d).cache.misses = c.misses :=
  ⟨flush_loop_map (fun e => (e.block_id, e.data, e.last_access)) (fun _ => rfl) c.blocks d,
    flush_loop_map cache_block_t.block_id (fun _ => rfl) c.blocks d,
    flush_loop_map cache_block_t.last_access (fun _ => rfl) c.blocks d,
    flush_loop_length c.blocks d, rfl, rfl, rfl⟩

/-- C14 at a concrete input, scenario 4 of the specification: after writing
blocks 0 to 4 and flushing, the resident count is still five, the ids are the
same, and the counters are as before. -/
theorem C14_flush_frame_witness :
    (cache_flush (filled_cache 5) disk0).cache.num_blocks = 5 ∧
    block_ids (cache_flush (filled_cache 5) disk0).cache.blocks = [0, 1, 2, 3, 4] ∧
    (cache_flush (filled_cache 5) disk0).cache.access_counter = 5 :=
  have h := C14_flush_frame (filled_cache 5) disk0
  ⟨by rw [h.2.2.2.1]; decide, by rw [h.2.1]; decide, by rw [h.2.2.2.2.1]; rfl⟩

/-! ## C12: when the disk is touched -/

theorem write_back_only_writes (d : Disk) (v : cache_block_t) :
    ∃ l, (write_back d v).log = l ++ d.log ∧ ∀ op ∈ l, ∀ id ok, op ≠ DiskOp.read id ok := by
  unfold write_back disk_write
  split
  · split
    · exact ⟨[DiskOp.write v.block_id v.data false], rfl, by simp⟩
    · exact ⟨[DiskOp.write v.block_id v.data true], rfl, by simp⟩
  · exact ⟨[], rfl, by simp⟩

/-- C12: a `cache_read` hit and a `cache_write` hit leave the disk, trace
included, exactly as it was (no read and no write is issued); the operations
that `cache_write` adds to the trace, hit or miss, are never reads; and a
`cache_write` miss on a cache that is not full leaves the disk exactly as it
was. -/
theorem C12_backing_store_traffic (c : cache_t) (d : Disk) (m : Malloc) (b : Nat)
    (X buf : Block) :
    (resident c b → (cache_read c d m b buf).disk = d) ∧
    (resident c b → (cache_write c d m b X).disk = d) ∧
    (∃ l, (cache_write c d m b X).disk.log = l ++ d.log ∧
      ∀ op ∈ l, ∀ id ok, op ≠ DiskOp.read id ok) ∧
    (¬ resident c b → c.num_blocks < MAX_CACHE_BLOCKS → (cache_write c d m b X).disk = d) := by
  refine ⟨?_, ?_, ?_, ?_⟩
  · intro hres
    cases hf : find_block c b with
    | none => exact absurd hres (find_block_eq_none.mp hf)
    | some p => rw [cache_read_hit d m buf hf]
  · intro hres
    cases hf : find_block c b with
    | none => exact absurd hres (find_block_eq_none.mp hf)
    | some p => rw [cache_write_hit d m X hf]
  · rcases cache_write_cases c d m b X with ⟨i, e, -, h⟩ | ⟨-, -, v, -, h⟩ | ⟨-, -, -, h⟩ |
      ⟨-, -, -, h⟩
    · rw [h]
      exact ⟨[], rfl, by simp⟩
    · rw [h]
      exact write_back_only_writes d v
    · rw [h]
      exact ⟨[], rfl, by simp⟩
    · rw [h]
      exact ⟨[], rfl, by simp⟩
  · intro hnr hroom
    rcases cache_write_cases c d m b X with ⟨i, e, hf, -⟩ | ⟨-, hfull, -⟩ | ⟨-, -, -, h⟩ |
      ⟨-, -, -, h⟩
    · exact absurd ⟨e, List.getElem?_mem (find_block_some hf).1, (find_block_some hf).2.1⟩ hnr
    · unfold cache_t.num_blocks at hroom
      omega
    · rw [h]
    · rw [h]

/-- C12 at a concrete input, scenario 6 of the specification: `write(7, X)` on a
fresh cache issues no disk operation, so no read, and leaves one resident,
dirty entry. -/
theorem C12_backing_store_traffic_witness :
    ¬ resident ⟨[], 0, 0, 0⟩ 7 ∧
    (⟨[], 0, 0, 0⟩ : cache_t).num_blocks < MAX_CACHE_BLOCKS ∧
    (cache_write ⟨[], 0, 0, 0⟩ disk0 Malloc.ok 7 (fill 170)).disk = disk0 ∧
    (cache_write ⟨[], 0, 0, 0⟩ disk0 Malloc.ok 7 (fill 170)).disk.log = [] ∧
    (cache_write ⟨[], 0, 0, 0⟩ disk0 Malloc.ok 7 (fill 170)).cache.blocks =
      [⟨7, fill 170, 1, true⟩] :=
  ⟨by decide, by decide,
    (C12_backing_store_traffic ⟨[], 0, 0, 0⟩ disk0 Malloc.ok 7 (fill 170) []).2.2.2
      (by decide) (by decide), rfl, rfl⟩

/-! ## Flushing on a disk that does not fail -/

theorem reachableIn_reachable {n : Nat} {c : cache_t} {d : Disk} (h : ReachableIn n c d) :
    Reachable c d := by
  induction h with
  | init c d h => exact Reachable.init c d h
  | read n c d m b buf hb _ ih => exact Reachable.read c d m b buf hb ih
  | write n c d m b buf hb _ ih => exact Reachable.write c d m b buf hb ih
  | flush n c d _ ih => exact Reachable.flush c d ih

theorem reachable_reachableIn {c : cache_t} {d : Disk} (h : Reachable c d) :
    ∃ n, ReachableIn n c d := by
  induction h with
  | init c d h => exact ⟨0, ReachableIn.init c d h⟩
  | read c d m b buf hb _ ih =>
    obtain ⟨n, hn⟩ := ih
    exact ⟨n + 1, ReachableIn.read n c d m b buf hb hn⟩
  | write c d m b buf hb _ ih =>
    obtain ⟨n, hn⟩ := ih
    exact ⟨n + 1, ReachableIn.write n c d m b buf hb hn⟩
  | flush c d _ ih =>
    obtain ⟨n, hn⟩ := ih
    exact ⟨n + 1, ReachableIn.flush n c d hn⟩

theorem stamps_set_new {bs : List cache_block_t} {a : Nat} (i : Nat) (n : cache_block_t)
    (hnd : (stamps bs).Nodup) (hle : ∀ e ∈ bs, e.last_access ≤ a) (hn : a < n.last_access) :
    (stamps (bs.set i n)).Nodup ∧ ∀ e ∈ bs.set i n, e.last_access ≤ n.last_access := by
  refine ⟨?_, ?_⟩
  · unfold stamps at hnd ⊢
    rw [List.map_set]
    apply List.Nodup.set hnd
    intro hmem
    obtain ⟨e, he, heq⟩ := List.mem_map.mp hmem
    have := hle e he
    omega
  · intro e he
    rcases List.mem_or_eq_of_mem_set he with hmem | heq
    · have := hle e hmem
      omega
    · rw [heq]

theorem stamps_append_new {bs l : List cache_block_t} {a : Nat} (n : cache_block_t)
    (hnd : (stamps bs).Nodup) (hle : ∀ e ∈ bs, e.last_access ≤ a) (hsub : l.Sublist bs)
    (hn : a < n.last_access) :
    (stamps (l ++ [n])).Nodup ∧ ∀ e ∈ l ++ [n], e.last_access ≤ n.last_access := by
  refine ⟨?_, ?_⟩
  · unfold stamps at hnd ⊢
    rw [List.map_append]
    refine List.Nodup.append (List.Nodup.sublist (hsub.map _) hnd) (by simp) ?_
    intro x hx hx'
    simp only [List.map_cons, List.map_nil, List.mem_singleton] at hx'
    obtain ⟨e, he, heq⟩ := List.mem_map.mp hx
    have := hle e (hsub.subset he)
    omega
  · intro e he
    rcases List.mem_append.mp he with hmem | hnew
    · have := hle e (hsub.subset hmem)
      omega
    · rw [List.mem_singleton.mp hnew]

theorem stampsOrdered_write {c : cache_t} (d : Disk) (m : Malloc) (b : Nat) (X : Block)
    (h : StampsOrdered c) (hs : c.access_counter + 1 < UINT64_MOD) :
    StampsOrdered (cache_write c d m b X).cache ∧
      (cache_write c d m b X).cache.access_counter ≤ c.access_counter + 1 := by
  obtain ⟨hnd, hle⟩ := h
  have hns : next_stamp c = c.access_counter + 1 := Nat.mod_eq_of_lt hs
  rcases cache_write_cases c d m b X with ⟨i, e, -, hw⟩ | ⟨-, -, v, -, hw⟩ | ⟨-, -, -, hw⟩ |
    ⟨-, -, -, hw⟩
  · rw [hw]
    exact ⟨stamps_set_new i ⟨e.block_id, X, next_stamp c, true⟩ hnd hle (by simp only; omega),
      by simp only; omega⟩
  · rw [hw]
    exact ⟨stamps_append_new ⟨b, X, next_stamp c, true⟩ hnd hle (List.eraseIdx_sublist _ _)
      (by simp only; omega), by simp only; omega⟩
  · rw [hw]
    exact ⟨stamps_append_new ⟨b, X, next_stamp c, true⟩ hnd hle (List.Sublist.refl _)
      (by simp only; omega), by simp only; omega⟩
  · rw [hw]
    exact ⟨⟨hnd, hle⟩, by simp only; omega⟩

theorem stampsOrdered_read {c : cache_t} (d : Disk) (m : Malloc) (b : Nat) (buf : Block)
    (h : StampsOrdered c) (hs : c.access_counter + 1 < UINT64_MOD) :
    StampsOrdered (cache_read c d m b buf).cache ∧
      (cache_read c d m b buf).cache.access_counter ≤ c.access_counter + 1 := by
  obtain ⟨hnd, hle⟩ := h
  have hns : next_stamp c = c.access_counter + 1 := Nat.mod_eq_of_lt hs
  cases hf : find_block c b with
  | some p =>
    obtain ⟨i, e⟩ := p
    rw [cache_read_hit d m buf hf]
    exact ⟨stamps_set_new i { e with last_access := next_stamp c } hnd hle
      (by simp only; omega), by simp only; omega⟩
  | none =>
    by_cases hm : c.blocks.length < MAX_CACHE_BLOCKS → m = Malloc.ok
    · cases hread : (make_room c d).2.next_fails with
      | true =>
        rw [cache_read_miss_fail d buf hf hm hread]
        exact ⟨⟨List.Nodup.sublist ((make_room_sublist c d).map _) hnd,
          fun e he => hle e ((make_room_sublist c d).subset he)⟩, by simp only; omega⟩
      | false =>
        rw [cache_read_miss_ok d buf hf hm hread]
        exact ⟨stamps_append_new ⟨b, d.store b, next_stamp c, false⟩ hnd hle
          (make_room_sublist c d) (by simp only; omega), by simp only; omega⟩
    · rw [cache_read_miss_nomem d buf hf (by
        by_contra hlen
        exact hm (fun hlt => absurd hlt hlen)) (fun hok => hm (fun _ => hok))]
      exact ⟨⟨hnd, hle⟩, by simp only [count_miss]; omega⟩

theorem stampsOrdered_flush {c : cache_t} (d : Disk) (h : StampsOrdered c) :
    StampsOrdered (cache_flush c d).cache := by
  obtain ⟨hnd, hle⟩ := h
  have hst : stamps (cache_flush c d).cache.blocks = stamps c.blocks :=
    flush_loop_map cache_block_t.last_access (fun _ => rfl) c.blocks d
  refine ⟨by rw [hst]; exact hnd, ?_⟩
  intro e he
  have hmem : e.last_access ∈ stamps c.blocks := by
    rw [← hst]
    exact List.mem_map.mpr ⟨e, he, rfl⟩
  obtain ⟨e0, he0, heq⟩ := List.mem_map.mp hmem
  have := hle e0 he0
  show e.last_access ≤ c.access_counter
  omega

theorem reachableIn_stampsOrdered {n : Nat} {c : cache_t} {d : Disk}
    (h : ReachableIn n c d) :
    n < UINT64_MOD → StampsOrdered c ∧ c.access_counter ≤ n := by
  induction h with
  | init c d h =>
    intro _
    simp [cache_init] at h
    subst h
    exact ⟨⟨by simp [stamps], by simp⟩, le_refl _⟩
  | read n c d m b buf _ _ ih =>
    intro hn
    obtain ⟨hso, hle⟩ := ih (by omega)
    obtain ⟨h1, h2⟩ := stampsOrdered_read d m b buf hso (by omega)
    exact ⟨h1, by omega⟩
  | write n c d m b buf _ _ ih =>
    intro hn
    obtain ⟨hso, hle⟩ := ih (by omega)
    obtain ⟨h1, h2⟩ := stampsOrdered_write d m b buf hso (by omega)
    exact ⟨h1, by omega⟩
  | flush n c d _ ih =>
    intro hn
    obtain ⟨hso, hle⟩ := ih (by omega)
    exact ⟨stampsOrdered_flush d hso, by
      show c.access_counter ≤ n + 1
      omega⟩

/-- After a write of block 1 and `n + 1` writes of block 0. -/
theorem reachable_two_blocks (d : Disk) (X : Block) (n : Nat) :
    Reachable ⟨[⟨1, X, 1, true⟩, ⟨0, X, (n + 2) % UINT64_MOD, true⟩],
      (n + 2) % UINT64_MOD, 0, 0⟩ d := by
  induction n with
  | zero =>
    have h0 : Reachable ⟨[], 0, 0, 0⟩ d := Reachable.init _ d rfl
    have h1 := Reachable.write _ d Malloc.ok 1 X (by simp [UINT64_MOD]) h0
    rw [cache_write_miss_room d X (by simp [find_block, find_block_loop])
      (by simp [MAX_CACHE_BLOCKS])] at h1
    have h2 := Reachable.write _ d Malloc.ok 0 X (by simp [UINT64_MOD]) h1
    rw [cache_write_miss_room d X (by simp [find_block, find_block_loop])
      (by simp [MAX_CACHE_BLOCKS])] at h2
    simpa [next_stamp, UINT64_MOD] using h2
  | succ n ih =>
    have := Reachable.write _ d Malloc.ok 0 X (by simp [UINT64_MOD]) ih
    rw [cache_write_hit d Malloc.ok X (i := 1)
      (e := ⟨0, X, (n + 2) % UINT64_MOD, true⟩)
      (by simp [find_block, find_block_loop])] at this
    have hmod : ((n + 2) % UINT64_MOD + 1) % UINT64_MOD = (n + 1 + 2) % UINT64_MOD := by
      rw [Nat.mod_add_mod]
    simpa [next_stamp, hmod] using this

/-- C16, as amended: in every state reachable from `cache_init` by fewer than
`2^64` calls of `cache_read`, `cache_write` and `cache_flush`, the stamps of the
resident entries are pairwise distinct and each is at most the access counter,
which is itself at most the number of calls. -/
theorem C16_access_stamps (n : Nat) (c : cache_t) (d : Disk) (h : ReachableIn n c d)
    (hn : n < UINT64_MOD) :
    (stamps c.blocks).Nodup ∧ (∀ e ∈ c.blocks, e.last_access ≤ c.access_counter) ∧
      c.access_counter ≤ n := by
  obtain ⟨⟨h1, h2⟩, h3⟩ := reachableIn_stampsOrdered h hn
  exact ⟨h1, h2, h3⟩

/-- C16 at a concrete input: the state after `cache_write(7, X)` and
`cache_read(9)` on a fresh cache, two calls. -/
theorem C16_access_stamps_witness :
    ReachableIn 2
      (cache_read (cache_write ⟨[], 0, 0, 0⟩ disk0 Malloc.ok 7 (fill 170)).cache
        (cache_write ⟨[], 0, 0, 0⟩ disk0 Malloc.ok 7 (fill 170)).disk Malloc.ok 9 []).cache
      (cache_read (cache_write ⟨[], 0, 0, 0⟩ disk0 Malloc.ok 7 (fill 170)).cache
        (cache_write ⟨[], 0, 0, 0⟩ disk0 Malloc.ok 7 (fill 170)).disk Malloc.ok 9 []).disk ∧
    2 < UINT64_MOD ∧
    stamps (cache_read (cache_write ⟨[], 0, 0, 0⟩ disk0 Malloc.ok 7 (fill 170)).cache
      (cache_write ⟨[], 0, 0, 0⟩ disk0 Malloc.ok 7 (fill 170)).disk Malloc.ok 9 []).cache.blocks =
      [1, 2] ∧
    (stamps (cache_read (cache_write ⟨[], 0, 0, 0⟩ disk0 Malloc.ok 7 (fill 170)).cache
      (cache_write ⟨[], 0, 0, 0⟩ disk0 Malloc.ok 7 (fill 170)).disk Malloc.ok 9 []).cache.blocks).Nodup ∧
    (cache_read (cache_write ⟨[], 0, 0, 0⟩ disk0 Malloc.ok 7 (fill 170)).cache
      (cache_write ⟨[], 0, 0, 0⟩ disk0 Malloc.ok 7 (fill 170)).disk Malloc.ok 9 []).cache.access_counter
      ≤ 2 :=
  have hr := ReachableIn.read 1 _ _ Malloc.ok 9 [] (by decide)
    (ReachableIn.write 0 ⟨[], 0, 0, 0⟩ disk0 Malloc.ok 7 (fill 170) (by decide)
      (ReachableIn.init _ _ rfl))
  have h := C16_access_stamps 2 _ _ hr (by decide)
  ⟨hr, by decide, by decide, h.1, h.2.2⟩

/-- C16 as stated fails: `wrapped_cache` is reachable (a write of block 1, then
`2^64 - 1` writes of block 0) and there the access counter is 0 while block 1
has stamp 1; `tied_cache`, reached by one more write of block 0, has two entries
with the same stamp 1. -/
theorem C16_stamp_wrap_counterexample :
    (Reachable wrapped_cache disk0 ∧
      ∃ e ∈ wrapped_cache.blocks, ¬ e.last_access ≤ wrapped_cache.access_counter) ∧
    (Reachable tied_cache disk0 ∧ stamps tied_cache.blocks = [1, 1] ∧
      ¬ (stamps tied_cache.blocks).Nodup) := by
  refine ⟨⟨?_, ⟨⟨1, fill 170, 1, true⟩, List.mem_cons_self _ _, by decide⟩⟩,
    ⟨?_, by decide, by decide⟩⟩
  · have := reachable_two_blocks disk0 (fill 170) 18446744073709551614
    simpa [UINT64_MOD, wrapped_cache] using this
  · have := reachable_two_blocks disk0 (fill 170) 18446744073709551615
    simpa [UINT64_MOD, tied_cache] using this

/-! ## C18: block addressing -/

theorem disk_offset_exact {b : Nat} (h : b < 2 ^ 52) : disk_offset b = b * BLOCK_SIZE := by
  unfold disk_offset
  apply Nat.mod_eq_of_lt
  norm_num [BLOCK_SIZE, UINT64_MOD] at h ⊢
  omega

theorem fseek_offset_exact {b : Nat} (h : b < 2 ^ 51) :
    fseek_offset b = ((b * BLOCK_SIZE : Nat) : Int) := by
  have h52 : b < 2 ^ 52 := by
    norm_num at h ⊢
    omega
  have hlt : disk_offset b < 2 ^ 63 := by
    rw [disk_offset_exact h52]
    norm_num [BLOCK_SIZE] at h ⊢
    omega
  unfold fseek_offset
  rw [if_pos hlt, disk_offset_exact h52]

/-- C18, as amended: for every block id `b < 2^51` the product
`block_id * BLOCK_SIZE` computed in `uint64_t` and received by `fseek` as a
`long` is the exact product `b × 4096`, and distinct block ids below `2^51`
address disjoint 4096-byte ranges.  The `uint64_t` product is exact for every
`b < 2^52`, and for every `b` it is `(b × 4096) mod 2^64`. -/
theorem C18_block_addressing (b b' : Nat) (hb : b < 2 ^ 51) (hb' : b' < 2 ^ 51)
    (hne : b ≠ b') :
    disk_offset b = b * BLOCK_SIZE ∧ disk_offset b = b * 4096 ∧
    fseek_offset b = ((b * BLOCK_SIZE : Nat) : Int) ∧
    (fseek_offset b + BLOCK_SIZE ≤ fseek_offset b' ∨
      fseek_offset b' + BLOCK_SIZE ≤ fseek_offset b) ∧
    (∀ x, x < 2 ^ 52 → disk_offset x = x * BLOCK_SIZE) ∧
    (∀ x, disk_offset x = (x * 4096) % 2 ^ 64) := by
  have h52 : b < 2 ^ 52 := by
    norm_num at hb ⊢
    omega
  refine ⟨disk_offset_exact h52, disk_offset_exact h52, fseek_offset_exact hb, ?_,
    fun x hx => disk_offset_exact hx, fun x => rfl⟩
  rw [fseek_offset_exact hb, fseek_offset_exact hb']
  simp only [BLOCK_SIZE]
  omega

/-- C18 at a concrete input: blocks 1 and 2 are at offsets 4096 and 8192. -/
theorem C18_block_addressing_witness :
    (1 : Nat) < 2 ^ 51 ∧ (2 : Nat) < 2 ^ 51 ∧ (1 : Nat) ≠ 2 ∧
    disk_offset 1 = 4096 ∧ disk_offset 2 = 8192 ∧ fseek_offset 1 = 4096 ∧
    (fseek_offset 1 + BLOCK_SIZE ≤ fseek_offset 2 ∨
      fseek_offset 2 + BLOCK_SIZE ≤ fseek_offset 1) :=
  have h := C18_block_addressing 1 2 (by norm_num) (by norm_num) (by decide)
  ⟨by norm_num, by norm_num, by decide, by decide, by decide, by decide, h.2.2.2.1⟩

/-- C18 as stated fails: block id `2^52` is a 64-bit value whose product with
4096 wraps to offset 0, the offset of block 0, instead of `2^64`; and block id
`2^51`, whose product `2^63` does not wrap, reaches `fseek` as the negative
`long` `-2^63`. -/
theorem C18_offset_wrap_counterexample :
    (4503599627370496 : Nat) < UINT64_MOD ∧
    disk_offset 4503599627370496 = 0 ∧
    disk_offset 4503599627370496 ≠ 4503599627370496 * 4096 ∧
    (4503599627370496 : Nat) ≠ 0 ∧ disk_offset 4503599627370496 = disk_offset 0 ∧
    (2251799813685248 : Nat) < UINT64_MOD ∧
    disk_offset 2251799813685248 = 2251799813685248 * 4096 ∧
    fseek_offset 2251799813685248 = -9223372036854775808 := by
  refine ⟨by decide, by decide, by decide, by decide, by decide, by decide, by decide, ?_⟩
  decide

/-! ## C13: teardown -/

theorem find_block_loop_data (bs : List cache_block_t) (b j : Nat) :
    (find_block_loop bs b j).map (fun p => p.2.data) = cached_data bs b := by
  induction bs generalizing j with
  | nil => rfl
  | cons e rest ih =>
    by_cases he : e.block_id = b
    · simp [find_block_loop, cached_data, he]
    · simp [find_block_loop, cached_data, he, ih]

theorem logical_eq (c : cache_t) (d : Disk) (b : Nat) :
    logical c d b = (cached_data c.blocks b).getD (d.store b) := by
  have h := find_block_loop_data c.blocks b 0
  unfold logical find_block
  cases hf : find_block_loop c.blocks b 0 with
  | none =>
    rw [hf] at h
    simp only [Option.map_none'] at h
    rw [← h]
    rfl
  | some p =>
    rw [hf] at h
    simp only [Option.map_some'] at h
    rw [← h]
    rfl

theorem logical_congr {c c' : cache_t} {d d' : Disk} (hb : c'.blocks = c.blocks)
    (hs : d'.store = d.store) (b : Nat) : logical c' d' b = logical c d b := by
  rw [logical_eq, logical_eq, hb, hs]

theorem cached_data_eq_none {bs : List cache_block_t} {b : Nat} :
    cached_data bs b = none ↔ ∀ e ∈ bs, e.block_id ≠ b := by
  induction bs with
  | nil => simp [cached_data]
  | cons e rest ih =>
    by_cases he : e.block_id = b
    · simp [cached_data, he]
    · simp [cached_data, he, ih]

theorem cached_data_append_other (l : List cache_block_t) {n : cache_block_t} {b : Nat}
    (hn : n.block_id ≠ b) : cached_data (l ++ [n]) b = cached_data l b := by
  induction l with
  | nil => simp [cached_data, hn]
  | cons e rest ih =>
    by_cases he : e.block_id = b
    · simp [cached_data, he]
    · simp [cached_data, he, ih]

theorem cached_data_append_new {l : List cache_block_t} {n : cache_block_t} {b : Nat}
    (hl : ∀ e ∈ l, e.block_id ≠ b) (hn : n.block_id = b) :
    cached_data (l ++ [n]) b = some n.data := by
  induction l with
  | nil => simp [cached_data, hn]
  | cons e rest ih =>
    have he : e.block_id ≠ b := hl e (List.mem_cons_self _ _)
    simp only [List.cons_append, cached_data, he, if_false]
    exact ih (fun e' he' => hl e' (List.mem_cons_of_mem _ he'))

theorem cached_data_set_other {bs : List cache_block_t} {i : Nat} {e n : cache_block_t}
    {b : Nat} (hi : bs[i]? = some e) (he : e.block_id ≠ b) (hn : n.block_id ≠ b) :
    cached_data (bs.set i n) b = cached_data bs b := by
  induction bs generalizing i with
  | nil => simp at hi
  | cons a rest ih =>
    cases i with
    | zero =>
      simp only [List.getElem?_cons_zero, Option.some.injEq] at hi
      subst hi
      simp [cached_data, he, hn]
    | succ k =>
      simp only [List.getElem?_cons_succ] at hi
      by_cases ha : a.block_id = b
      · simp [cached_data, ha]
      · simp [cached_data, ha, ih hi]

theorem cached_data_set_same {bs : List cache_block_t} {i : Nat} {e n : cache_block_t}
    (hi : bs[i]? = some e) (hid : n.block_id = e.block_id) (hdata : n.data = e.data)
    (b : Nat) : cached_data (bs.set i n) b = cached_data bs b := by
  induction bs generalizing i with
  | nil => simp at hi
  | cons a rest ih =>
    cases i with
    | zero =>
      simp only [List.getElem?_cons_zero, Option.some.injEq] at hi
      subst hi
      simp [cached_data, hid, hdata]
    | succ k =>
      simp only [List.getElem?_cons_succ] at hi
      by_cases ha : a.block_id = b
      · simp [cached_data, ha]
      · simp [cached_data, ha, ih hi]

theorem cached_data_set_first {c : cache_t} {b i : Nat} {e : cache_block_t}
    (hf : find_block c b = some (i, e)) (n : cache_block_t) (hn : n.block_id = b) :
    cached_data (c.blocks.set i n) b = some n.data := by
  have h : find_block { c with blocks := c.blocks.set i n } b = some (i, n) :=
    find_block_set hf rfl hn
  have h2 := find_block_loop_data (c.blocks.set i n) b 0
  unfold find_block at h
  simp only at h
  rw [h] at h2
  exact h2.symm

theorem cached_data_eraseIdx_other {bs : List cache_block_t} {k : Nat} {v : cache_block_t}
    {b : Nat} (hk : bs[k]? = some v) (hv : v.block_id ≠ b) :
    cached_data (bs.eraseIdx k) b = cached_data bs b := by
  induction bs generalizing k with
  | nil => simp at hk
  | cons a rest ih =>
    cases k with
    | zero =>
      simp only [List.getElem?_cons_zero, Option.some.injEq] at hk
      subst hk
      simp [cached_data, hv]
    | succ j =>
      simp only [List.getElem?_cons_succ] at hk
      by_cases ha : a.block_id = b
      · simp [cached_data, ha]
      · simp [cached_data, ha, ih hk]

theorem cached_data_mem {bs : List cache_block_t} (hnd : (block_ids bs).Nodup)
    {e : cache_block_t} (he : e ∈ bs) : cached_data bs e.block_id = some e.data := by
  induction bs with
  | nil => simp at he
  | cons a rest ih =>
    have hnd' := List.nodup_cons.mp (by simpa [block_ids] using hnd :
      (a.block_id :: block_ids rest).Nodup)
    rcases List.mem_cons.mp he with rfl | hmem
    · simp [cached_data]
    · have hne : a.block_id ≠ e.block_id :=
        fun h => hnd'.1 (mem_block_ids.mpr ⟨e, hmem, h.symm⟩)
      simp only [cached_data, hne, if_false]
      exact ih hnd'.2 hmem

theorem cached_data_map_congr (l1 : List cache_block_t) :
    ∀ l2 : List cache_block_t,
      l1.map (fun e => (e.block_id, e.data)) = l2.map (fun e => (e.block_id, e.data)) →
      ∀ b, cached_data l1 b = cached_data l2 b := by
  induction l1 with
  | nil =>
    intro l2 h b
    cases l2 with
    | nil => rfl
    | cons a rest => simp at h
  | cons a1 rest1 ih =>
    intro l2 h b
    cases l2 with
    | nil => simp at h
    | cons a2 rest2 =>
      simp only [List.map_cons, List.cons.injEq, Prod.mk.injEq] at h
      obtain ⟨⟨hid, hdata⟩, hrest⟩ := h
      simp only [cached_data, hid, hdata, ih rest2 hrest b]

/-! ## Failed writes in the trace of the disk -/

theorem issued_of_append {d d' : Disk} {l : List DiskOp} (h : d'.log = l ++ d.log) :
    issued d d' = l := by
  unfold issued
  rw [h, List.length_append, Nat.add_sub_cancel]
  exact List.take_left l d.log

theorem write_back_kept {d d' : Disk} {v : cache_block_t} (pre : List DiskOp)
    (hlog : d'.log = pre ++ (write_back d v).log) (hw : writes_succeed d d')
    (hd : v.dirty = true) : (write_back d v).store v.block_id = v.data := by
  cases hf : d.next_fails with
  | false => exact (write_back_dirty_ok hd hf).1
  | true =>
    exfalso
    have h2 := (write_back_failed hd hf).2
    rw [h2] at hlog
    have hiss : issued d d' = pre ++ [DiskOp.write v.block_id v.data false] :=
      issued_of_append (by rw [hlog]; simp)
    apply hw v.block_id v.data
    rw [hiss]
    simp

/-! ## Cache transparency, operation by operation -/

theorem write_back_clean {d : Disk} {v : cache_block_t} (hd : v.dirty = false) :
    write_back d v = d := by
  simp [write_back, hd]

theorem logical_make_room {c : cache_t} {d : Disk} (hwf : WellFormed c)
    (hcm : CleanMirrors c d)
    (hkeep : ∀ v, c.blocks[lru_index c.blocks]? = some v →
      MAX_CACHE_BLOCKS ≤ c.blocks.length → v.dirty = true →
      (write_back d v).store v.block_id = v.data) (b : Nat) :
    (cached_data (make_room c d).1.blocks b).getD ((make_room c d).2.store b) =
      logical c d b := by
  rw [logical_eq]
  by_cases hfull : MAX_CACHE_BLOCKS ≤ c.blocks.length
  · obtain ⟨v, hv, hmr⟩ := make_room_full d hfull
    have hvmem : v ∈ c.blocks := List.getElem?_mem hv
    rw [hmr]
    simp only
    by_cases hb : v.block_id = b
    · subst hb
      have hnone : cached_data (c.blocks.eraseIdx (lru_index c.blocks)) v.block_id = none :=
        cached_data_eq_none.mpr (ids_ne_of_mem_eraseIdx hwf.1 hv)
      rw [hnone, cached_data_mem hwf.1 hvmem]
      simp only [Option.getD_none, Option.getD_some]
      cases hd : v.dirty with
      | true => exact hkeep v hv hfull hd
      | false =>
        rw [write_back_clean hd]
        exact hcm v hvmem hd
    · rw [cached_data_eraseIdx_other hv hb, write_back_store_other d v hb]
  · rw [make_room_room d (by omega)]

theorem make_room_kept {c : cache_t} {d d' : Disk} (pre : List DiskOp)
    (hlog : d'.log = pre ++ (make_room c d).2.log) (hw : writes_succeed d d') :
    ∀ v, c.blocks[lru_index c.blocks]? = some v → MAX_CACHE_BLOCKS ≤ c.blocks.length →
      v.dirty = true → (write_back d v).store v.block_id = v.data := by
  intro v hv hfull hd
  obtain ⟨v', hv', hmr⟩ := make_room_full d hfull
  rw [hv] at hv'
  cases hv'
  rw [hmr] at hlog
  exact write_back_kept pre hlog hw hd

theorem logical_write {c : cache_t} {d : Disk} (hwf : WellFormed c) (hcm : CleanMirrors c d)
    (m : Malloc) (b : Nat) (X : Block)
    (hw : writes_succeed d (cache_write c d m b X).disk)
    (hret : (cache_write c d m b X).ret = CACHE_SUCCESS) :
    logical (cache_write c d m b X).cache (cache_write c d m b X).disk b = X ∧
    ∀ b', b' ≠ b →
      logical (cache_write c d m b X).cache (cache_write c d m b X).disk b' =
        logical c d b' := by
  cases hf : find_block c b with
  | some p =>
    obtain ⟨i, e⟩ := p
    obtain ⟨hi, hid, -⟩ := find_block_some hf
    rw [cache_write_hit d m X hf]
    refine ⟨?_, ?_⟩
    · rw [logical_eq]
      simp only
      rw [cached_data_set_first hf ⟨e.block_id, X, next_stamp c, true⟩ hid]
      rfl
    · intro b' hb'
      rw [logical_eq, logical_eq]
      simp only
      rw [cached_data_set_other hi (by rw [hid]; exact Ne.symm hb')
        (by simp only; rw [hid]; exact Ne.symm hb')]
  | none =>
    by_cases hm : c.blocks.length < MAX_CACHE_BLOCKS → m = Malloc.ok
    · have hslot := cache_write_miss_slot d X hf hm
      rw [hslot] at hw
      rw [hslot]
      refine ⟨?_, ?_⟩
      · rw [logical_eq]
        simp only
        rw [cached_data_append_new (make_room_not_resident d hf) rfl]
        rfl
      · intro b' hb'
        rw [logical_eq]
        simp only
        rw [cached_data_append_other _ (by simp only; exact Ne.symm hb')]
        exact logical_make_room hwf hcm (make_room_kept [] rfl hw) b'
    · rw [cache_write_miss_nomem d X hf (by
        by_contra hlen
        exact hm (fun hlt => absurd hlt hlen)) (fun hok => hm (fun _ => hok))] at hret
      simp [CACHE_ERROR, CACHE_SUCCESS] at hret

theorem logical_write_failed (c : cache_t) (d : Disk) (m : Malloc) (b : Nat) (X : Block)
    (hret : (cache_write c d m b X).ret ≠ CACHE_SUCCESS) :
    (cache_write c d m b X).cache = c ∧ (cache_write c d m b X).disk = d := by
  rcases cache_write_cases c d m b X with ⟨i, e, -, h⟩ | ⟨-, -, v, -, h⟩ | ⟨-, -, -, h⟩ |
    ⟨-, -, -, h⟩
  · rw [h] at hret
    exact absurd rfl hret
  · rw [h] at hret
    exact absurd rfl hret
  · rw [h] at hret
    exact absurd rfl hret
  · rw [h]
    exact ⟨rfl, rfl⟩

theorem logical_read {c : cache_t} {d : Disk} (hwf : WellFormed c) (hcm : CleanMirrors c d)
    (m : Malloc) (b : Nat) (buf : Block)
    (hw : writes_succeed d (cache_read c d m b buf).disk) (b' : Nat) :
    logical (cache_read c d m b buf).cache (cache_read c d m b buf).disk b' =
      logical c d b' := by
  cases hf : find_block c b with
  | some p =>
    obtain ⟨i, e⟩ := p
    obtain ⟨hi, -, -⟩ := find_block_some hf
    rw [cache_read_hit d m buf hf, logical_eq, logical_eq]
    simp only
    rw [cached_data_set_same (n := { e with last_access := next_stamp c }) hi rfl rfl]
  | none =>
    by_cases hm : c.blocks.length < MAX_CACHE_BLOCKS → m = Malloc.ok
    · cases hread : (make_room c d).2.next_fails with
      | true =>
        have hfail := cache_read_miss_fail d buf hf hm hread
        rw [hfail] at hw
        rw [hfail, logical_eq]
        simp only
        exact logical_make_room hwf hcm
          (make_room_kept [DiskOp.read b false] rfl hw) b'
      | false =>
        have hok := cache_read_miss_ok d buf hf hm hread
        rw [hok] at hw
        rw [hok, logical_eq]
        simp only
        by_cases hb : b' = b
        · subst hb
          rw [cached_data_append_new (make_room_not_resident d hf) rfl, logical_eq,
            cached_data_eq_none.mpr (find_block_loop_eq_none.mp hf)]
          rfl
        · rw [cached_data_append_other _ (by simp only; exact Ne.symm hb)]
          exact logical_make_room hwf hcm
            (make_room_kept [DiskOp.read b true] rfl hw) b'
    · rw [cache_read_miss_nomem d buf hf (by
        by_contra hlen
        exact hm (fun hlt => absurd hlt hlen)) (fun hok => hm (fun _ => hok))]
      exact logical_congr rfl rfl b'

theorem read_returns_logical (c : cache_t) (d : Disk) (m : Malloc) (b : Nat) (buf : Block)
    (hret : (cache_read c d m b buf).ret = CACHE_SUCCESS) :
    (cache_read c d m b buf).buffer = logical c d b := by
  cases hf : find_block c b with
  | some p =>
    obtain ⟨i, e⟩ := p
    rw [cache_read_hit d m buf hf]
    simp [logical, hf]
  | none =>
    by_cases hm : c.blocks.length < MAX_CACHE_BLOCKS → m = Malloc.ok
    · cases hread : (make_room c d).2.next_fails with
      | true =>
        rw [cache_read_miss_fail d buf hf hm hread] at hret
        simp [CACHE_ERROR, CACHE_SUCCESS] at hret
      | false =>
        rw [cache_read_miss_ok d buf hf hm hread]
        simp [logical, hf]
    · rw [cache_read_miss_nomem d buf hf (by
        by_contra hlen
        exact hm (fun hlt => absurd hlt hlen)) (fun hok => hm (fun _ => hok))] at hret
      simp [CACHE_ERROR, CACHE_SUCCESS] at hret

theorem logical_flush (c : cache_t) (d : Disk) (b : Nat) :
    logical (cache_flush c d).cache (cache_flush c d).disk b = logical c d b := by
  rw [logical_eq, logical_eq]
  have hdata : cached_data (cache_flush c d).cache.blocks b = cached_data c.blocks b :=
    cached_data_map_congr _ _
      (flush_loop_map (fun e => (e.block_id, e.data)) (fun _ => rfl) c.blocks d) b
  rw [hdata]
  cases hc : cached_data c.blocks b with
  | some x => rfl
  | none =>
    simp only [Option.getD_none]
    exact flush_loop_store_other c.blocks d b
      (fun e he _ => cached_data_eq_none.mp hc e he)

/-! ## C19: cache transparency -/

/-- C19, as amended: in every reachable state, a `cache_write(b, X)` that
returns success and whose disk writes all succeed sets the logical content of
`b` to `X` and leaves the logical content of every other block unchanged, and
one that returns error changes no logical content; `cache_read`, whatever it
returns, leaves the logical content of every block unchanged when the disk
writes it issues all succeed; a successful `cache_read(b)` returns the logical
content of `b`; and `cache_flush` leaves the logical content of every block
unchanged. -/
theorem C19_cache_transparency (c : cache_t) (d : Disk) (h : Reachable c d) (m : Malloc)
    (b : Nat) (X buf : Block) :
    (writes_succeed d (cache_write c d m b X).disk →
      (cache_write c d m b X).ret = CACHE_SUCCESS →
      logical (cache_write c d m b X).cache (cache_write c d m b X).disk b = X ∧
      ∀ b', b' ≠ b →
        logical (cache_write c d m b X).cache (cache_write c d m b X).disk b' =
          logical c d b') ∧
    ((cache_write c d m b X).ret ≠ CACHE_SUCCESS →
      ∀ b', logical (cache_write c d m b X).cache (cache_write c d m b X).disk b' =
        logical c d b') ∧
    (writes_succeed d (cache_read c d m b buf).disk →
      ∀ b', logical (cache_read c d m b buf).cache (cache_read c d m b buf).disk b' =
        logical c d b') ∧
    ((cache_read c d m b buf).ret = CACHE_SUCCESS →
      (cache_read c d m b buf).buffer = logical c d b) ∧
    (∀ b', logical (cache_flush c d).cache (cache_flush c d).disk b' = logical c d b') := by
  have hwf := reachable_wellFormed h
  have hcm := reachable_cleanMirrors h
  refine ⟨fun hw hret => logical_write hwf hcm m b X hw hret, ?_,
    fun hw b' => logical_read hwf hcm m b buf hw b',
    fun hret => read_returns_logical c d m b buf hret, fun b' => logical_flush c d b'⟩
  intro hret b'
  obtain ⟨h1, h2⟩ := logical_write_failed c d m b X hret
  rw [h1, h2]

theorem full_cache_write (d : Disk) (X : Block) :
    cache_write full_cache d Malloc.ok 1024 X =
      ⟨CACHE_SUCCESS,
        { full_cache with
            blocks := full_cache.blocks.eraseIdx (lru_index full_cache.blocks) ++
              [⟨1024, X, next_stamp full_cache, true⟩],
            access_counter := next_stamp full_cache },
        write_back d ⟨0, fill 204, 1, true⟩⟩ := by
  have hf : find_block full_cache 1024 = none :=
    filled_cache_not_resident (le_refl MAX_CACHE_BLOCKS)
  rw [cache_write_miss_slot d X hf (fun _ => rfl), full_cache_make_room]

/-- C19 at a concrete input: on the full cache left by writing blocks 0 to
1023, `cache_write(1024, X)` evicts block 0 with a successful write-back; the
logical content of block 1024 becomes `X` and that of block 0 and of every
other block is unchanged. -/
theorem C19_cache_transparency_witness :
    Reachable full_cache disk0 ∧
    writes_succeed disk0 (cache_write full_cache disk0 Malloc.ok 1024 (fill 221)).disk ∧
    (cache_write full_cache disk0 Malloc.ok 1024 (fill 221)).ret = CACHE_SUCCESS ∧
    (cache_write full_cache disk0 Malloc.ok 1024 (fill 221)).disk.log =
      [DiskOp.write 0 (fill 204) true] ∧
    logical (cache_write full_cache disk0 Malloc.ok 1024 (fill 221)).cache
      (cache_write full_cache disk0 Malloc.ok 1024 (fill 221)).disk 1024 = fill 221 ∧
    ∀ b', b' ≠ 1024 →
      logical (cache_write full_cache disk0 Malloc.ok 1024 (fill 221)).cache
        (cache_write full_cache disk0 Malloc.ok 1024 (fill 221)).disk b' =
        logical full_cache disk0 b' := by
  have hr := reachable_filled_cache disk0 MAX_CACHE_BLOCKS (le_refl _)
  have hW := full_cache_write disk0 (fill 221)
  have hlog : (cache_write full_cache disk0 Malloc.ok 1024 (fill 221)).disk.log =
      [DiskOp.write 0 (fill 204) true] := by
    rw [hW]
    rfl
  have hw : writes_succeed disk0 (cache_write full_cache disk0 Malloc.ok 1024 (fill 221)).disk := by
    intro id data
    rw [issued_of_append (l := [DiskOp.write 0 (fill 204) true]) (by rw [hlog]; rfl)]
    simp
  have hret : (cache_write full_cache disk0 Malloc.ok 1024 (fill 221)).ret = CACHE_SUCCESS := by
    rw [hW]
  have h := (C19_cache_transparency full_cache disk0 hr Malloc.ok 1024 (fill 221) []).1 hw hret
  exact ⟨hr, hw, hret, hlog, h.1, h.2⟩

/-- C19 as stated fails: on a fresh cache, with a disk that never fails, a
`cache_write(7, X)` whose allocation fails returns error and the logical
content of block 7 is still what the disk holds, zeros, not `X`. -/
theorem C19_write_nomem_counterexample :
    Reachable ⟨[], 0, 0, 0⟩ disk0 ∧ (∀ n, disk0.fails n = false) ∧
    (cache_write ⟨[], 0, 0, 0⟩ disk0 ⟨false, false⟩ 7 (fill 170)).ret = CACHE_ERROR ∧
    logical (cache_write ⟨[], 0, 0, 0⟩ disk0 ⟨false, false⟩ 7 (fill 170)).cache
      (cache_write ⟨[], 0, 0, 0⟩ disk0 ⟨false, false⟩ 7 (fill 170)).disk 7 = fill 0 ∧
    logical (cache_write ⟨[], 0, 0, 0⟩ disk0 ⟨false, false⟩ 7 (fill 170)).cache
      (cache_write ⟨[], 0, 0, 0⟩ disk0 ⟨false, false⟩ 7 (fill 170)).disk 7 ≠ fill 170 := by
  have hl : logical (cache_write ⟨[], 0, 0, 0⟩ disk0 ⟨false, false⟩ 7 (fill 170)).cache
      (cache_write ⟨[], 0, 0, 0⟩ disk0 ⟨false, false⟩ 7 (fill 170)).disk 7 = fill 0 := rfl
  refine ⟨Reachable.init _ _ rfl, fun _ => rfl, by decide, hl, ?_⟩
  rw [hl]
  exact fill_ne (by decide)

/-! ## C20: index safety -/

theorem find_block_indexed_eq (bs : List cache_block_t) (b : Nat) :
    ∀ (k i : Nat), bs.length - i = k →
      find_block_indexed bs bs.length b i = some (find_block_loop (bs.drop i) b i) := by
  intro k
  induction k with
  | zero =>
    intro i hk
    have hle : bs.length ≤ i := by omega
    rw [find_block_indexed, if_neg (by omega), List.drop_eq_nil_of_le hle]
    rfl
  | succ k ih =>
    intro i hk
    have hi : i < bs.length := by omega
    rw [find_block_indexed, if_pos hi, List.getElem?_eq_getElem hi, List.drop_eq_getElem_cons hi]
    simp only [find_block_loop]
    split_ifs
    · rfl
    · exact ih (i + 1) (by omega)

theorem lru_scan_indexed_eq (bs : List cache_block_t) :
    ∀ (k i l m : Nat), bs.length - i = k →
      lru_scan_indexed bs bs.length i l m = some (lru_scan (bs.drop i) i l m) := by
  intro k
  induction k with
  | zero =>
    intro i l m hk
    have hle : bs.length ≤ i := by omega
    rw [lru_scan_indexed, if_neg (by omega), List.drop_eq_nil_of_le hle]
    rfl
  | succ k ih =>
    intro i l m hk
    have hi : i < bs.length := by omega
    rw [lru_scan_indexed, if_pos hi, List.getElem?_eq_getElem hi, List.drop_eq_getElem_cons hi]
    simp only [lru_scan]
    split_ifs
    · exact ih (i + 1) _ _ (by omega)
    · exact ih (i + 1) _ _ (by omega)

theorem shift_indexed_eq (n : Nat) :
    ∀ (k : Nat) (bs : List cache_block_t) (i : Nat), bs.length = n → n - 1 - i = k → i < n →
      shift_indexed bs n i = some (bs.eraseIdx i ++ bs.drop (n - 1)) := by
  intro k
  induction k with
  | zero =>
    intro bs i hn hk hi
    have hie : i = n - 1 := by omega
    rw [shift_indexed, if_neg (by omega)]
    congr 1
    subst hie
    apply List.ext_getElem?
    intro j
    rw [List.getElem?_append, List.getElem?_eraseIdx, List.getElem?_drop, List.length_eraseIdx]
    by_cases hj : j < n - 1
    · simp [hj, hn, hi]
    · simp [hj, hn, hi]
      congr 1
      omega
  | succ k ih =>
    intro bs i hn hk hi
    have hi1 : i + 1 < bs.length := by omega
    rw [shift_indexed, if_pos (by omega), List.getElem?_eq_getElem hi1]
    simp only
    rw [ih (bs.set i bs[i + 1]) (i + 1) (by simpa using hn) (by omega) (by omega)]
    congr 2
    · apply List.ext_getElem?
      intro j
      rw [List.getElem?_eraseIdx, List.getElem?_eraseIdx]
      by_cases hj : j < i
      · simp [hj, show j < i + 1 by omega, List.getElem?_set, show i ≠ j by omega]
      · by_cases hje : j = i
        · subst hje
          simp [List.getElem?_set, hi1]
          omega
        · simp [hj, show ¬ j < i + 1 by omega, List.getElem?_set, show i ≠ j + 1 by omega]
    · apply List.ext_getElem?
      intro j
      rw [List.getElem?_drop, List.getElem?_drop, List.getElem?_set]
      rw [if_neg (by omega)]

theorem evict_block_indexed_eq (c : cache_t) (d : Disk) :
    evict_block_indexed c d = some (evict_block c d) := by
  unfold evict_block_indexed evict_block
  cases hbs : c.blocks with
  | nil => simp [cache_t.num_blocks, hbs]
  | cons b rest =>
    have hne : (b :: rest) ≠ [] := by simp
    obtain ⟨v, hv, -⟩ := lru_index_spec hne
    obtain ⟨hlt, hget⟩ := List.getElem?_eq_some_iff.mp hv
    have hscan := lru_scan_indexed_eq (b :: rest) _ 1 0 b.last_access rfl
    have hscan2 : lru_scan_indexed (b :: rest) (b :: rest).length 1 0 b.last_access =
        some (lru_index (b :: rest)) := hscan
    have hshift := shift_indexed_eq (b :: rest).length _ (b :: rest) (lru_index (b :: rest))
      rfl rfl hlt
    have hlen : ((b :: rest).eraseIdx (lru_index (b :: rest))).length =
        (b :: rest).length - 1 := by
      rw [List.length_eraseIdx, if_pos hlt]
    have hD : (b :: rest).getD (lru_index (b :: rest)) b = v := by
      rw [List.getD_eq_getElem?_getD, hv]
      rfl
    simp only [cache_t.num_blocks, hbs]
    rw [if_neg (by simp)]
    simp only [List.getElem?_cons_zero]
    rw [hscan2]
    simp only
    rw [hv]
    simp only
    rw [hshift]
    simp only
    rw [List.take_left' hlen, hD]

theorem take_succ_getElem {bs : List cache_block_t} {i : Nat} (hi : i < bs.length) :
    bs.take (i + 1) = bs.take i ++ [bs[i]] := by
  rw [List.take_succ, List.getElem?_eq_getElem hi]
  rfl

theorem take_set_succ {bs : List cache_block_t} {i : Nat} (hi : i < bs.length)
    (e : cache_block_t) : (bs.set i e).take (i + 1) = bs.take i ++ [e] := by
  have hi2 : i < (bs.set i e).length := by simpa using hi
  rw [take_succ_getElem hi2, List.getElem_set_self]
  congr 1
  apply List.ext_getElem?
  intro j
  rw [List.getElem?_take, List.getElem?_take, List.getElem?_set]
  by_cases hj : j < i
  · rw [if_pos hj, if_pos hj, if_neg (by omega)]
  · rw [if_neg hj, if_neg hj]

theorem flush_indexed_eq (n : Nat) :
    ∀ (k : Nat) (bs : List cache_block_t) (d : Disk) (i : Nat), bs.length = n → n - i = k →
      flush_indexed bs n d i =
        some ((flush_loop (bs.drop i) d).1, bs.take i ++ (flush_loop (bs.drop i) d).2.1,
          (flush_loop (bs.drop i) d).2.2) := by
  intro k
  induction k with
  | zero =>
    intro bs d i hn hk
    have hle : bs.length ≤ i := by omega
    rw [flush_indexed, if_neg (by omega), List.drop_eq_nil_of_le hle, List.take_of_length_le hle]
    simp [flush_loop]
  | succ k ih =>
    intro bs d i hn hk
    have hi : i < bs.length := by omega
    rw [flush_indexed, if_pos (by omega), List.getElem?_eq_getElem hi,
      List.drop_eq_getElem_cons hi]
    simp only [flush_loop]
    by_cases hd : bs[i].dirty = true
    · rw [if_pos hd, if_pos hd]
      by_cases hr : (disk_write d bs[i].block_id bs[i].data).1 = CACHE_SUCCESS
      · have hnr : ¬ ((disk_write d bs[i].block_id bs[i].data).1 ≠ CACHE_SUCCESS) :=
          not_not.mpr hr
        simp only [if_neg hnr]
        rw [ih (bs.set i { bs[i] with dirty := false }) _ (i + 1) (by simpa using hn) (by omega),
          take_set_succ hi, List.drop_set_of_lt _ _ (by omega : i < i + 1), List.append_assoc]
        rfl
      · simp only [if_pos hr]
        rw [← List.drop_eq_getElem_cons hi, List.take_append_drop]
    · rw [if_neg hd, if_neg hd, ih bs d (i + 1) hn (by omega), take_succ_getElem hi,
        List.append_assoc]
      rfl

theorem cache_flush_indexed_eq (c : cache_t) (d : Disk) :
    cache_flush_indexed c d = some (cache_flush c d) := by
  unfold cache_flush_indexed cache_flush
  rw [cache_t.num_blocks, flush_indexed_eq c.blocks.length _ c.blocks d 0 rfl rfl]
  simp

theorem success_ne_error : CACHE_SUCCESS ≠ CACHE_ERROR := by decide

theorem make_room_length_lt {c : cache_t} (d : Disk) (h : c.num_blocks ≤ MAX_CACHE_BLOCKS) :
    (make_room c d).1.num_blocks < MAX_CACHE_BLOCKS := by
  unfold cache_t.num_blocks at h ⊢
  by_cases hfull : MAX_CACHE_BLOCKS ≤ c.blocks.length
  · obtain ⟨v, hv, hmr⟩ := make_room_full d hfull
    obtain ⟨hlt, -⟩ := List.getElem?_eq_some_iff.mp hv
    rw [hmr]
    simp only
    rw [List.length_eraseIdx, if_pos hlt]
    omega
  · rw [make_room_room d (by omega)]
    simp only
    omega

theorem evict_block_some {c : cache_t} (d : Disk) (h : MAX_CACHE_BLOCKS ≤ c.num_blocks) :
    (evict_block c d).1 ≠ none := by
  obtain ⟨v, -, hev⟩ := evict_block_eq d (max_cache_blocks_pos h)
  rw [hev]
  simp

theorem cache_write_error {c : cache_t} {d : Disk} {m : Malloc} {b : Nat} {X : Block}
    (h : (cache_write c d m b X).ret = CACHE_ERROR) :
    c.num_blocks < MAX_CACHE_BLOCKS ∧ m ≠ Malloc.ok := by
  rcases cache_write_cases c d m b X with ⟨i, e, -, hw⟩ | ⟨-, -, v, -, hw⟩ | ⟨-, -, -, hw⟩ |
    ⟨-, hlen, hm, -⟩
  · rw [hw] at h
    exact absurd h success_ne_error
  · rw [hw] at h
    exact absurd h success_ne_error
  · rw [hw] at h
    exact absurd h success_ne_error
  · exact ⟨hlen, hm⟩

theorem cache_read_error {c : cache_t} {d : Disk} {m : Malloc} {b : Nat} {buf : Block}
    (h : (cache_read c d m b buf).ret = CACHE_ERROR) :
    (c.num_blocks < MAX_CACHE_BLOCKS ∧ m ≠ Malloc.ok) ∨
      (cache_read c d m b buf).disk.log.head? = some (DiskOp.read b false) := by
  cases hf : find_block c b with
  | some p =>
    obtain ⟨i, e⟩ := p
    rw [cache_read_hit d m buf hf] at h
    exact absurd h success_ne_error
  | none =>
    by_cases hm : c.blocks.length < MAX_CACHE_BLOCKS → m = Malloc.ok
    · cases hr : (make_room c d).2.next_fails with
      | false =>
        rw [cache_read_miss_ok d buf hf hm hr] at h
        exact absurd h success_ne_error
      | true =>
        right
        rw [cache_read_miss_fail d buf hf hm hr]
        rfl
    · left
      exact ⟨by_contra fun hlen => hm fun h' => absurd h' hlen, fun hok => hm fun _ => hok⟩

theorem cache_write_insert_index {c : cache_t} (d : Disk) {m : Malloc} {b : Nat} (X : Block)
    (hf : find_block c b = none) (hret : (cache_write c d m b X).ret = CACHE_SUCCESS) :
    (cache_write c d m b X).cache.blocks[(make_room c d).1.num_blocks]? =
        some ⟨b, X, next_stamp c, true⟩ ∧
      (cache_write c d m b X).cache.num_blocks = (make_room c d).1.num_blocks + 1 := by
  by_cases hm : c.blocks.length < MAX_CACHE_BLOCKS → m = Malloc.ok
  · rw [cache_write_miss_slot d X hf hm]
    simp [cache_t.num_blocks]
  · have hlen : c.blocks.length < MAX_CACHE_BLOCKS :=
      by_contra fun hlen => hm fun h' => absurd h' hlen
    rw [cache_write_miss_nomem d X hf hlen (fun hok => hm fun _ => hok)] at hret
    exact absurd hret.symm success_ne_error

theorem cache_read_insert_index {c : cache_t} (d : Disk) {m : Malloc} {b : Nat} (buf : Block)
    (hf : find_block c b = none) (hret : (cache_read c d m b buf).ret = CACHE_SUCCESS) :
    (cache_read c d m b buf).cache.blocks[(make_room c d).1.num_blocks]? =
        some ⟨b, d.store b, next_stamp c, false⟩ ∧
      (cache_read c d m b buf).cache.num_blocks = (make_room c d).1.num_blocks + 1 := by
  by_cases hm : c.blocks.length < MAX_CACHE_BLOCKS → m = Malloc.ok
  · cases hr : (make_room c d).2.next_fails with
    | false =>
      rw [cache_read_miss_ok d buf hf hm hr]
      simp [cache_t.num_blocks]
    | true =>
      rw [cache_read_miss_fail d buf hf hm hr] at hret
      exact absurd hret.symm success_ne_error
  · have hlen : c.blocks.length < MAX_CACHE_BLOCKS :=
      by_contra fun hlen => hm fun h' => absurd h' hlen
    rw [cache_read_miss_nomem d buf hf hlen (fun hok => hm fun _ => hok)] at hret
    exact absurd hret.symm success_ne_error

/-- C20: in every state with `num_blocks ≤ MAX_CACHE_BLOCKS`, `cache_read` and
`cache_write` call `evict_block` only when `num_blocks ≥ MAX_CACHE_BLOCKS ≥ 1`,
so it returns a victim, not `NULL`, and an error result of `cache_write` or
`cache_read` comes from a failed allocation with room left or from a failed
disk read, never from the branch after the call; `find_block`, `evict_block`
and `cache_flush` run with the array indexed as in the source read `blocks[i]`
only at indices below `num_blocks` and compute what the list model computes;
and the insertion `blocks[num_blocks++] = block` of a miss stores the new entry
at an index below `MAX_CACHE_BLOCKS`. -/
theorem C20_index_safety (c : cache_t) (d : Disk) (h : c.num_blocks ≤ MAX_CACHE_BLOCKS)
    (m : Malloc) (b : Nat) (X buf : Block) :
    (MAX_CACHE_BLOCKS ≤ c.num_blocks →
      1 ≤ c.num_blocks ∧ (evict_block c d).1 ≠ none ∧
        (evict_block (count_miss c) d).1 ≠ none) ∧
    ((cache_write c d m b X).ret = CACHE_ERROR →
      c.num_blocks < MAX_CACHE_BLOCKS ∧ m ≠ Malloc.ok) ∧
    ((cache_read c d m b buf).ret = CACHE_ERROR →
      (c.num_blocks < MAX_CACHE_BLOCKS ∧ m ≠ Malloc.ok) ∨
        (cache_read c d m b buf).disk.log.head? = some (DiskOp.read b false)) ∧
    find_block_indexed c.blocks c.num_blocks b 0 = some (find_block c b) ∧
    evict_block_indexed c d = some (evict_block c d) ∧
    cache_flush_indexed c d = some (cache_flush c d) ∧
    (find_block c b = none → (cache_write c d m b X).ret = CACHE_SUCCESS →
      (make_room c d).1.num_blocks < MAX_CACHE_BLOCKS ∧
      (cache_write c d m b X).cache.blocks[(make_room c d).1.num_blocks]? =
        some ⟨b, X, next_stamp c, true⟩ ∧
      (cache_write c d m b X).cache.num_blocks = (make_room c d).1.num_blocks + 1) ∧
    (find_block c b = none → (cache_read c d m b buf).ret = CACHE_SUCCESS →
      (make_room c d).1.num_blocks < MAX_CACHE_BLOCKS ∧
      (cache_read c d m b buf).cache.blocks[(make_room c d).1.num_blocks]? =
        some ⟨b, d.store b, next_stamp c, false⟩ ∧
      (cache_read c d m b buf).cache.num_blocks = (make_room c d).1.num_blocks + 1) := by
  refine ⟨fun hfull => ⟨?_, evict_block_some d hfull, evict_block_some d hfull⟩,
    cache_write_error, cache_read_error, ?_, evict_block_indexed_eq c d,
    cache_flush_indexed_eq c d,
    fun hf hret => ⟨make_room_length_lt d h, cache_write_insert_index d X hf hret⟩,
    fun hf hret => ⟨make_room_length_lt d h, cache_read_insert_index d buf hf hret⟩⟩
  · have : 1 ≤ MAX_CACHE_BLOCKS := by decide
    omega
  · exact find_block_indexed_eq c.blocks b _ 0 rfl

/-- C20 at a concrete input: the full cache left by writing blocks 0 to 1023
has `num_blocks = MAX_CACHE_BLOCKS`; `evict_block` on it returns a victim, the
indexed loops stay below `num_blocks`, and `cache_write(1024, X)` stores the
new entry at index 1023. -/
theorem C20_index_safety_witness :
    full_cache.num_blocks ≤ MAX_CACHE_BLOCKS ∧
    (evict_block full_cache disk0).1 ≠ none ∧
    find_block_indexed full_cache.blocks full_cache.num_blocks 1024 0 =
      some (find_block full_cache 1024) ∧
    evict_block_indexed full_cache disk0 = some (evict_block full_cache disk0) ∧
    cache_flush_indexed full_cache disk0 = some (cache_flush full_cache disk0) ∧
    (make_room full_cache disk0).1.num_blocks = 1023 ∧
    (cache_write full_cache disk0 Malloc.ok 1024 (fill 221)).cache.blocks[1023]? =
      some ⟨1024, fill 221, next_stamp full_cache, true⟩ := by
  have hlen : full_cache.num_blocks = MAX_CACHE_BLOCKS := full_cache_length
  have hf : find_block full_cache 1024 = none :=
    filled_cache_not_resident (le_refl MAX_CACHE_BLOCKS)
  have hret : (cache_write full_cache disk0 Malloc.ok 1024 (fill 221)).ret = CACHE_SUCCESS := by
    rw [full_cache_write]
  obtain ⟨h1, -, -, h4, h5, h6, h7, -⟩ :=
    C20_index_safety full_cache disk0 (le_of_eq hlen) Malloc.ok 1024 (fill 221) []
  obtain ⟨-, h72, h73⟩ := h7 hf hret
  have h1023 : (make_room full_cache disk0).1.num_blocks = 1023 := by
    have hw : (cache_write full_cache disk0 Malloc.ok 1024 (fill 221)).cache.num_blocks =
        1024 := by
      rw [full_cache_write]
      simp only [cache_t.num_blocks, List.length_append, List.length_eraseIdx,
        List.length_singleton]
      have hl := full_cache_length
      have hv := full_cache_lru
      obtain ⟨hlt, -⟩ := List.getElem?_eq_some_iff.mp hv
      rw [if_pos hlt, hl]
      rfl
    omega
  rw [h1023] at h72
  exact ⟨le_of_eq hlen, (h1 (le_of_eq hlen.symm)).2.1, h4, h5, h6, h1023, h72⟩

end CacheFramework
